import Mathlib

/-! # A free-list memory allocator: `getmem` / `freemem`

Shallow embedding of `getmem.c`, `freemem.c`, `mem_utils.c` and
`get_mem_stats.c`.

* `uintptr_t` values are natural numbers below `WORD = 2 ^ 64`; every
  arithmetic operation of the C code is reduced modulo `WORD`.
* The heap is a typed heap of `FreeNode` headers: `mem a` is the header stored
  at address `a`.  `NULL` is address `0`; reading or writing a field through
  `NULL` is the fault `Fault.nullDeref`.
* A failed `assert` of `check_heap` is the fault `Fault.assertFailed`.
* Loops over the linked list take a fuel argument and give
  `Fault.outOfFuel` when it runs out.
* `malloc` is an argument `sys` of the operations: `sys n` is the answer of the
  system allocator to a request for `n` bytes (`0` for `NULL`).
-/

namespace MemAlloc

/-- Modulus of the machine word `uintptr_t` on the 64-bit reference system. -/
def WORD : Nat := 2 ^ 64

/-- The value of `sizeof(FreeNode)`: two 8-byte fields. -/
def NSIZE : Nat := 16

/-- The constant `MEM_CHUNK` of getmem.c. -/
def MEM_CHUNK : Nat := 8000

/-- The constant `BYTE_ALIGN` of getmem.c. -/
def BYTE_ALIGN : Nat := 16

/-- The constant `SPLIT_CONSTANT` of getmem.c. -/
def SPLIT_CONSTANT : Nat := 32

/-- Wrapping addition of `uintptr_t`. -/
def wadd (a b : Nat) : Nat := (a + b) % WORD

/-- Wrapping subtraction of `uintptr_t`. -/
def wsub (a b : Nat) : Nat := (a + (WORD - b % WORD)) % WORD

/-- The struct `FreeNode` of mem_impl.h. -/
structure FreeNode where
  next : Nat
  size : Nat
deriving DecidableEq

/-- Ways in which a run of the C program stops without returning. -/
inductive Fault where
  | assertFailed
  | nullDeref
  | outOfFuel
deriving DecidableEq

/-- The globals of getmem.c together with the heap they point into.
`sysLog` is a ghost record of the calls made to `malloc`, newest first, as
pairs (bytes requested, pointer answered). -/
structure State where
  head : Nat
  totalSize : Nat
  totalFree : Nat
  freeBlocks : Nat
  mem : Nat → FreeNode
  sysLog : List (Nat × Nat)

/-- The state at program start: `head = NULL`, all counters `0`. -/
def State.init : State :=
  ⟨0, 0, 0, 0, fun _ => ⟨0, 0⟩, []⟩

/-- Read `a->next`. -/
def getNext (st : State) (a : Nat) : Except Fault Nat :=
  if a = 0 then .error .nullDeref else .ok (st.mem a).next

/-- Read `a->size`. -/
def getSize (st : State) (a : Nat) : Except Fault Nat :=
  if a = 0 then .error .nullDeref else .ok (st.mem a).size

/-- Heap update `a->next = v`. -/
def updNext (m : Nat → FreeNode) (a v : Nat) : Nat → FreeNode :=
  fun x => if x = a then ⟨v, (m a).size⟩ else m x

/-- Heap update `a->size = v`. -/
def updSize (m : Nat → FreeNode) (a v : Nat) : Nat → FreeNode :=
  fun x => if x = a then ⟨(m a).next, v⟩ else m x

/-- Execute `a->next = v`. -/
def setNext (st : State) (a v : Nat) : Except Fault State :=
  if a = 0 then .error .nullDeref else .ok { st with mem := updNext st.mem a v }

/-- Execute `a->size = v`. -/
def setSize (st : State) (a v : Nat) : Except Fault State :=
  if a = 0 then .error .nullDeref else .ok { st with mem := updSize st.mem a v }

/-! ## mem_utils.c -/

/-- The loop of `check_heap`, started at `current`. -/
def check_heap_loop (m : Nat → FreeNode) : Nat → Nat → Except Fault Unit
  | 0, _ => .error .outOfFuel
  | fuel + 1, current =>
    if current = 0 then .ok ()
    else if ¬ (16 ≤ (m current).size) then .error .assertFailed
    else if (m current).next ≠ 0 ∧
        ¬ ((current + NSIZE + (m current).size) % WORD < (m current).next) then
      .error .assertFailed
    else check_heap_loop m fuel (m current).next

/-- The function `check_heap` of mem_utils.c. -/
def check_heap (fuel : Nat) (st : State) : Except Fault Unit :=
  check_heap_loop st.mem fuel st.head

/-! ## getmem.c -/

/-- The function `align` of getmem.c. -/
def align (size : Nat) : Nat :=
  if size < BYTE_ALIGN then BYTE_ALIGN
  else if size % BYTE_ALIGN ≠ 0 then (size + (BYTE_ALIGN - size % BYTE_ALIGN)) % WORD
  else size

/-- The function `newNode` of getmem.c; `sys` is `malloc`. -/
def newNode (sys : Nat → Nat) (size : Nat) (st : State) : Nat × State :=
  let msize := (size + NSIZE) % WORD
  let node := sys msize
  let st := { st with sysLog := (msize, node) :: st.sysLog }
  if node ≠ 0 then
    (node, { st with
      mem := fun x => if x = node then ⟨0, size⟩ else st.mem x
      totalSize := (st.totalSize + msize) % WORD
      totalFree := (st.totalFree + msize) % WORD
      freeBlocks := (st.freeBlocks + 1) % WORD })
  else (node, st)

/-- Read `*prevPtr` where `prevPtr = prev ? &(prev->next) : &head`. -/
def readLink (st : State) (prev : Nat) : Nat :=
  if prev ≠ 0 then (st.mem prev).next else st.head

/-- Write `*prevPtr = v` where `prevPtr = prev ? &(prev->next) : &head`. -/
def writeLink (st : State) (prev v : Nat) : State :=
  if prev ≠ 0 then { st with mem := updNext st.mem prev v } else { st with head := v }

/-- The function `splitNode` of getmem.c, called as `splitNode(&prev, size)`. -/
def splitNode (prev size : Nat) (st : State) : Except Fault (Nat × State) := do
  let current := readLink st prev
  let csize ← getSize st current
  let st ←
    if csize > (size + SPLIT_CONSTANT) % WORD then do
      let st := writeLink st prev ((current + NSIZE + size) % WORD)
      let cnext ← getNext st current
      let st ← setNext st (readLink st prev) cnext
      let csize ← getSize st current
      let st ← setSize st (readLink st prev) (wsub (wsub csize NSIZE) size)
      setSize st current size
    else do
      let cnext ← getNext st current
      let st := writeLink st prev cnext
      pure { st with freeBlocks := wsub st.freeBlocks 1 }
  let csize ← getSize st current
  let st := { st with totalFree := wsub st.totalFree (wadd csize NSIZE) }
  pure (wadd current NSIZE, st)

/-- The `while (current)` loop of `getmem`.  The result is `(true, prev)` when
the loop body reaches `return splitNode(&prev, size)` and `(false, prev)` when
the loop ends because `current` is `NULL`. -/
def getmem_loop (m : Nat → FreeNode) (size : Nat) : Nat → Nat → Nat → Except Fault (Bool × Nat)
  | 0, _, _ => .error .outOfFuel
  | fuel + 1, prev, current =>
    if current = 0 then .ok (false, prev)
    else if (m current).size ≥ size then .ok (true, prev)
    else getmem_loop m size fuel current (m current).next

/-- The function `getmem` of getmem.c. -/
def getmem (fuel : Nat) (sys : Nat → Nat) (size : Nat) (st : State) :
    Except Fault (Nat × State) := do
  check_heap fuel st
  if size ≤ 0 then pure (0, st)
  else
    let size := align size
    let st :=
      if st.head ≠ 0 then st
      else
        let r := newNode sys (if size > MEM_CHUNK then size else MEM_CHUNK) st
        { r.2 with head := r.1 }
    if st.head = 0 then pure (0, st)
    else do
      let r ← getmem_loop st.mem size fuel 0 st.head
      if r.1 then splitNode r.2 size st
      else do
        let n := newNode sys (if size > MEM_CHUNK then size else MEM_CHUNK) st
        let st ← setNext n.2 r.2 n.1
        check_heap fuel st
        splitNode r.2 size st

/-! ## freemem.c -/

/-- The `while (nextNode && nextNode < node)` loop of `freemem`; the result is
the final `(current, nextNode)`. -/
def freemem_loop (m : Nat → FreeNode) (node : Nat) : Nat → Nat → Nat → Except Fault (Nat × Nat)
  | 0, _, _ => .error .outOfFuel
  | fuel + 1, current, nextNode =>
    if nextNode ≠ 0 ∧ nextNode < node then
      freemem_loop m node fuel nextNode (m nextNode).next
    else .ok (current, nextNode)

/-- The branch `p is before the start of free list` of `freemem`. -/
def freemem_front (p node currSize : Nat) (st : State) : Except Fault State :=
  if wadd p currSize = st.head then do
    let hnext ← getNext st st.head
    let st ← setNext st node hnext
    let hsize ← getSize st st.head
    let st ← setSize st node (wadd (wadd hsize currSize) NSIZE)
    let st := { st with head := node }
    pure { st with freeBlocks := wsub st.freeBlocks 1 }
  else do
    let st ← setNext st node st.head
    pure { st with head := node }

/-- The first `if` chain of the branch `p is after the start of free list`:
merge `node` into `current` when they touch, else link it behind `current`. -/
def freemem_link (current node currSize : Nat) (st : State) : Except Fault State :=
  if current ≠ 0 ∧ wadd (wadd current NSIZE) (st.mem current).size = node then do
    let csz ← getSize st current
    let st ← setSize st current (wadd (wadd csz currSize) NSIZE)
    pure { st with freeBlocks := wsub st.freeBlocks 1 }
  else if current ≠ 0 then do
    let cnext ← getNext st current
    let st ← setNext st node cnext
    setNext st current node
  else do
    let st := { st with head := node }
    setNext st node 0

/-- The second `if` of the branch `p is after the start of free list`: absorb
`nextNode` when `node` touches it. -/
def freemem_absorb (current nextNode node currSize : Nat) (st : State) : Except Fault State :=
  if nextNode ≠ 0 ∧ wadd (wadd node NSIZE) currSize = nextNode then do
    let st := { st with freeBlocks := wsub st.freeBlocks 1 }
    let cnext ← getNext st current
    if cnext = node then do
      let nsz ← getSize st node
      let nnsz ← getSize st nextNode
      let st ← setSize st node (wadd (wadd nsz nnsz) NSIZE)
      let nnext ← getNext st nextNode
      setNext st node nnext
    else do
      let nnext ← getNext st nextNode
      let st ← setNext st current nnext
      let csz ← getSize st current
      let nnsz ← getSize st nextNode
      setSize st current (wadd (wadd csz nnsz) NSIZE)
  else pure st

/-- The branch `p is after the start of free list` of `freemem`. -/
def freemem_back (fuel node currSize : Nat) (st : State) : Except Fault State := do
  let nextNode ← if st.head ≠ 0 then getNext st st.head else pure 0
  let r ← freemem_loop st.mem node fuel st.head nextNode
  let st ← freemem_link r.1 node currSize st
  freemem_absorb r.1 r.2 node currSize st

/-- The statements of `freemem` between its two calls of `check_heap`. -/
def freemem_body (fuel : Nat) (p : Nat) (st : State) : Except Fault State := do
  let node := wsub p NSIZE
  let currSize ← getSize st node
  let st := { st with totalFree := wadd st.totalFree (wadd currSize NSIZE) }
  let st := { st with freeBlocks := wadd st.freeBlocks 1 }
  if node < st.head then freemem_front p node currSize st
  else freemem_back fuel node currSize st

/-- The function `freemem` of freemem.c. -/
def freemem (fuel : Nat) (p : Nat) (st : State) : Except Fault State :=
  if p = 0 then pure st
  else do
    check_heap fuel st
    let st ← freemem_body fuel p st
    check_heap fuel st
    pure st

/-! ## get_mem_stats.c -/

/-- The function `get_mem_stats`: the three values stored through its
arguments. -/
def get_mem_stats (st : State) : Nat × Nat × Nat :=
  (st.totalSize, st.totalFree, st.freeBlocks)

/-! ## Abstract view of the free list -/

/-- One past the highest address of storage handed out by the system
allocator: the last header-sized slot of the 64-bit address space is never
part of a chunk, so that a block's end address and a node size plus
`SPLIT_CONSTANT` are representable without wrapping. -/
def ADDR_LIMIT : Nat := WORD - NSIZE

/-- The linked list starting at pointer `h` in heap `m` consists of the nodes
`L`, given as pairs (address, size), in list order, and ends with `NULL`. -/
def Repr (m : Nat → FreeNode) : Nat → List (Nat × Nat) → Prop
  | h, [] => h = 0
  | h, x :: rest => h = x.1 ∧ x.1 ≠ 0 ∧ (m x.1).size = x.2 ∧ Repr m (m x.1).next rest

/-- Invariants 1 to 3 and 5 of the free list, for nodes above address `lo`:
every node starts strictly above `lo`, its bytes lie below `ADDR_LIMIT`, and
the rest of the list lies strictly above its end `address + NSIZE + size`
(strictly increasing addresses, no overlap, no touching).  With `lo = 0` the
first node is not `NULL`. -/
def Gaps : Nat → List (Nat × Nat) → Prop
  | _, [] => True
  | lo, x :: rest => lo < x.1 ∧ x.1 + NSIZE + x.2 ≤ ADDR_LIMIT ∧ Gaps (x.1 + NSIZE + x.2) rest

/-- Invariant 4 of the free list: every node has at least the minimum size. -/
def MinSize (L : List (Nat × Nat)) : Prop := ∀ x ∈ L, 16 ≤ x.2

/-- The free list invariants of the data model. -/
def ValidList (L : List (Nat × Nat)) : Prop := Gaps 0 L ∧ MinSize L

/-- The free list of state `st` is `L`. -/
def FreeList (st : State) (L : List (Nat × Nat)) : Prop := Repr st.mem st.head L

/-- Sum over the nodes of a list of `size + NSIZE`. -/
def spanSum : List (Nat × Nat) → Nat
  | [] => 0
  | x :: rest => x.2 + NSIZE + spanSum rest

/-- Address of the last node of `L`, or `p` when `L` is empty. -/
def lastAddr (p : Nat) : List (Nat × Nat) → Nat
  | [] => p
  | x :: rest => lastAddr x.1 rest

/-- Put node `x` in front of a list that lies above it, absorbing the first
node of the list when `x` touches it. -/
def pushMerge (x : Nat × Nat) : List (Nat × Nat) → List (Nat × Nat)
  | [] => [x]
  | y :: rest =>
    if x.1 + NSIZE + x.2 = y.1 then (x.1, x.2 + NSIZE + y.2) :: rest else x :: y :: rest

/-- The free list after block `x` (address, size) is released into the
address-ordered list `L`: `x` is put at its address position and merged with
the nodes it touches. -/
def coalesce (x : Nat × Nat) : List (Nat × Nat) → List (Nat × Nat)
  | [] => [x]
  | y :: rest =>
    if x.1 < y.1 then pushMerge x (y :: rest)
    else if y.1 + NSIZE + y.2 = x.1 then pushMerge (y.1, y.2 + NSIZE + x.2) rest
    else y :: coalesce x rest

/-- The free list after `size` bytes are carved out of the first node that is
large enough: that node is replaced by its remainder, or removed when it is
granted whole. -/
def carve (size : Nat) : List (Nat × Nat) → List (Nat × Nat)
  | [] => []
  | y :: rest =>
    if size ≤ y.2 then
      if y.2 > size + SPLIT_CONSTANT then (y.1 + NSIZE + size, y.2 - NSIZE - size) :: rest
      else rest
    else y :: carve size rest

/-- The block granted when `size` bytes are carved out of the first node of
`L` that is large enough, as (address, recorded size). -/
def granted (size : Nat) : List (Nat × Nat) → Option (Nat × Nat)
  | [] => none
  | y :: rest =>
    if size ≤ y.2 then
      some (y.1, if y.2 > size + SPLIT_CONSTANT then size else y.2)
    else granted size rest

/-- The byte range of block `x` does not overlap the byte range of `y`. -/
def Apart (x y : Nat × Nat) : Prop :=
  x.1 + NSIZE + x.2 ≤ y.1 ∨ y.1 + NSIZE + y.2 ≤ x.1

/-- Decision procedure for `Repr`. -/
instance Repr.dec (m : Nat → FreeNode) : ∀ (h : Nat) (L : List (Nat × Nat)), Decidable (Repr m h L)
  | h, [] => inferInstanceAs (Decidable (h = 0))
  | h, x :: rest =>
    have := Repr.dec m (m x.1).next rest
    inferInstanceAs (Decidable (h = x.1 ∧ x.1 ≠ 0 ∧ (m x.1).size = x.2 ∧ Repr m (m x.1).next rest))

/-- Decision procedure for `Gaps`. -/
instance Gaps.dec : ∀ (lo : Nat) (L : List (Nat × Nat)), Decidable (Gaps lo L)
  | _, [] => inferInstanceAs (Decidable True)
  | lo, x :: rest =>
    have := Gaps.dec (x.1 + NSIZE + x.2) rest
    inferInstanceAs (Decidable (lo < x.1 ∧ x.1 + NSIZE + x.2 ≤ ADDR_LIMIT ∧ Gaps (x.1 + NSIZE + x.2) rest))

/-- Decision procedure for `MinSize`. -/
instance MinSize.dec (L : List (Nat × Nat)) : Decidable (MinSize L) :=
  inferInstanceAs (Decidable (∀ x ∈ L, 16 ≤ x.2))

/-- Decision procedure for `ValidList`. -/
instance ValidList.dec (L : List (Nat × Nat)) : Decidable (ValidList L) :=
  inferInstanceAs (Decidable (Gaps 0 L ∧ MinSize L))

/-- Decision procedure for `FreeList`. -/
instance FreeList.dec (st : State) (L : List (Nat × Nat)) : Decidable (FreeList st L) :=
  Repr.dec st.mem st.head L

/-- Decision procedure for `Apart`. -/
instance Apart.dec (x y : Nat × Nat) : Decidable (Apart x y) :=
  inferInstanceAs (Decidable (_ ∨ _))

/-! ## Runs of the allocator -/

/-- The block behind pointer `p` returned by `getmem`, as (address of its
header, size recorded in its header). -/
def blk (st : State) (p : Nat) : Nat × Nat := (p - NSIZE, (st.mem (p - NSIZE)).size)

/-- Sum over the pointers `live` of `NSIZE` plus the size recorded in the
header of the block. -/
def liveSum (st : State) (live : List Nat) : Nat :=
  (live.map (fun p => NSIZE + (st.mem (p - NSIZE)).size)).sum

/-- Byte `x` lies in a chunk that `malloc` has handed out. -/
def Covered (log : List (Nat × Nat)) (x : Nat) : Prop :=
  ∃ e ∈ log, e.2 ≠ 0 ∧ e.2 ≤ x ∧ x < e.2 + e.1

/-- Every byte of block `y` lies in a chunk that `malloc` has handed out. -/
def InChunks (log : List (Nat × Nat)) (y : Nat × Nat) : Prop :=
  ∀ x, y.1 ≤ x → x < y.1 + NSIZE + y.2 → Covered log x

/-- Modelled from the spec: the system allocator `malloc`, which is not part
of the sources.  A successful answer `a` to a request for `n` bytes, `n = 0`
included, is storage of `n` bytes below `ADDR_LIMIT` that is disjoint from
every chunk handed out earlier (`log`). -/
def ChunkOK (log : List (Nat × Nat)) (n a : Nat) : Prop :=
  a + n ≤ ADDR_LIMIT ∧ ∀ e ∈ log, e.2 ≠ 0 → a + n ≤ e.2 ∨ e.2 + e.1 ≤ a

/-- A chunk as in `ChunkOK` that has room for at least one header: the chunks
that `newNode` obtains when its byte count `size + sizeof(FreeNode)` does not
wrap around. -/
def ChunkFit (log : List (Nat × Nat)) (n a : Nat) : Prop :=
  NSIZE ≤ n ∧ a + n ≤ ADDR_LIMIT ∧ ∀ e ∈ log, e.2 ≠ 0 → a + n ≤ e.2 ∨ e.2 + e.1 ≤ a

/-- Modelled from the spec: a behaviour `sys` of the system allocator that,
for every request, fails (`NULL`) or answers with a fresh chunk. -/
def SysOK (log : List (Nat × Nat)) (sys : Nat → Nat) : Prop :=
  ∀ n, sys n = 0 ∨ ChunkOK log n (sys n)

/-- Total number of bytes obtained from `malloc`. -/
def chunkSum : List (Nat × Nat) → Nat
  | [] => 0
  | e :: rest => (if e.2 = 0 then 0 else e.1) + chunkSum rest

/-- Every successful answer in the record of calls to `malloc` was a fresh
chunk with room for a header when it was given. -/
def LogOK : List (Nat × Nat) → Prop
  | [] => True
  | e :: rest => (e.2 = 0 ∨ ChunkFit rest e.1 e.2) ∧ LogOK rest

/-- States reachable from the empty allocator by calls of `getmem` and
`freemem` that returned, together with the pointers returned by `getmem` and
not yet released.  Every call of `getmem` may face a different behaviour
`sys` of the system allocator; `freemem` is called with `NULL` or with a
pointer that is still allocated. -/
inductive Reach : State → List Nat → Prop
  | init : Reach State.init []
  | acquire (st : State) (live : List Nat) (fuel : Nat) (sys : Nat → Nat) (r p : Nat)
      (st2 : State) : Reach st live → r < WORD → SysOK st.sysLog sys →
      getmem fuel sys r st = .ok (p, st2) → Reach st2 (if p = 0 then live else p :: live)
  | release (st : State) (live : List Nat) (fuel p : Nat) (st2 : State) :
      Reach st live → p ∈ live → freemem fuel p st = .ok st2 → Reach st2 (live.erase p)
  | releaseNull (st : State) (live : List Nat) (fuel : Nat) (st2 : State) :
      Reach st live → freemem fuel 0 st = .ok st2 → Reach st2 live

/-- The states of `Reach` that are reached by calls of `getmem` in which the
byte count `size + sizeof(FreeNode)` of `newNode` cannot wrap around: every
request `r` has `align r + NSIZE < WORD`.  This leaves out the requests with
`2^64 - 32 < r ≤ 2^64 - 16`, for which `newNode` calls `malloc(0)`. -/
inductive ReachSafe : State → List Nat → Prop
  | init : ReachSafe State.init []
  | acquire (st : State) (live : List Nat) (fuel : Nat) (sys : Nat → Nat) (r p : Nat)
      (st2 : State) : ReachSafe st live → r < WORD → align r + NSIZE < WORD →
      SysOK st.sysLog sys → getmem fuel sys r st = .ok (p, st2) →
      ReachSafe st2 (if p = 0 then live else p :: live)
  | release (st : State) (live : List Nat) (fuel p : Nat) (st2 : State) :
      ReachSafe st live → p ∈ live → freemem fuel p st = .ok st2 →
      ReachSafe st2 (live.erase p)
  | releaseNull (st : State) (live : List Nat) (fuel : Nat) (st2 : State) :
      ReachSafe st live → freemem fuel 0 st = .ok st2 → ReachSafe st2 live

/-- The facts about a state with free list `L` and allocated pointers `live`
that every run of `ReachSafe` maintains, apart from `FreeList st L` itself. -/
structure Abs (st : State) (live : List Nat) (L : List (Nat × Nat)) : Prop where
  gaps : Gaps 0 L
  minSize : MinSize L
  livePos : ∀ p ∈ live, NSIZE < p
  liveLim : ∀ p ∈ live, p + (blk st p).2 ≤ ADDR_LIMIT
  liveApart : live.Pairwise (fun p q => Apart (blk st p) (blk st q))
  freeApart : ∀ p ∈ live, ∀ y ∈ L, Apart (blk st p) y
  covFree : ∀ y ∈ L, InChunks st.sysLog y
  covLive : ∀ p ∈ live, InChunks st.sysLog (blk st p)
  logOK : LogOK st.sysLog
  fb : st.freeBlocks = L.length
  tf : st.totalFree = spanSum L
  ts : st.totalSize = spanSum L + liveSum st live
  tsLog : st.totalSize = chunkSum st.sysLog

/-! ## Concrete runs -/

/-- A behaviour of `malloc`: a request for exactly `n` bytes is answered with
address `a`, every other request fails. -/
def sysAt (n a : Nat) : Nat → Nat := fun m => if m = n then a else 0

/-- The behaviour of `malloc` that always fails. -/
def sysFail : Nat → Nat := fun _ => 0

/-- The state left by a call of `getmem` that returned, the start state
otherwise. -/
def stateOf : Except Fault (Nat × State) → State
  | .ok r => r.2
  | .error _ => State.init

/-- The state after `getmem(100)` on the empty allocator, the chunk being
handed out at address 4096. -/
def afterOne : State := stateOf (getmem 8 (sysAt 8016 4096) 100 State.init)

/-- The state after three calls `getmem(100)` on the empty allocator. -/
def afterThree : State :=
  stateOf (getmem 8 sysFail 100 (stateOf (getmem 8 sysFail 100 afterOne)))

/-- The state left by a call of `freemem` that returned, the start state
otherwise. -/
def releasedState : Except Fault State → State
  | .ok st => st
  | .error _ => State.init

/-- The state after `getmem(10)` and `getmem(4000)` on the empty allocator,
the chunk being handed out at address 4096. -/
def afterTwo : State :=
  stateOf (getmem 8 sysFail 4000 (stateOf (getmem 8 (sysAt 8016 4096) 10 State.init)))

/-- The state `afterTwo` after the first pointer, 4112, has been released. -/
def afterGap : State := releasedState (freemem 8 4112 afterTwo)

/-- The state `afterThree` after the first and the third pointer, 4112 and
4368, have been released: the block behind 4240 lies between two free
nodes and touches both. -/
def afterHole : State :=
  releasedState (freemem 8 4368 (releasedState (freemem 8 4112 afterThree)))

/-- Node `x` ends strictly below the start of node `y`: the condition that
`check_heap` asserts for a node and its successor. -/
def Before (x y : Nat × Nat) : Prop := x.1 + NSIZE + x.2 < y.1

/-- Decision procedure for `Before`. -/
instance Before.dec (x y : Nat × Nat) : Decidable (Before x y) :=
  inferInstanceAs (Decidable (_ < _))

/-- The state after two calls `getmem(8000)` on the empty allocator, each
served whole from a chunk of its own, the first chunk at 4096, the second
right behind it at 12112, followed by the release of both pointers. -/
def spanState : State :=
  releasedState (freemem 8 12128 (releasedState (freemem 8 4112
    (stateOf (getmem 8 (sysAt 8016 12112) 8000
      (stateOf (getmem 8 (sysAt 8016 4096) 8000 State.init)))))))

/-- Address and size of block `y` are multiples of 16. -/
def AlignedBlk (y : Nat × Nat) : Prop := y.1 % 16 = 0 ∧ y.2 % 16 = 0

/-- Decision procedure for `AlignedBlk`. -/
instance AlignedBlk.dec (y : Nat × Nat) : Decidable (AlignedBlk y) :=
  inferInstanceAs (Decidable (_ ∧ _))

/-- Byte `x` lies in a node of the list `L`. -/
def FreeByte (L : List (Nat × Nat)) (x : Nat) : Prop :=
  ∃ y ∈ L, y.1 ≤ x ∧ x < y.1 + NSIZE + y.2

/-- The state after `getmem(100)` with the chunk at 100000, `getmem(7872)`,
which takes the rest of the chunk, `getmem(2^64 - 16)` with `malloc(0)`
answering 4096, and the release of the first pointer, 100016. -/
def overlapState : State :=
  releasedState (freemem 8 100016
    (stateOf (getmem 8 (sysAt 0 4096) (2 ^ 64 - 16)
      (stateOf (getmem 8 sysFail 7872
        (stateOf (getmem 8 (sysAt 8016 100000) 100 State.init)))))))

/-! ## Lemmas -/

theorem WORD_eq : WORD = 18446744073709551616 := by norm_num [WORD]

theorem ADDR_LIMIT_eq : ADDR_LIMIT = 18446744073709551600 := by norm_num [ADDR_LIMIT, WORD, NSIZE]

theorem wadd_eq (a b : Nat) (h : a + b < WORD) : wadd a b = a + b := by
  unfold wadd; exact Nat.mod_eq_of_lt h

theorem wsub_eq (a b : Nat) (hb : b ≤ a) (ha : a < WORD) : wsub a b = a - b := by
  unfold wsub
  have hb2 : b % WORD = b := Nat.mod_eq_of_lt (by omega)
  rw [hb2]
  have : a + (WORD - b) = (a - b) + WORD := by omega
  rw [this, Nat.add_mod_right]
  exact Nat.mod_eq_of_lt (by omega)

theorem repr_congr (m m2 : Nat → FreeNode) :
    ∀ (L : List (Nat × Nat)) (h : Nat), (∀ y ∈ L, m2 y.1 = m y.1) → Repr m h L → Repr m2 h L := by
  intro L
  induction L with
  | nil => intro h _ hr; exact hr
  | cons x rest ih =>
    intro h hm hr
    obtain ⟨h1, h2, h3, h4⟩ := hr
    have hx : m2 x.1 = m x.1 := hm x (List.mem_cons_self _ _)
    refine ⟨h1, h2, by rw [hx]; exact h3, ?_⟩
    rw [hx]
    exact ih _ (fun y hy => hm y (List.mem_cons_of_mem _ hy)) h4

theorem repr_unique (m : Nat → FreeNode) :
    ∀ (L L2 : List (Nat × Nat)) (h : Nat), Repr m h L → Repr m h L2 → L = L2 := by
  intro L
  induction L with
  | nil =>
    intro L2 h hr hr2
    cases L2 with
    | nil => rfl
    | cons y r => exact absurd (hr2.1.symm.trans hr) hr2.2.1
  | cons x rest ih =>
    intro L2 h hr hr2
    cases L2 with
    | nil => exact absurd (hr.1.symm.trans hr2) hr.2.1
    | cons y r =>
      obtain ⟨a1, _, a3, a4⟩ := hr
      obtain ⟨b1, _, b3, b4⟩ := hr2
      have hxy : x.1 = y.1 := a1.symm.trans b1
      have hx : x = y := by
        apply Prod.ext hxy
        rw [← a3, ← b3, hxy]
      subst hx
      rw [ih r _ a4 b4]

theorem gaps_mono : ∀ (L : List (Nat × Nat)) (lo lo2 : Nat), lo2 ≤ lo → Gaps lo L → Gaps lo2 L := by
  intro L lo lo2 hle hg
  cases L with
  | nil => trivial
  | cons x rest => exact ⟨by have := hg.1; omega, hg.2.1, hg.2.2⟩

theorem gaps_mem : ∀ (L : List (Nat × Nat)) (lo : Nat), Gaps lo L →
    ∀ y ∈ L, lo < y.1 ∧ y.1 + NSIZE + y.2 ≤ ADDR_LIMIT := by
  intro L
  induction L with
  | nil => intro lo _ y hy; cases hy
  | cons x rest ih =>
    intro lo hg y hy
    rcases List.mem_cons.1 hy with rfl | hy
    · exact ⟨hg.1, hg.2.1⟩
    · have := ih _ hg.2.2 y hy
      exact ⟨by have := hg.1; omega, this.2⟩

theorem check_heap_loop_complete (m : Nat → FreeNode) :
    ∀ (L : List (Nat × Nat)) (lo h fuel : Nat), Repr m h L → Gaps lo L → MinSize L →
      L.length < fuel → check_heap_loop m fuel h = .ok () := by
  intro L
  induction L with
  | nil =>
    intro lo h fuel hr _ _ hf
    cases fuel with
    | zero => omega
    | succ f => simp [check_heap_loop, show h = 0 from hr]
  | cons x rest ih =>
    intro lo h fuel hr hg hs hf
    cases fuel with
    | zero => simp at hf
    | succ f =>
      obtain ⟨h1, h2, h3, h4⟩ := hr
      subst h1
      have hsz : 16 ≤ x.2 := hs x (List.mem_cons_self _ _)
      have hrec := ih _ _ f h4 hg.2.2 (fun y hy => hs y (List.mem_cons_of_mem _ hy))
        (by simpa using hf)
      have hb := hg.2.1
      rw [ADDR_LIMIT_eq] at hb
      unfold check_heap_loop
      rw [if_neg h2, h3, if_neg (by omega)]
      rw [if_neg, hrec]
      rintro ⟨hn, hlt⟩
      apply hlt
      cases rest with
      | nil => exact absurd h4 hn
      | cons y r =>
        have := hg.2.2.1
        rw [h4.1, Nat.mod_eq_of_lt (by rw [WORD_eq]; omega)]
        exact this

theorem check_heap_loop_sound (m : Nat → FreeNode) :
    ∀ (L : List (Nat × Nat)) (lo h fuel : Nat), Repr m h L →
      (∀ y ∈ L, y.1 + NSIZE + y.2 ≤ ADDR_LIMIT) → (h ≠ 0 → lo < h) →
      check_heap_loop m fuel h = .ok () → Gaps lo L ∧ MinSize L := by
  intro L
  induction L with
  | nil => intro lo h fuel _ _ _ _; exact ⟨trivial, fun y hy => by cases hy⟩
  | cons x rest ih =>
    intro lo h fuel hr hb hlo hc
    cases fuel with
    | zero => simp [check_heap_loop] at hc
    | succ f =>
      obtain ⟨h1, h2, h3, h4⟩ := hr
      subst h1
      have hbx := hb x (List.mem_cons_self _ _)
      rw [ADDR_LIMIT_eq] at hbx
      unfold check_heap_loop at hc
      rw [if_neg h2, h3] at hc
      by_cases hsz : 16 ≤ x.2
      · rw [if_neg (by omega)] at hc
        by_cases hcond : (m x.1).next ≠ 0 ∧ ¬ ((x.1 + NSIZE + x.2) % WORD < (m x.1).next)
        · rw [if_pos hcond] at hc; cases hc
        · rw [if_neg hcond] at hc
          have hnext : (m x.1).next ≠ 0 → x.1 + NSIZE + x.2 < (m x.1).next := by
            intro hn
            by_contra hlt
            apply hcond
            refine ⟨hn, ?_⟩
            rw [Nat.mod_eq_of_lt (by rw [WORD_eq]; omega)]
            exact hlt
          have := ih (x.1 + NSIZE + x.2) _ f h4 (fun y hy => hb y (List.mem_cons_of_mem _ hy)) hnext hc
          refine ⟨⟨hlo h2, ?_, this.1⟩, ?_⟩
          · rw [ADDR_LIMIT_eq]; exact hbx
          · intro y hy
            rcases List.mem_cons.1 hy with rfl | hy
            · exact hsz
            · exact this.2 y hy
      · rw [if_pos (by omega)] at hc; cases hc

theorem check_heap_loop_fuel (m : Nat → FreeNode) :
    ∀ (L : List (Nat × Nat)) (h fuel : Nat), Repr m h L →
      check_heap_loop m fuel h = .ok () → L.length < fuel := by
  intro L
  induction L with
  | nil =>
    intro h fuel _ hc
    cases fuel with
    | zero => simp [check_heap_loop] at hc
    | succ f => simp
  | cons x rest ih =>
    intro h fuel hr hc
    cases fuel with
    | zero => simp [check_heap_loop] at hc
    | succ f =>
      obtain ⟨h1, h2, _, h4⟩ := hr
      subst h1
      unfold check_heap_loop at hc
      rw [if_neg h2] at hc
      split at hc
      · cases hc
      · split at hc
        · cases hc
        · have := ih _ f h4 hc
          simp only [List.length_cons]; omega

@[simp] theorem updNext_size (m : Nat → FreeNode) (a v x : Nat) :
    (updNext m a v x).size = (m x).size := by
  unfold updNext; split
  · next h => rw [h]
  · rfl

@[simp] theorem updSize_next (m : Nat → FreeNode) (a v x : Nat) :
    (updSize m a v x).next = (m x).next := by
  unfold updSize; split
  · next h => rw [h]
  · rfl

@[simp] theorem updNext_same (m : Nat → FreeNode) (a v : Nat) : (updNext m a v a).next = v := by
  simp [updNext]

@[simp] theorem updSize_same (m : Nat → FreeNode) (a v : Nat) : (updSize m a v a).size = v := by
  simp [updSize]

theorem updNext_ne (m : Nat → FreeNode) (a v x : Nat) (h : x ≠ a) : updNext m a v x = m x := by
  simp [updNext, h]

theorem updSize_ne (m : Nat → FreeNode) (a v x : Nat) (h : x ≠ a) : updSize m a v x = m x := by
  simp [updSize, h]

theorem lastAddr_cases : ∀ (L : List (Nat × Nat)) (p : Nat),
    (L = [] ∧ lastAddr p L = p) ∨ (∃ y ∈ L, lastAddr p L = y.1) := by
  intro L
  induction L with
  | nil => intro p; exact Or.inl ⟨rfl, rfl⟩
  | cons x rest ih =>
    intro p
    right
    rcases ih x.1 with ⟨h1, h2⟩ | ⟨y, hy, h2⟩
    · exact ⟨x, List.mem_cons_self _ _, by simp [lastAddr, h1]⟩
    · exact ⟨y, List.mem_cons_of_mem _ hy, by simpa [lastAddr] using h2⟩

theorem gaps_append_left : ∀ (L1 X : List (Nat × Nat)) (lo : Nat), Gaps lo (L1 ++ X) → Gaps lo L1 := by
  intro L1
  induction L1 with
  | nil => intro X lo _; trivial
  | cons x rest ih => intro X lo hg; exact ⟨hg.1, hg.2.1, ih X _ hg.2.2⟩

theorem gaps_append_right : ∀ (L1 X : List (Nat × Nat)) (lo : Nat), Gaps lo (L1 ++ X) →
    Gaps (lastAddr lo L1) X := by
  intro L1
  induction L1 with
  | nil => intro X lo hg; exact hg
  | cons x rest ih =>
    intro X lo hg
    have := ih X _ hg.2.2
    cases rest with
    | nil => exact gaps_mono _ _ _ (by simp [lastAddr]; omega) this
    | cons y r => exact this

theorem lastAddr_gt (L1 : List (Nat × Nat)) (b lo : Nat) (_ : b ≤ lo) (hg : Gaps lo L1) :
    lastAddr b L1 = b ∧ L1 = [] ∨ lo < lastAddr b L1 := by
  rcases lastAddr_cases L1 b with ⟨h1, h2⟩ | ⟨y, hy, h2⟩
  · exact Or.inl ⟨h2, h1⟩
  · right; rw [h2]; exact (gaps_mem _ _ hg y hy).1

/-- Reading through the link that follows the nodes `L1`. -/
theorem repr_next_aux (m : Nat → FreeNode) (X : List (Nat × Nat)) :
    ∀ (L1 : List (Nat × Nat)) (b : Nat), Repr m (m b).next (L1 ++ X) →
      Repr m (m (lastAddr b L1)).next X := by
  intro L1
  induction L1 with
  | nil => intro b hr; exact hr
  | cons x rest ih => intro b hr; exact ih x.1 hr.2.2.2

theorem repr_readLink (st : State) (L1 X : List (Nat × Nat))
    (hr : Repr st.mem st.head (L1 ++ X)) (hg : Gaps 0 (L1 ++ X)) :
    Repr st.mem (readLink st (lastAddr 0 L1)) X := by
  cases L1 with
  | nil => simpa [readLink, lastAddr] using hr
  | cons x rest =>
    have hne : lastAddr 0 (x :: rest) ≠ 0 := by
      rcases lastAddr_cases (x :: rest) 0 with ⟨h1, _⟩ | ⟨y, hy, h2⟩
      · cases h1
      · rw [h2]; have := (gaps_mem _ _ (gaps_append_left _ _ _ hg) y hy).1; omega
    unfold readLink
    rw [if_pos hne]
    exact repr_next_aux st.mem X rest x.1 hr.2.2.2

theorem repr_relink_aux (m m3 : Nat → FreeNode) (Y : List (Nat × Nat)) (v : Nat) :
    ∀ (L1 X : List (Nat × Nat)) (b lo : Nat), Repr m (m b).next (L1 ++ X) → Gaps lo L1 → b ≤ lo →
      m3 b = updNext m (lastAddr b L1) v b →
      (∀ y ∈ L1, m3 y.1 = updNext m (lastAddr b L1) v y.1) →
      Repr m3 v Y → Repr m3 (m3 b).next (L1 ++ Y) := by
  intro L1
  induction L1 with
  | nil =>
    intro X b lo _ _ _ hb _ hY
    rw [hb]; simpa [updNext, lastAddr] using hY
  | cons x rest ih =>
    intro X b lo hr hg hlo hb hm hY
    obtain ⟨h1, h2, h3, h4⟩ := hr
    have hx := hm x (List.mem_cons_self _ _)
    have hpb : lastAddr b (x :: rest) ≠ b := by
      rcases lastAddr_gt (x :: rest) b lo hlo hg with ⟨_, h⟩ | h
      · cases h
      · omega
    have hbn : (m3 b).next = x.1 := by
      rw [hb]; unfold updNext; rw [if_neg (Ne.symm hpb)]; exact h1
    have hxs : (m3 x.1).size = x.2 := by
      rw [hx, updNext_size]; exact h3
    rw [hbn]
    refine ⟨rfl, h2, hxs, ?_⟩
    exact ih X x.1 (x.1 + NSIZE + x.2) h4 hg.2.2 (by omega) hx
      (fun y hy => hm y (List.mem_cons_of_mem _ hy)) hY

/-- Overwriting the link that follows the nodes `L1` replaces the rest of the
list. -/
theorem repr_writeLink (st : State) (L1 X Y : List (Nat × Nat)) (v : Nat) (m3 : Nat → FreeNode)
    (hr : Repr st.mem st.head (L1 ++ X)) (hg : Gaps 0 L1)
    (hm : ∀ y ∈ L1, m3 y.1 = (writeLink st (lastAddr 0 L1) v).mem y.1)
    (hY : Repr m3 v Y) :
    Repr m3 (writeLink st (lastAddr 0 L1) v).head (L1 ++ Y) := by
  cases L1 with
  | nil => simpa [writeLink, lastAddr] using hY
  | cons x rest =>
    have hne : lastAddr 0 (x :: rest) ≠ 0 := by
      rcases lastAddr_cases (x :: rest) 0 with ⟨h1, _⟩ | ⟨y, hy, h2⟩
      · cases h1
      · rw [h2]; have := (gaps_mem _ _ hg y hy).1; omega
    have hw : writeLink st (lastAddr 0 (x :: rest)) v =
        { st with mem := updNext st.mem (lastAddr x.1 rest) v } := by
      unfold writeLink; rw [if_pos hne]; rfl
    rw [hw] at hm ⊢
    obtain ⟨h1, h2, h3, h4⟩ := hr
    have hx := hm x (List.mem_cons_self _ _)
    have hxs : (m3 x.1).size = x.2 := by
      rw [hx]; show (updNext st.mem _ v x.1).size = x.2
      rw [updNext_size]; exact h3
    refine ⟨h1, h2, hxs, ?_⟩
    exact repr_relink_aux st.mem m3 Y v rest X x.1 (x.1 + NSIZE + x.2) h4 hg.2.2 (by omega) hx
      (fun y hy => hm y (List.mem_cons_of_mem _ hy)) hY

/-- The scan of `getmem` stops at the first node that is large enough. -/
theorem getmem_loop_found (m : Nat → FreeNode) (size : Nat) (x : Nat × Nat) (L2 : List (Nat × Nat)) :
    ∀ (L1 : List (Nat × Nat)) (prev cur fuel : Nat), Repr m cur (L1 ++ x :: L2) →
      (∀ y ∈ L1, y.2 < size) → size ≤ x.2 → L1.length < fuel →
      getmem_loop m size fuel prev cur = .ok (true, lastAddr prev L1) := by
  intro L1
  induction L1 with
  | nil =>
    intro prev cur fuel hr _ hx hf
    cases fuel with
    | zero => omega
    | succ f =>
      obtain ⟨h1, h2, h3, _⟩ := hr
      subst h1
      simp [getmem_loop, h2, h3, hx, lastAddr]
  | cons y rest ih =>
    intro prev cur fuel hr hs hx hf
    cases fuel with
    | zero => simp at hf
    | succ f =>
      obtain ⟨h1, h2, h3, h4⟩ := hr
      subst h1
      have hy := hs y (List.mem_cons_self _ _)
      unfold getmem_loop
      rw [if_neg h2, h3, if_neg (by omega)]
      exact ih y.1 _ f h4 (fun z hz => hs z (List.mem_cons_of_mem _ hz)) hx (by simpa using hf)

/-- The scan of `getmem` runs to the end when no node is large enough. -/
theorem getmem_loop_none (m : Nat → FreeNode) (size : Nat) :
    ∀ (L : List (Nat × Nat)) (prev cur fuel : Nat), Repr m cur L →
      (∀ y ∈ L, y.2 < size) → L.length < fuel →
      getmem_loop m size fuel prev cur = .ok (false, lastAddr prev L) := by
  intro L
  induction L with
  | nil =>
    intro prev cur fuel hr _ hf
    cases fuel with
    | zero => omega
    | succ f => simp [getmem_loop, show cur = 0 from hr, lastAddr]
  | cons y rest ih =>
    intro prev cur fuel hr hs hf
    cases fuel with
    | zero => simp at hf
    | succ f =>
      obtain ⟨h1, h2, h3, h4⟩ := hr
      subst h1
      have hy := hs y (List.mem_cons_self _ _)
      unfold getmem_loop
      rw [if_neg h2, h3, if_neg (by omega)]
      exact ih y.1 _ f h4 (fun z hz => hs z (List.mem_cons_of_mem _ hz)) (by simpa using hf)

theorem gaps_append_lt : ∀ (L1 : List (Nat × Nat)) (x : Nat × Nat) (L2 : List (Nat × Nat)) (lo : Nat),
    Gaps lo (L1 ++ x :: L2) → ∀ y ∈ L1, y.1 + NSIZE + y.2 < x.1 := by
  intro L1
  induction L1 with
  | nil => intro x L2 lo _ y hy; cases hy
  | cons z rest ih =>
    intro x L2 lo hg y hy
    rcases List.mem_cons.1 hy with rfl | hy
    · have := (gaps_mem _ _ hg.2.2 x (by simp)).1
      exact this
    · exact ih x L2 _ hg.2.2 y hy

theorem gaps_append_mid : ∀ (L1 : List (Nat × Nat)) (x : Nat × Nat) (L2 : List (Nat × Nat)) (lo : Nat),
    Gaps lo (L1 ++ x :: L2) → lo < x.1 ∧ x.1 + NSIZE + x.2 ≤ ADDR_LIMIT ∧ Gaps (x.1 + NSIZE + x.2) L2 := by
  intro L1
  induction L1 with
  | nil => intro x L2 lo hg; exact hg
  | cons z rest ih =>
    intro x L2 lo hg
    have := ih x L2 _ hg.2.2
    exact ⟨by have := hg.1; omega, this.2⟩

theorem gaps_replace : ∀ (L1 X Y : List (Nat × Nat)) (lo : Nat), Gaps lo (L1 ++ X) →
    (∀ lo2, Gaps lo2 X → Gaps lo2 Y) → Gaps lo (L1 ++ Y) := by
  intro L1
  induction L1 with
  | nil => intro X Y lo hg h; exact h _ hg
  | cons z rest ih => intro X Y lo hg h; exact ⟨hg.1, hg.2.1, ih X Y _ hg.2.2 h⟩

theorem lastAddr_ne (L1 : List (Nat × Nat)) (x : Nat × Nat) (L2 : List (Nat × Nat))
    (hg : Gaps 0 (L1 ++ x :: L2)) (c : Nat) (hc : x.1 ≤ c) : lastAddr 0 L1 ≠ c := by
  have hx := (gaps_append_mid L1 x L2 0 hg).1
  rcases lastAddr_cases L1 0 with ⟨_, h2⟩ | ⟨y, hy, h2⟩
  · omega
  · have := gaps_append_lt L1 x L2 0 hg y hy
    omega

theorem readLink_writeLink (st : State) (prev v : Nat) : readLink (writeLink st prev v) prev = v := by
  unfold readLink writeLink
  by_cases h : prev = 0 <;> simp [h]

theorem writeLink_mem_ne (st : State) (prev v x : Nat) (h : x ≠ prev) :
    (writeLink st prev v).mem x = st.mem x := by
  unfold writeLink
  by_cases hp : prev = 0
  · simp [hp]
  · simp [hp, updNext_ne _ _ _ _ h]

theorem writeLink_mem_size (st : State) (prev v x : Nat) :
    ((writeLink st prev v).mem x).size = (st.mem x).size := by
  unfold writeLink
  by_cases hp : prev = 0 <;> simp [hp]

theorem readLink_mem (st st2 : State) (prev : Nat) (hp : prev ≠ 0 → st2.mem prev = st.mem prev)
    (hh : st2.head = st.head) : readLink st2 prev = readLink st prev := by
  unfold readLink
  by_cases h : prev = 0
  · simp [h, hh]
  · simp [h, hp h]

theorem splitNode_split (st : State) (L1 L2 : List (Nat × Nat)) (a S size : Nat)
    (hr : Repr st.mem st.head (L1 ++ (a, S) :: L2)) (hg : Gaps 0 (L1 ++ (a, S) :: L2))
    (hS : S > size + SPLIT_CONSTANT) :
    ∃ st2, splitNode (lastAddr 0 L1) size st = .ok (a + NSIZE, st2) ∧
      Repr st2.mem st2.head (L1 ++ (a + NSIZE + size, S - NSIZE - size) :: L2) ∧
      (st2.mem a).size = size ∧
      (∀ x, x ≠ a → x ≠ a + NSIZE + size → (st2.mem x).size = (st.mem x).size) ∧
      st2.totalFree = wsub st.totalFree (size + NSIZE) ∧ st2.freeBlocks = st.freeBlocks ∧
      st2.totalSize = st.totalSize ∧ st2.sysLog = st.sysLog := by
  have hmid := gaps_append_mid L1 (a, S) L2 0 hg
  simp only at hmid
  obtain ⟨ha0, hlim, hg2⟩ := hmid
  rw [ADDR_LIMIT_eq] at hlim
  have hcur := repr_readLink st L1 _ hr hg
  obtain ⟨c1, c2, c3, c4⟩ := hcur
  simp only at c1 c2 c3 c4
  have hpa : lastAddr 0 L1 ≠ a := lastAddr_ne L1 (a, S) L2 hg a (le_refl _)
  have hpn : lastAddr 0 L1 ≠ a + NSIZE + size := lastAddr_ne L1 (a, S) L2 hg _ (by simp; omega)
  simp only [NSIZE, SPLIT_CONSTANT] at *
  have e1 : (size + 32) % WORD = size + 32 := Nat.mod_eq_of_lt (by rw [WORD_eq]; omega)
  have e2 : (a + 16 + size) % WORD = a + 16 + size := Nat.mod_eq_of_lt (by rw [WORD_eq]; omega)
  have e3 : wsub (wsub S 16) size = S - 16 - size := by
    rw [wsub_eq S 16 (by omega) (by rw [WORD_eq]; omega), wsub_eq _ _ (by omega) (by rw [WORD_eq]; omega)]
  have e4 : wadd size 16 = size + 16 := wadd_eq _ _ (by rw [WORD_eq]; omega)
  have e5 : wadd a 16 = a + 16 := wadd_eq _ _ (by rw [WORD_eq]; omega)
  have hn0 : a + 16 + size ≠ 0 := by omega
  have hna : a + 16 + size ≠ a := by omega
  have han : a ≠ a + 16 + size := by omega
  refine ⟨{ writeLink st (lastAddr 0 L1) (a + 16 + size) with
      mem := updSize (updSize (updNext (writeLink st (lastAddr 0 L1) (a + 16 + size)).mem
        (a + 16 + size) (st.mem a).next) (a + 16 + size) (S - 16 - size)) a size
      totalFree := wsub st.totalFree (size + 16) }, ?_, ?_, ?_, ?_, ?_, ?_, ?_, ?_⟩
  · unfold splitNode
    by_cases hp : lastAddr 0 L1 = 0
    · have c1h : st.head = a := by simpa [readLink, hp] using c1
      simp [bind, Except.bind, getSize, getNext, setNext, setSize, pure, Except.pure, readLink,
        writeLink, hp, c1h, c2, c3, e1, e2, e3, e4, e5, hS, hn0, NSIZE, SPLIT_CONSTANT,
        updNext_ne, updSize_ne, hna, han]
    · have c1h : (st.mem (lastAddr 0 L1)).next = a := by simpa [readLink, hp] using c1
      simp [bind, Except.bind, getSize, getNext, setNext, setSize, pure, Except.pure, readLink,
        writeLink, hp, c1h, c2, c3, e1, e2, e3, e4, e5, hS, hn0, NSIZE, SPLIT_CONSTANT,
        updNext_ne, updSize_ne, hna, han, hpa, hpn, Ne.symm hpa, Ne.symm hpn]
  · show Repr _ (writeLink st (lastAddr 0 L1) (a + 16 + size)).head _
    apply repr_writeLink st L1 ((a, S) :: L2) _ _ _ hr (gaps_append_left _ _ _ hg)
    · intro y hy
      have := gaps_append_lt L1 (a, S) L2 0 hg y hy
      simp only [NSIZE] at this
      show updSize _ a size y.1 = _
      rw [updSize_ne _ _ _ _ (by omega), updSize_ne _ _ _ _ (by omega), updNext_ne _ _ _ _ (by omega)]
    · refine ⟨rfl, hn0, ?_, ?_⟩
      · show (updSize _ a size (a + 16 + size)).size = S - 16 - size
        rw [updSize_ne _ _ _ _ hna, updSize_same]
      · show Repr _ (updSize _ a size (a + 16 + size)).next L2
        rw [updSize_next, updSize_next, updNext_same]
        apply repr_congr st.mem _ L2 _ _ c4
        intro y hy
        have := (gaps_mem _ _ hg2 y hy).1
        have hpy : y.1 ≠ lastAddr 0 L1 := Ne.symm (lastAddr_ne L1 (a, S) L2 hg y.1 (by simp; omega))
        show updSize _ a size y.1 = _
        rw [updSize_ne _ _ _ _ (by omega), updSize_ne _ _ _ _ (by omega),
          updNext_ne _ _ _ _ (by omega), writeLink_mem_ne _ _ _ _ hpy]
  · show (updSize _ a size a).size = size
    rw [updSize_same]
  · intro x hx1 hx2
    show (updSize _ a size x).size = _
    rw [updSize_ne _ _ _ _ hx1, updSize_ne _ _ _ _ hx2, updNext_size, writeLink_mem_size]
  · rfl
  · unfold writeLink; split <;> rfl
  · unfold writeLink; split <;> rfl
  · unfold writeLink; split <;> rfl

theorem splitNode_whole (st : State) (L1 L2 : List (Nat × Nat)) (a S size : Nat)
    (hr : Repr st.mem st.head (L1 ++ (a, S) :: L2)) (hg : Gaps 0 (L1 ++ (a, S) :: L2))
    (hsz : size ≤ S) (hS : ¬ S > size + SPLIT_CONSTANT) :
    ∃ st2, splitNode (lastAddr 0 L1) size st = .ok (a + NSIZE, st2) ∧
      Repr st2.mem st2.head (L1 ++ L2) ∧
      (∀ x, (st2.mem x).size = (st.mem x).size) ∧
      st2.totalFree = wsub st.totalFree (S + NSIZE) ∧ st2.freeBlocks = wsub st.freeBlocks 1 ∧
      st2.totalSize = st.totalSize ∧ st2.sysLog = st.sysLog := by
  have hmid := gaps_append_mid L1 (a, S) L2 0 hg
  simp only at hmid
  obtain ⟨ha0, hlim, hg2⟩ := hmid
  rw [ADDR_LIMIT_eq] at hlim
  have hcur := repr_readLink st L1 _ hr hg
  obtain ⟨c1, c2, c3, c4⟩ := hcur
  simp only at c1 c2 c3 c4
  have hpa : lastAddr 0 L1 ≠ a := lastAddr_ne L1 (a, S) L2 hg a (le_refl _)
  simp only [NSIZE, SPLIT_CONSTANT] at *
  have e1 : (size + 32) % WORD = size + 32 := Nat.mod_eq_of_lt (by rw [WORD_eq]; omega)
  have e4 : wadd S 16 = S + 16 := wadd_eq _ _ (by rw [WORD_eq]; omega)
  have e5 : wadd a 16 = a + 16 := wadd_eq _ _ (by rw [WORD_eq]; omega)
  refine ⟨{ writeLink st (lastAddr 0 L1) (st.mem a).next with
      freeBlocks := wsub st.freeBlocks 1
      totalFree := wsub st.totalFree (S + 16) }, ?_, ?_, ?_, ?_, ?_, ?_, ?_⟩
  · unfold splitNode
    by_cases hp : lastAddr 0 L1 = 0
    · have c1h : st.head = a := by simpa [readLink, hp] using c1
      simp [bind, Except.bind, getSize, getNext, pure, Except.pure, readLink,
        writeLink, hp, c1h, c2, c3, e1, e4, e5, hS, NSIZE, SPLIT_CONSTANT]
    · have c1h : (st.mem (lastAddr 0 L1)).next = a := by simpa [readLink, hp] using c1
      simp [bind, Except.bind, getSize, getNext, pure, Except.pure, readLink,
        writeLink, hp, c1h, c2, c3, e1, e4, e5, hS, NSIZE, SPLIT_CONSTANT,
        updNext_ne, hpa, Ne.symm hpa]
  · show Repr (writeLink st (lastAddr 0 L1) (st.mem a).next).mem
      (writeLink st (lastAddr 0 L1) (st.mem a).next).head _
    apply repr_writeLink st L1 ((a, S) :: L2) _ _ _ hr (gaps_append_left _ _ _ hg)
    · intro y _; rfl
    · apply repr_congr st.mem _ L2 _ _ c4
      intro y hy
      have := (gaps_mem _ _ hg2 y hy).1
      have hpy : y.1 ≠ lastAddr 0 L1 := Ne.symm (lastAddr_ne L1 (a, S) L2 hg y.1 (by simp; omega))
      rw [writeLink_mem_ne _ _ _ _ hpy]
  · intro x
    show ((writeLink st (lastAddr 0 L1) (st.mem a).next).mem x).size = _
    rw [writeLink_mem_size]
  · rfl
  · rfl
  · unfold writeLink; split <;> rfl
  · unfold writeLink; split <;> rfl

theorem repr_append_tail (m m3 : Nat → FreeNode) (X Y : List (Nat × Nat)) :
    ∀ (pre : List (Nat × Nat)) (h : Nat), Repr m h (pre ++ X) → (∀ y ∈ pre, m3 y.1 = m y.1) →
      (∀ t, Repr m t X → Repr m3 t Y) → Repr m3 h (pre ++ Y) := by
  intro pre
  induction pre with
  | nil => intro h hr _ hXY; exact hXY h hr
  | cons x rest ih =>
    intro h hr hm hXY
    obtain ⟨h1, h2, h3, h4⟩ := hr
    have hx := hm x (List.mem_cons_self _ _)
    refine ⟨h1, h2, by rw [hx]; exact h3, ?_⟩
    rw [hx]
    exact ih _ h4 (fun y hy => hm y (List.mem_cons_of_mem _ hy)) hXY

theorem coalesce_cons (x y : Nat × Nat) (rest : List (Nat × Nat)) :
    coalesce x (y :: rest) =
      if x.1 < y.1 then pushMerge x (y :: rest)
      else if y.1 + NSIZE + y.2 = x.1 then pushMerge (y.1, y.2 + NSIZE + x.2) rest
      else y :: coalesce x rest := rfl

theorem coalesce_skip (x : Nat × Nat) (Z : List (Nat × Nat)) :
    ∀ (pre : List (Nat × Nat)), (∀ y ∈ pre, y.1 ≤ x.1 ∧ y.1 + NSIZE + y.2 ≠ x.1) →
      coalesce x (pre ++ Z) = pre ++ coalesce x Z := by
  intro pre
  induction pre with
  | nil => intro _; rfl
  | cons y rest ih =>
    intro h
    have hy := h y (List.mem_cons_self _ _)
    show coalesce x (y :: (rest ++ Z)) = y :: (rest ++ coalesce x Z)
    rw [coalesce_cons, if_neg (by omega), if_neg hy.2, ih (fun z hz => h z (List.mem_cons_of_mem _ hz))]

/-- Shape of the coalesced list when the released block lies behind node `c`
and in front of the nodes `post`. -/
theorem coalesce_mid (x c : Nat × Nat) (pre post : List (Nat × Nat)) (lo : Nat)
    (hg : Gaps lo (pre ++ c :: post)) (hc : c.1 + NSIZE + c.2 ≤ x.1)
    (hpost : ∀ d ∈ post.head?, x.1 < d.1) :
    coalesce x (pre ++ c :: post) =
      pre ++ (if c.1 + NSIZE + c.2 = x.1 then pushMerge (c.1, c.2 + NSIZE + x.2) post
        else c :: pushMerge x post) := by
  rw [coalesce_skip]
  · congr 1
    have hcp : coalesce x post = pushMerge x post := by
      cases post with
      | nil => rfl
      | cons d r =>
        have := hpost d (by simp)
        rw [coalesce_cons, if_pos this]
    rw [coalesce_cons, if_neg (by simp only [NSIZE] at hc; omega), hcp]
  · intro y hy
    have := gaps_append_lt pre c post lo hg y hy
    simp only [NSIZE] at *
    omega

theorem freemem_loop_spec (m : Nat → FreeNode) (a : Nat) :
    ∀ (R : List (Nat × Nat)) (c : Nat × Nat) (fuel lo : Nat), Repr m c.1 (c :: R) → Gaps lo (c :: R) →
      c.1 ≤ a → R.length < fuel →
      ∃ pre c2 post, c :: R = pre ++ c2 :: post ∧ c2.1 ≤ a ∧ (∀ d ∈ post.head?, ¬ d.1 < a) ∧
        freemem_loop m a fuel c.1 (m c.1).next = .ok (c2.1, (m c2.1).next) ∧
        Repr m c2.1 (c2 :: post) := by
  intro R
  induction R with
  | nil =>
    intro c fuel lo hr hg hc hf
    refine ⟨[], c, [], rfl, hc, by simp, ?_, hr⟩
    cases fuel with
    | zero => simp at hf
    | succ f =>
      have : (m c.1).next = 0 := hr.2.2.2
      simp [freemem_loop, this]
  | cons d R ih =>
    intro c fuel lo hr hg hc hf
    cases fuel with
    | zero => simp at hf
    | succ f =>
      have hnext : (m c.1).next = d.1 := hr.2.2.2.1
      have hd0 : d.1 ≠ 0 := hr.2.2.2.2.1
      by_cases hlt : d.1 < a
      · obtain ⟨pre, c2, post, e1, e2, e3, e4, e5⟩ :=
          ih d f _ (by have := hr.2.2.2; rw [hnext] at this; exact this) hg.2.2 (by omega)
            (by simpa using hf)
        refine ⟨c :: pre, c2, post, by rw [e1]; rfl, e2, e3, ?_, e5⟩
        unfold freemem_loop
        rw [hnext, if_pos ⟨hd0, hlt⟩]
        exact e4
      · refine ⟨[], c, d :: R, rfl, hc, by simpa using hlt, ?_, hr⟩
        unfold freemem_loop
        rw [hnext, if_neg (by tauto)]

theorem wsub_one (x : Nat) : wsub x 1 = (x + (WORD - 1)) % WORD := by
  unfold wsub
  have : (1 : Nat) % WORD = 1 := Nat.mod_eq_of_lt (by rw [WORD_eq]; omega)
  rw [this]

theorem pushMerge_touch (x y : Nat × Nat) (rest : List (Nat × Nat)) (h : x.1 + NSIZE + x.2 = y.1) :
    pushMerge x (y :: rest) = (x.1, x.2 + NSIZE + y.2) :: rest := by
  simp [pushMerge, h]

theorem pushMerge_apart (x y : Nat × Nat) (rest : List (Nat × Nat)) (h : x.1 + NSIZE + x.2 ≠ y.1) :
    pushMerge x (y :: rest) = x :: y :: rest := by
  simp [pushMerge, h]

/-- Release of a block that lies in front of the first free node. -/
theorem freemem_front_spec (st : State) (b : Nat × Nat) (rest : List (Nat × Nat)) (a t : Nat)
    (hr : Repr st.mem st.head (b :: rest)) (hg : Gaps 0 (b :: rest))
    (ha : 0 < a) (hsz : (st.mem a).size = t) (hab : a + NSIZE + t ≤ b.1) :
    ∃ st2, freemem_front (a + NSIZE) a t st = .ok st2 ∧
      Repr st2.mem st2.head (pushMerge (a, t) (b :: rest)) ∧
      (∀ z, z ≠ a → st2.mem z = st.mem z) ∧
      st2.totalFree = st.totalFree ∧
      st2.freeBlocks = (if a + NSIZE + t = b.1 then wsub st.freeBlocks 1 else st.freeBlocks) ∧
      st2.totalSize = st.totalSize ∧ st2.sysLog = st.sysLog := by
  obtain ⟨h1, h2, h3, h4⟩ := hr
  obtain ⟨g1, g2, g3⟩ := hg
  rw [ADDR_LIMIT_eq] at g2
  have e1 : wadd (a + NSIZE) t = a + NSIZE + t :=
    wadd_eq _ _ (by rw [WORD_eq]; simp only [NSIZE] at *; omega)
  have e3 : wadd (wadd b.2 t) NSIZE = t + NSIZE + b.2 := by
    simp only [NSIZE] at *
    rw [wadd_eq b.2 t (by rw [WORD_eq]; omega), wadd_eq _ _ (by rw [WORD_eq]; omega)]; omega
  have ha0 : a ≠ 0 := by omega
  have hlt : a < b.1 := by simp only [NSIZE] at *; omega
  have hba : b.1 ≠ a := by omega
  by_cases htouch : a + NSIZE + t = b.1
  · rw [pushMerge_touch (a, t) b rest htouch, if_pos htouch]
    refine ⟨⟨a, st.totalSize, st.totalFree, wsub st.freeBlocks 1,
      updSize (updNext st.mem a (st.mem b.1).next) a (t + NSIZE + b.2), st.sysLog⟩,
      ?_, ?_, ?_, rfl, rfl, rfl, rfl⟩
    · unfold freemem_front
      rw [e1, h1, if_pos htouch]
      simp only [bind, Except.bind, getNext, getSize, setNext, setSize, h1, if_neg h2, if_neg ha0,
        updNext_size, h3, e3, pure, Except.pure]
    · refine ⟨rfl, ha0, by simp, ?_⟩
      simp only [updSize_next, updNext_same]
      apply repr_congr st.mem _ rest _ _ h4
      intro y hy
      have := (gaps_mem _ _ g3 y hy).1
      rw [updSize_ne _ _ _ _ (by omega), updNext_ne _ _ _ _ (by omega)]
    · intro z hz
      show updSize _ a _ z = _
      rw [updSize_ne _ _ _ _ hz, updNext_ne _ _ _ _ hz]
  · rw [pushMerge_apart (a, t) b rest htouch, if_neg htouch]
    refine ⟨⟨a, st.totalSize, st.totalFree, st.freeBlocks,
      updNext st.mem a b.1, st.sysLog⟩, ?_, ?_, ?_, rfl, rfl, rfl, rfl⟩
    · unfold freemem_front
      rw [e1, h1, if_neg htouch]
      simp only [bind, Except.bind, setNext, if_neg ha0, pure, Except.pure]
    · refine ⟨rfl, ha0, by simp [hsz], ?_⟩
      simp only [updNext_same]
      apply repr_congr st.mem _ (b :: rest) _ _ ⟨rfl, h2, h3, h4⟩
      intro y hy
      have hya : a < y.1 := by
        rcases List.mem_cons.1 hy with rfl | hy2
        · exact hlt
        · have := (gaps_mem _ _ g3 y hy2).1; omega
      rw [updNext_ne _ _ _ _ (by omega)]
    · intro z hz
      show updNext _ a _ z = _
      rw [updNext_ne _ _ _ _ hz]

theorem freemem_link_touch (st : State) (c a t : Nat) (hc : c ≠ 0)
    (he : wadd (wadd c NSIZE) (st.mem c).size = a) :
    freemem_link c a t st = .ok { st with
      mem := updSize st.mem c (wadd (wadd (st.mem c).size t) NSIZE)
      freeBlocks := wsub st.freeBlocks 1 } := by
  unfold freemem_link
  rw [if_pos ⟨hc, he⟩]
  simp only [bind, Except.bind, getSize, setSize, if_neg hc, pure, Except.pure]

theorem freemem_link_apart (st : State) (c a t : Nat) (hc : c ≠ 0) (ha : a ≠ 0)
    (he : wadd (wadd c NSIZE) (st.mem c).size ≠ a) :
    freemem_link c a t st = .ok { st with
      mem := updNext (updNext st.mem a (st.mem c).next) c a } := by
  unfold freemem_link
  rw [if_neg (fun h => he h.2), if_pos hc]
  simp only [bind, Except.bind, getNext, setNext, if_neg hc, if_neg ha]

theorem freemem_link_null (st : State) (a t : Nat) (ha : a ≠ 0) :
    freemem_link 0 a t st = .ok { st with head := a, mem := updNext st.mem a 0 } := by
  unfold freemem_link
  rw [if_neg (fun h => h.1 rfl), if_neg (fun h => h rfl)]
  simp only [bind, Except.bind, setNext, if_neg ha]

theorem freemem_absorb_skip (st : State) (c n a t : Nat)
    (h : ¬ (n ≠ 0 ∧ wadd (wadd a NSIZE) t = n)) : freemem_absorb c n a t st = .ok st := by
  unfold freemem_absorb
  rw [if_neg h]; rfl

theorem freemem_absorb_node (st : State) (c n a t : Nat) (hn : n ≠ 0)
    (he : wadd (wadd a NSIZE) t = n) (hc : c ≠ 0) (ha : a ≠ 0) (hcn : (st.mem c).next = a) :
    freemem_absorb c n a t st = .ok { st with
      freeBlocks := wsub st.freeBlocks 1
      mem := updNext (updSize st.mem a (wadd (wadd (st.mem a).size (st.mem n).size) NSIZE)) a
        (st.mem n).next } := by
  unfold freemem_absorb
  rw [if_pos ⟨hn, he⟩]
  simp only [bind, Except.bind, getNext, getSize, setNext, setSize, if_neg hc, if_neg ha, if_neg hn,
    hcn, if_true, updSize_next]

theorem freemem_absorb_cur (st : State) (c n a t : Nat) (hn : n ≠ 0)
    (he : wadd (wadd a NSIZE) t = n) (hc : c ≠ 0) (hcn : (st.mem c).next ≠ a) :
    freemem_absorb c n a t st = .ok { st with
      freeBlocks := wsub st.freeBlocks 1
      mem := updSize (updNext st.mem c (st.mem n).next) c
        (wadd (wadd (st.mem c).size (st.mem n).size) NSIZE) } := by
  unfold freemem_absorb
  rw [if_pos ⟨hn, he⟩]
  simp only [bind, Except.bind, getNext, getSize, setNext, setSize, if_neg hc, if_neg hn,
    if_neg hcn, updNext_size]

theorem apart_left (a t : Nat) (c : Nat × Nat) (h : Apart (a, t) c) (hc : c.1 ≤ a) :
    c.1 + NSIZE + c.2 ≤ a := by
  rcases h with h | h
  · simp only [NSIZE] at *; omega
  · exact h

theorem apart_right (a t : Nat) (d : Nat × Nat) (h : Apart (a, t) d) (hd : ¬ d.1 < a) :
    a + NSIZE + t ≤ d.1 := by
  rcases h with h | h
  · exact h
  · simp only [NSIZE] at *; omega

theorem freemem_back_nil (st : State) (a t fuel : Nat) (hh : st.head = 0) (ha : a ≠ 0)
    (hf : 0 < fuel) :
    freemem_back fuel a t st = .ok { st with head := a, mem := updNext st.mem a 0 } := by
  cases fuel with
  | zero => omega
  | succ f =>
    unfold freemem_back
    simp only [hh, ne_eq, not_true_eq_false, if_false, bind, Except.bind, pure, Except.pure,
      freemem_loop, false_and]
    rw [freemem_link_null _ _ _ ha]
    simp only []
    rw [freemem_absorb_skip]
    simp

theorem freemem_back_cons (st : State) (b : Nat × Nat) (a t fuel : Nat)
    (c : Nat × Nat)
    (hh : st.head = b.1) (hb : b.1 ≠ 0)
    (hloop : freemem_loop st.mem a fuel b.1 (st.mem b.1).next = .ok (c.1, (st.mem c.1).next)) :
    freemem_back fuel a t st =
      (freemem_link c.1 a t st).bind (fun s => freemem_absorb c.1 (st.mem c.1).next a t s) := by
  unfold freemem_back
  simp only [hh, ne_eq, hb, not_false_eq_true, if_true, bind, Except.bind, getNext, if_false, hloop]

theorem wadd3 (x y : Nat) (h : x + y + NSIZE < WORD) : wadd (wadd x y) NSIZE = x + NSIZE + y := by
  simp only [NSIZE] at *
  rw [wadd_eq x y (by omega), wadd_eq _ _ (by omega)]; omega

theorem wadd_addr (x y : Nat) (h : x + NSIZE + y < WORD) : wadd (wadd x NSIZE) y = x + NSIZE + y := by
  simp only [NSIZE] at *
  rw [wadd_eq x 16 (by omega), wadd_eq _ _ (by omega)]

/-- Release behind node `c`, when the block touches `c`. -/
theorem freemem_tail_touch (st : State) (c : Nat × Nat) (post : List (Nat × Nat)) (a t lo : Nat)
    (hrc : Repr st.mem c.1 (c :: post)) (hgc : Gaps lo (c :: post))
    (hca : c.1 + NSIZE + c.2 = a)
    (hpost : ∀ d ∈ post.head?, a + NSIZE + t ≤ d.1) (hlim : a + NSIZE + t ≤ ADDR_LIMIT) :
    ∃ st2, (freemem_link c.1 a t st).bind (fun s => freemem_absorb c.1 (st.mem c.1).next a t s)
        = .ok st2 ∧
      Repr st2.mem c.1 (pushMerge (c.1, c.2 + NSIZE + t) post) ∧ st2.head = st.head ∧
      (∀ z, z ≠ c.1 → st2.mem z = st.mem z) ∧
      st2.totalFree = st.totalFree ∧
      st2.freeBlocks = (if (∃ d ∈ post.head?, a + NSIZE + t = d.1) then wsub (wsub st.freeBlocks 1) 1
        else wsub st.freeBlocks 1) ∧
      st2.totalSize = st.totalSize ∧ st2.sysLog = st.sysLog := by
  obtain ⟨_, hc0, hcs, hrp⟩ := hrc
  obtain ⟨_, g2, g3⟩ := hgc
  rw [ADDR_LIMIT_eq] at hlim g2
  have hW := WORD_eq
  have e1 : wadd (wadd c.1 NSIZE) (st.mem c.1).size = a := by
    rw [hcs, wadd_addr _ _ (by simp only [NSIZE] at *; omega)]; exact hca
  have e2 : wadd (wadd c.2 t) NSIZE = c.2 + NSIZE + t :=
    wadd3 _ _ (by simp only [NSIZE] at *; omega)
  have e3 : wadd (wadd a NSIZE) t = a + NSIZE + t :=
    wadd_addr _ _ (by simp only [NSIZE] at *; omega)
  rw [freemem_link_touch st c.1 a t hc0 e1, hcs, e2]
  simp only [Except.bind]
  cases post with
  | nil =>
    have hn : (st.mem c.1).next = 0 := hrp
    rw [freemem_absorb_skip _ _ _ _ _ (by rw [hn]; simp)]
    refine ⟨_, rfl, ?_, rfl, ?_, rfl, ?_, rfl, rfl⟩
    · exact ⟨rfl, hc0, by simp, by simpa using hn⟩
    · intro z hz; exact updSize_ne _ _ _ _ hz
    · simp
  | cons d post2 =>
    obtain ⟨hn, hd0, hds, hrp2⟩ := hrp
    have hda := hpost d (by simp)
    have hdc : d.1 ≠ c.1 := by simp only [NSIZE] at *; omega
    by_cases hR : a + NSIZE + t = d.1
    · have hcn : ((updSize st.mem c.1 (c.2 + NSIZE + t)) c.1).next ≠ a := by
        rw [updSize_next, hn]; simp only [NSIZE] at *; omega
      rw [freemem_absorb_cur _ c.1 _ a t (by rw [hn]; exact hd0) (by rw [e3, hn]; exact hR) hc0 hcn]
      have e4 : wadd (wadd (c.2 + NSIZE + t) d.2) NSIZE = c.2 + NSIZE + t + NSIZE + d.2 := by
        have := g3.2.1
        rw [ADDR_LIMIT_eq] at this
        exact wadd3 _ _ (by simp only [NSIZE] at *; omega)
      refine ⟨_, rfl, ?_, rfl, ?_, rfl, ?_, rfl, rfl⟩
      · rw [pushMerge_touch _ _ _ (by simp only [NSIZE] at *; omega)]
        dsimp only
        rw [hn, updSize_ne _ _ _ d.1 hdc, updSize_same, hds, e4]
        refine ⟨rfl, hc0, by simp, ?_⟩
        simp only [updSize_next, updNext_same]
        apply repr_congr st.mem _ post2 _ _ hrp2
        intro y hy
        have := (gaps_mem _ _ g3.2.2 y hy).1
        rw [updSize_ne _ _ _ _ (by simp only [NSIZE] at *; omega),
          updNext_ne _ _ _ _ (by simp only [NSIZE] at *; omega),
          updSize_ne _ _ _ _ (by simp only [NSIZE] at *; omega)]
      · intro z hz
        dsimp only
        rw [updSize_ne _ _ _ _ hz, updNext_ne _ _ _ _ hz, updSize_ne _ _ _ _ hz]
      · rw [if_pos ⟨d, by simp, hR⟩]
    · rw [freemem_absorb_skip _ _ _ _ _ (by rw [e3, hn]; exact fun h => hR h.2)]
      refine ⟨_, rfl, ?_, rfl, ?_, rfl, ?_, rfl, rfl⟩
      · rw [pushMerge_apart _ _ _ (by simp only [NSIZE] at *; omega)]
        refine ⟨rfl, hc0, by simp, ?_⟩
        simp only [updSize_next]
        apply repr_congr st.mem _ (d :: post2) _ _ (hn ▸ ⟨rfl, hd0, hds, hrp2⟩)
        intro y hy
        have := (gaps_mem _ _ g3 y hy).1
        rw [updSize_ne _ _ _ _ (by simp only [NSIZE] at *; omega)]
      · intro z hz; exact updSize_ne _ _ _ _ hz
      · rw [if_neg]
        rintro ⟨d2, hd2, h⟩
        simp at hd2
        subst hd2
        exact hR h

/-- Release behind node `c`, when the block does not touch `c`. -/
theorem freemem_tail_apart (st : State) (c : Nat × Nat) (post : List (Nat × Nat)) (a t lo : Nat)
    (hrc : Repr st.mem c.1 (c :: post)) (hgc : Gaps lo (c :: post))
    (hca : c.1 + NSIZE + c.2 < a) (hsz : (st.mem a).size = t)
    (hpost : ∀ d ∈ post.head?, a + NSIZE + t ≤ d.1) (hlim : a + NSIZE + t ≤ ADDR_LIMIT) :
    ∃ st2, (freemem_link c.1 a t st).bind (fun s => freemem_absorb c.1 (st.mem c.1).next a t s)
        = .ok st2 ∧
      Repr st2.mem c.1 (c :: pushMerge (a, t) post) ∧ st2.head = st.head ∧
      (∀ z, z ≠ c.1 → z ≠ a → st2.mem z = st.mem z) ∧
      st2.totalFree = st.totalFree ∧
      st2.freeBlocks = (if (∃ d ∈ post.head?, a + NSIZE + t = d.1) then wsub st.freeBlocks 1
        else st.freeBlocks) ∧
      st2.totalSize = st.totalSize ∧ st2.sysLog = st.sysLog := by
  obtain ⟨_, hc0, hcs, hrp⟩ := hrc
  obtain ⟨_, g2, g3⟩ := hgc
  rw [ADDR_LIMIT_eq] at hlim g2
  have hW := WORD_eq
  have ha0 : a ≠ 0 := by omega
  have hac : a ≠ c.1 := by omega
  have e1 : wadd (wadd c.1 NSIZE) (st.mem c.1).size ≠ a := by
    rw [hcs, wadd_addr _ _ (by simp only [NSIZE] at *; omega)]; omega
  have e3 : wadd (wadd a NSIZE) t = a + NSIZE + t :=
    wadd_addr _ _ (by simp only [NSIZE] at *; omega)
  rw [freemem_link_apart st c.1 a t hc0 ha0 e1]
  simp only [Except.bind]
  cases post with
  | nil =>
    have hn : (st.mem c.1).next = 0 := hrp
    rw [freemem_absorb_skip _ _ _ _ _ (by rw [hn]; simp)]
    refine ⟨_, rfl, ?_, rfl, ?_, rfl, ?_, rfl, rfl⟩
    · refine ⟨rfl, hc0, by simp [hcs], ?_⟩
      dsimp only
      rw [updNext_same]
      refine ⟨rfl, ha0, ?_, ?_⟩
      · simp [hsz]
      · show (updNext _ c.1 a a).next = 0
        rw [updNext_ne _ _ _ _ hac, updNext_same, hn]
    · intro z hz hza
      dsimp only
      rw [updNext_ne _ _ _ _ hz, updNext_ne _ _ _ _ hza]
    · simp
  | cons d post2 =>
    obtain ⟨hn, hd0, hds, hrp2⟩ := hrp
    have hda := hpost d (by simp)
    have hdc : d.1 ≠ c.1 := by simp only [NSIZE] at *; omega
    have hdna : d.1 ≠ a := by simp only [NSIZE] at *; omega
    by_cases hR : a + NSIZE + t = d.1
    · rw [freemem_absorb_node _ c.1 _ a t (by rw [hn]; exact hd0) (by rw [e3, hn]; exact hR) hc0 ha0
        (by simp)]
      have e4 : wadd (wadd t d.2) NSIZE = t + NSIZE + d.2 := by
        have := g3.2.1
        rw [ADDR_LIMIT_eq] at this
        exact wadd3 _ _ (by simp only [NSIZE] at *; omega)
      refine ⟨_, rfl, ?_, rfl, ?_, rfl, ?_, rfl, rfl⟩
      · rw [pushMerge_touch _ _ _ hR]
        dsimp only
        rw [hn, updNext_ne _ _ _ d.1 hdc, updNext_ne _ _ _ d.1 hdna, updNext_size, updNext_size,
          hsz, hds, e4]
        refine ⟨rfl, hc0, ?_, ?_⟩
        · rw [updNext_size, updSize_ne _ _ _ _ (Ne.symm hac), updNext_size, updNext_size, hcs]
        · rw [updNext_ne _ _ _ _ (Ne.symm hac), updSize_ne _ _ _ _ (Ne.symm hac), updNext_same]
          refine ⟨rfl, ha0, by simp, ?_⟩
          rw [updNext_same]
          apply repr_congr st.mem _ post2 _ _ hrp2
          intro y hy
          have := (gaps_mem _ _ g3.2.2 y hy).1
          have h1 : y.1 ≠ a := by simp only [NSIZE] at *; omega
          have h2 : y.1 ≠ c.1 := by simp only [NSIZE] at *; omega
          rw [updNext_ne _ _ _ _ h1, updSize_ne _ _ _ _ h1, updNext_ne _ _ _ _ h2,
            updNext_ne _ _ _ _ h1]
      · intro z hz hza
        dsimp only
        rw [updNext_ne _ _ _ _ hza, updSize_ne _ _ _ _ hza, updNext_ne _ _ _ _ hz,
          updNext_ne _ _ _ _ hza]
      · rw [if_pos ⟨d, by simp, hR⟩]
    · rw [freemem_absorb_skip _ _ _ _ _ (by rw [e3, hn]; exact fun h => hR h.2)]
      refine ⟨_, rfl, ?_, rfl, ?_, rfl, ?_, rfl, rfl⟩
      · rw [pushMerge_apart _ _ _ hR]
        refine ⟨rfl, hc0, by simp [hcs], ?_⟩
        dsimp only
        rw [updNext_same]
        refine ⟨rfl, ha0, by simp [hsz], ?_⟩
        dsimp only
        rw [updNext_ne _ _ _ _ hac, updNext_same]
        apply repr_congr st.mem _ (d :: post2) _ _ (hn ▸ ⟨rfl, hd0, hds, hrp2⟩)
        intro y hy
        have := (gaps_mem _ _ g3 y hy).1
        have h1 : y.1 ≠ a := by
          rcases List.mem_cons.1 hy with rfl | hy2
          · exact hdna
          · have := (gaps_mem _ _ g3.2.2 y hy2).1; simp only [NSIZE] at *; omega
        rw [updNext_ne _ _ _ _ (by simp only [NSIZE] at *; omega), updNext_ne _ _ _ _ h1]
      · intro z hz hza
        dsimp only
        rw [updNext_ne _ _ _ _ hz, updNext_ne _ _ _ _ hza]
      · rw [if_neg]
        rintro ⟨d2, hd2, h⟩
        simp at hd2
        subst hd2
        exact hR h

theorem pushMerge_length (x : Nat × Nat) (post : List (Nat × Nat)) :
    (pushMerge x post).length =
      if (∃ d ∈ post.head?, x.1 + NSIZE + x.2 = d.1) then post.length else post.length + 1 := by
  cases post with
  | nil => simp [pushMerge]
  | cons d r =>
    by_cases h : x.1 + NSIZE + x.2 = d.1
    · rw [pushMerge_touch _ _ _ h]; simp [h]
    · rw [pushMerge_apart _ _ _ h]; simp [h]

theorem wsub_wsub_one (x : Nat) : wsub (wsub x 1) 1 = (x + 2 * (WORD - 1)) % WORD := by
  rw [wsub_one, wsub_one, Nat.mod_add_mod]
  have : x + (WORD - 1) + (WORD - 1) = x + 2 * (WORD - 1) := by ring
  rw [this]

/-- Release of a block that does not lie in front of the first free node. -/
theorem freemem_back_spec (st : State) (L : List (Nat × Nat)) (a t fuel : Nat)
    (hr : Repr st.mem st.head L) (hg : Gaps 0 L) (ha : 0 < a) (hsz : (st.mem a).size = t)
    (hlim : a + NSIZE + t ≤ ADDR_LIMIT) (hap : ∀ y ∈ L, Apart (a, t) y) (hh : ¬ a < st.head)
    (hf : L.length < fuel) (hfb : st.freeBlocks < WORD) :
    ∃ st2, freemem_back fuel a t st = .ok st2 ∧
      Repr st2.mem st2.head (coalesce (a, t) L) ∧
      (∀ z, z ≠ a → (∀ y ∈ L, z ≠ y.1) → st2.mem z = st.mem z) ∧
      st2.totalFree = st.totalFree ∧
      st2.freeBlocks =
        (st.freeBlocks + (L.length + 1 - (coalesce (a, t) L).length) * (WORD - 1)) % WORD ∧
      st2.totalSize = st.totalSize ∧ st2.sysLog = st.sysLog := by
  have ha0 : a ≠ 0 := by omega
  cases L with
  | nil =>
    have h0 : st.head = 0 := hr
    rw [freemem_back_nil st a t fuel h0 ha0 (by omega)]
    refine ⟨_, rfl, ?_, ?_, rfl, ?_, rfl, rfl⟩
    · exact ⟨rfl, ha0, by simp [hsz], by show Repr _ (updNext st.mem a 0 a).next []; rw [updNext_same]; rfl⟩
    · intro z hz _
      exact updNext_ne _ _ _ _ hz
    · simp [coalesce, Nat.mod_eq_of_lt hfb]
  | cons b R =>
    obtain ⟨hb1, hb0, hbs, hbR⟩ := hr
    have hba : b.1 ≤ a := by omega
    obtain ⟨pre, c, post, hL, hc, hpo, hloop, hrc⟩ :=
      freemem_loop_spec st.mem a R b fuel 0 ⟨rfl, hb0, hbs, hbR⟩ hg hba
        (by simp at hf; omega)
    rw [freemem_back_cons st b a t fuel c hb1 hb0 hloop]
    have hcL : c ∈ b :: R := by rw [hL]; simp
    have hca := apart_left a t c (hap c hcL) hc
    have hpost : ∀ d ∈ post.head?, a + NSIZE + t ≤ d.1 := by
      intro d hd
      have hdL : d ∈ b :: R := by
        rw [hL]
        cases post with
        | nil => simp at hd
        | cons d2 p2 => simp at hd; subst hd; simp
      exact apart_right a t d (hap d hdL) (hpo d hd)
    have hrL : Repr st.mem st.head (pre ++ c :: post) := by
      rw [← hL]; exact ⟨hb1, hb0, hbs, hbR⟩
    rw [hL] at hg
    have hgm := gaps_append_mid pre c post 0 hg
    have hco := coalesce_mid (a, t) c pre post 0 hg hca
      (by intro d hd; have := hpost d hd; simp only [NSIZE] at *; omega)
    have hpre : ∀ y ∈ pre, y.1 ≠ c.1 ∧ y.1 ≠ a := by
      intro y hy
      have := gaps_append_lt pre c post 0 hg y hy
      simp only [NSIZE] at *
      omega
    have hlen : (pre ++ c :: post).length = pre.length + (post.length + 1) := by simp
    rw [hL, hco, hlen]
    dsimp only at hco ⊢
    by_cases hT : c.1 + NSIZE + c.2 = a
    · obtain ⟨st2, e1, e2, e3, e4, e5, e6, e7, e8⟩ :=
        freemem_tail_touch st c post a t 0 hrc ⟨hgm.1, hgm.2.1, hgm.2.2⟩ hT hpost hlim
      rw [if_pos hT]
      refine ⟨st2, e1, ?_, ?_, e5, ?_, e7, e8⟩
      · rw [e3]
        apply repr_append_tail st.mem _ (c :: post) _ pre _ hrL
        · intro y hy; exact e4 _ (hpre y hy).1
        · intro tp htp; rw [htp.1]; exact e2
      · intro z _ hzL
        exact e4 z (hzL c (by simp))
      · rw [e6, List.length_append, pushMerge_length]
        by_cases hR : ∃ d ∈ post.head?, a + NSIZE + t = d.1
        · have hR2 : ∃ d ∈ post.head?, (c.1, c.2 + NSIZE + t).1 + NSIZE + (c.1, c.2 + NSIZE + t).2 = d.1 := by
            obtain ⟨d, hd, h⟩ := hR
            exact ⟨d, hd, by dsimp only; omega⟩
          have hk : pre.length + (post.length + 1) + 1 - (pre.length + post.length) = 2 := by omega
          rw [if_pos hR, if_pos hR2, wsub_wsub_one, hk]
        · have hR2 : ¬ ∃ d ∈ post.head?, (c.1, c.2 + NSIZE + t).1 + NSIZE + (c.1, c.2 + NSIZE + t).2 = d.1 := by
            rintro ⟨d, hd, h⟩
            exact hR ⟨d, hd, by dsimp only at h; omega⟩
          have hk : pre.length + (post.length + 1) + 1 - (pre.length + (post.length + 1)) = 1 := by
            omega
          rw [if_neg hR, if_neg hR2, wsub_one, hk, Nat.one_mul]
    · obtain ⟨st2, e1, e2, e3, e4, e5, e6, e7, e8⟩ :=
        freemem_tail_apart st c post a t 0 hrc ⟨hgm.1, hgm.2.1, hgm.2.2⟩
          (by simp only [NSIZE] at *; omega) hsz hpost hlim
      rw [if_neg hT]
      refine ⟨st2, e1, ?_, ?_, e5, ?_, e7, e8⟩
      · rw [e3]
        apply repr_append_tail st.mem _ (c :: post) _ pre _ hrL
        · intro y hy; exact e4 _ (hpre y hy).1 (hpre y hy).2
        · intro tp htp; rw [htp.1]; exact e2
      · intro z hza hzL
        exact e4 z (hzL c (by simp)) hza
      · rw [e6, List.length_append, List.length_cons, pushMerge_length]
        by_cases hR : ∃ d ∈ post.head?, a + NSIZE + t = d.1
        · have hk : pre.length + (post.length + 1) + 1 - (pre.length + (post.length + 1)) = 1 := by
            omega
          rw [if_pos hR, if_pos hR, wsub_one, hk, Nat.one_mul]
        · rw [if_neg hR, if_neg hR]
          have : pre.length + (post.length + 1) + 1 - (pre.length + (post.length + 1 + 1)) = 0 := by
            omega
          rw [this, Nat.zero_mul, Nat.add_zero, Nat.mod_eq_of_lt hfb]

theorem gaps_pushMerge (x : Nat × Nat) (post : List (Nat × Nat)) (lo : Nat) (hlo : lo < x.1)
    (hlim : x.1 + NSIZE + x.2 ≤ ADDR_LIMIT) (hpost : ∀ d ∈ post.head?, x.1 + NSIZE + x.2 ≤ d.1)
    (hg : ∀ d ∈ post.head?, Gaps d.1 post.tail ∧ d.1 + NSIZE + d.2 ≤ ADDR_LIMIT ∧
      Gaps (d.1 + NSIZE + d.2) post.tail) :
    Gaps lo (pushMerge x post) := by
  cases post with
  | nil => exact ⟨hlo, hlim, trivial⟩
  | cons d r =>
    have h1 := hpost d (by simp)
    have h2 := hg d (by simp)
    by_cases h : x.1 + NSIZE + x.2 = d.1
    · rw [pushMerge_touch _ _ _ h]
      have e : x.1 + NSIZE + (x.2 + NSIZE + d.2) = d.1 + NSIZE + d.2 := by omega
      refine ⟨hlo, ?_, ?_⟩
      · show x.1 + NSIZE + (x.2 + NSIZE + d.2) ≤ _
        rw [e]; exact h2.2.1
      · show Gaps (x.1 + NSIZE + (x.2 + NSIZE + d.2)) r
        rw [e]; exact h2.2.2
    · rw [pushMerge_apart _ _ _ h]
      exact ⟨hlo, hlim, by omega, h2.2.1, h2.2.2⟩

theorem gaps_pushMerge_of (x : Nat × Nat) (post : List (Nat × Nat)) (lo lo2 : Nat) (hlo : lo < x.1)
    (hlim : x.1 + NSIZE + x.2 ≤ ADDR_LIMIT) (hpost : ∀ d ∈ post.head?, x.1 + NSIZE + x.2 ≤ d.1)
    (hg : Gaps lo2 post) : Gaps lo (pushMerge x post) := by
  apply gaps_pushMerge x post lo hlo hlim hpost
  intro d hd
  cases post with
  | nil => simp at hd
  | cons d2 r =>
    simp at hd; subst hd
    exact ⟨gaps_mono _ _ _ (by omega) hg.2.2, hg.2.1, hg.2.2⟩

/-- Releasing a block that overlaps no free node keeps the list ordered, apart
and non-touching. -/
theorem gaps_coalesce (x : Nat × Nat) :
    ∀ (L : List (Nat × Nat)) (lo : Nat), Gaps lo L → lo < x.1 → x.1 + NSIZE + x.2 ≤ ADDR_LIMIT →
      (∀ y ∈ L, Apart x y) → Gaps lo (coalesce x L) := by
  intro L
  induction L with
  | nil => intro lo _ hlo hlim _; exact ⟨hlo, hlim, trivial⟩
  | cons b rest ih =>
    intro lo hg hlo hlim hap
    have hapb := hap b (List.mem_cons_self _ _)
    rw [coalesce_cons]
    by_cases h1 : x.1 < b.1
    · rw [if_pos h1]
      apply gaps_pushMerge_of x (b :: rest) lo lo hlo hlim _ hg
      intro d hd
      simp at hd; subst hd
      exact apart_right x.1 x.2 b hapb (by omega)
    · rw [if_neg h1]
      have hbx := apart_left x.1 x.2 b hapb (by omega)
      by_cases h2 : b.1 + NSIZE + b.2 = x.1
      · rw [if_pos h2]
        apply gaps_pushMerge_of (b.1, b.2 + NSIZE + x.2) rest lo _ hg.1 _ _ hg.2.2
        · show b.1 + NSIZE + (b.2 + NSIZE + x.2) ≤ _
          omega
        · intro d hd
          have hdm : d ∈ rest := by
            cases rest with
            | nil => simp at hd
            | cons d2 r => simp at hd; subst hd; simp
          have := (gaps_mem _ _ hg.2.2 d hdm).1
          have := apart_right x.1 x.2 d (hap d (List.mem_cons_of_mem _ hdm)) (by omega)
          show b.1 + NSIZE + (b.2 + NSIZE + x.2) ≤ _
          omega
      · rw [if_neg h2]
        exact ⟨hg.1, hg.2.1,
          ih _ hg.2.2 (by omega) hlim (fun y hy => hap y (List.mem_cons_of_mem _ hy))⟩

theorem minSize_pushMerge (x : Nat × Nat) (post : List (Nat × Nat)) (hx : 16 ≤ x.2)
    (hp : MinSize post) : MinSize (pushMerge x post) := by
  cases post with
  | nil => intro y hy; simp [pushMerge] at hy; subst hy; exact hx
  | cons d r =>
    by_cases h : x.1 + NSIZE + x.2 = d.1
    · rw [pushMerge_touch _ _ _ h]
      intro y hy
      rcases List.mem_cons.1 hy with rfl | hy
      · show 16 ≤ x.2 + NSIZE + d.2; omega
      · exact hp y (List.mem_cons_of_mem _ hy)
    · rw [pushMerge_apart _ _ _ h]
      intro y hy
      rcases List.mem_cons.1 hy with rfl | hy
      · exact hx
      · exact hp y hy

theorem minSize_coalesce (x : Nat × Nat) (hx : 16 ≤ x.2) :
    ∀ (L : List (Nat × Nat)), MinSize L → MinSize (coalesce x L) := by
  intro L
  induction L with
  | nil => intro _ y hy; simp [coalesce] at hy; subst hy; exact hx
  | cons b rest ih =>
    intro hm
    have hb : 16 ≤ b.2 := hm b (List.mem_cons_self _ _)
    have hrest : MinSize rest := fun y hy => hm y (List.mem_cons_of_mem _ hy)
    rw [coalesce_cons]
    split
    · exact minSize_pushMerge x _ hx hm
    · split
      · exact minSize_pushMerge _ _ (by show 16 ≤ b.2 + NSIZE + x.2; omega) hrest
      · intro y hy
        rcases List.mem_cons.1 hy with rfl | hy
        · exact hb
        · exact ih hrest y hy

theorem spanSum_pushMerge (x : Nat × Nat) (post : List (Nat × Nat)) :
    spanSum (pushMerge x post) = x.2 + NSIZE + spanSum post := by
  cases post with
  | nil => rfl
  | cons d r =>
    by_cases h : x.1 + NSIZE + x.2 = d.1
    · rw [pushMerge_touch _ _ _ h]; simp only [spanSum]; omega
    · rw [pushMerge_apart _ _ _ h]; rfl

theorem spanSum_coalesce (x : Nat × Nat) :
    ∀ (L : List (Nat × Nat)), spanSum (coalesce x L) = spanSum L + (x.2 + NSIZE) := by
  intro L
  induction L with
  | nil => simp [coalesce, spanSum]
  | cons b rest ih =>
    rw [coalesce_cons]
    split
    · rw [spanSum_pushMerge]; simp only [spanSum]; omega
    · split
      · rw [spanSum_pushMerge]; simp only [spanSum]; omega
      · simp only [spanSum, ih]; omega

theorem pushMerge_length_bounds (x : Nat × Nat) (post : List (Nat × Nat)) :
    (pushMerge x post).length ≤ post.length + 1 ∧ post.length ≤ (pushMerge x post).length ∧
      1 ≤ (pushMerge x post).length := by
  cases post with
  | nil => simp [pushMerge]
  | cons d r =>
    by_cases h : x.1 + NSIZE + x.2 = d.1
    · rw [pushMerge_touch _ _ _ h]; simp
    · rw [pushMerge_apart _ _ _ h]; simp

theorem coalesce_length (x : Nat × Nat) :
    ∀ (L : List (Nat × Nat)), (coalesce x L).length ≤ L.length + 1 ∧
      L.length ≤ (coalesce x L).length + 1 ∧ 1 ≤ (coalesce x L).length := by
  intro L
  induction L with
  | nil => simp [coalesce]
  | cons b rest ih =>
    rw [coalesce_cons]
    split
    · have := pushMerge_length_bounds x (b :: rest)
      simp only [List.length_cons] at *
      omega
    · split
      · have := pushMerge_length_bounds (b.1, b.2 + NSIZE + x.2) rest
        simp only [List.length_cons] at *
        omega
      · simp only [List.length_cons]
        omega

theorem ok_bind {α β : Type} (x : α) (f : α → Except Fault β) : (Except.ok x >>= f) = f x := rfl

theorem error_bind {α β : Type} (e : Fault) (f : α → Except Fault β) :
    ((Except.error e : Except Fault α) >>= f) = Except.error e := rfl

theorem wsub_wadd_one (x : Nat) : wsub (wadd x 1) 1 = (x + 1 + (WORD - 1)) % WORD := by
  rw [wsub_one]
  unfold wadd
  rw [Nat.mod_add_mod]

theorem freemem_body_eq (st : State) (a t fuel : Nat) (ha : 0 < a) (hsz : (st.mem a).size = t)
    (hlim : a + NSIZE + t ≤ ADDR_LIMIT) :
    freemem_body fuel (a + NSIZE) st =
      if a < st.head then
        freemem_front (a + NSIZE) a t { st with
          totalFree := wadd st.totalFree (t + NSIZE), freeBlocks := wadd st.freeBlocks 1 }
      else
        freemem_back fuel a t { st with
          totalFree := wadd st.totalFree (t + NSIZE), freeBlocks := wadd st.freeBlocks 1 } := by
  rw [ADDR_LIMIT_eq] at hlim
  have hW := WORD_eq
  have e0 : wsub (a + NSIZE) NSIZE = a := by
    rw [wsub_eq (a + NSIZE) NSIZE (by omega) (by simp only [NSIZE] at *; omega)]; omega
  have e2 : wadd t NSIZE = t + NSIZE := wadd_eq _ _ (by simp only [NSIZE] at *; omega)
  have ha0 : a ≠ 0 := by omega
  unfold freemem_body
  simp only [e0, getSize, if_neg ha0, ok_bind, hsz, e2]

/-- The statements of `freemem` between the two checks put the released block
at its place in the free list and merge it with the nodes it touches. -/
theorem freemem_body_spec (st : State) (L : List (Nat × Nat)) (a t fuel : Nat)
    (hr : Repr st.mem st.head L) (hg : Gaps 0 L) (ha : 0 < a) (hsz : (st.mem a).size = t)
    (hlim : a + NSIZE + t ≤ ADDR_LIMIT) (hap : ∀ y ∈ L, Apart (a, t) y)
    (hf : L.length < fuel) :
    ∃ st2, freemem_body fuel (a + NSIZE) st = .ok st2 ∧
      Repr st2.mem st2.head (coalesce (a, t) L) ∧
      (∀ z, z ≠ a → (∀ y ∈ L, z ≠ y.1) → st2.mem z = st.mem z) ∧
      st2.totalFree = wadd st.totalFree (t + NSIZE) ∧
      st2.freeBlocks =
        (st.freeBlocks + 1 + (L.length + 1 - (coalesce (a, t) L).length) * (WORD - 1)) % WORD ∧
      st2.totalSize = st.totalSize ∧ st2.sysLog = st.sysLog := by
  rw [freemem_body_eq st a t fuel ha hsz hlim]
  have hW := WORD_eq
  by_cases hlt : a < st.head
  · rw [if_pos hlt]
    cases L with
    | nil => have : st.head = 0 := hr; omega
    | cons b rest =>
      have hb1 : st.head = b.1 := hr.1
      have hab := apart_right a t b (hap b (List.mem_cons_self _ _)) (by omega)
      obtain ⟨st2, e1, e2, e3, e4, e5, e6, e7⟩ :=
        freemem_front_spec { st with
          totalFree := wadd st.totalFree (t + NSIZE), freeBlocks := wadd st.freeBlocks 1 }
          b rest a t hr hg ha hsz hab
      have hco : coalesce (a, t) (b :: rest) = pushMerge (a, t) (b :: rest) := by
        rw [coalesce_cons, if_pos (by rw [← hb1]; exact hlt)]
      rw [hco]
      refine ⟨st2, e1, e2, fun z hz _ => e3 z hz, e4, ?_, e6, e7⟩
      rw [e5]
      by_cases hT : a + NSIZE + t = b.1
      · rw [if_pos hT, pushMerge_touch _ _ _ hT]
        have hk : (b :: rest).length + 1 -
            (((a, t).1, (a, t).2 + NSIZE + b.2) :: rest).length = 1 := by simp
        rw [hk, Nat.one_mul]
        exact wsub_wadd_one _
      · rw [if_neg hT, pushMerge_apart _ _ _ hT]
        have hk : (b :: rest).length + 1 - ((a, t) :: b :: rest).length = 0 := by simp
        rw [hk, Nat.zero_mul, Nat.add_zero]
        rfl
  · rw [if_neg hlt]
    obtain ⟨st2, e1, e2, e3, e4, e5, e6, e7⟩ :=
      freemem_back_spec { st with
        totalFree := wadd st.totalFree (t + NSIZE), freeBlocks := wadd st.freeBlocks 1 }
        L a t fuel hr hg ha hsz hlim hap hlt hf (Nat.mod_lt _ (by rw [hW]; omega))
    refine ⟨st2, e1, e2, e3, e4, ?_, e6, e7⟩
    rw [e5]
    show (wadd st.freeBlocks 1 + _) % WORD = _
    unfold wadd
    rw [Nat.mod_add_mod]

theorem freemem_unfold (st st2 : State) (a fuel : Nat) (hchk : check_heap fuel st = .ok ())
    (hbody : freemem_body fuel (a + NSIZE) st = .ok st2) :
    freemem fuel (a + NSIZE) st = (check_heap fuel st2 >>= fun _ => pure st2) := by
  unfold freemem
  rw [if_neg (by simp [NSIZE]), hchk, ok_bind, hbody, ok_bind]

theorem freemem_null (fuel : Nat) (st : State) : freemem fuel 0 st = .ok st := by
  unfold freemem
  rw [if_pos rfl]; rfl

/-- A release of a block that overlaps no free node: the result of the body,
and `freemem` returns it exactly when the final check passes. -/
theorem freemem_run (st : State) (L : List (Nat × Nat)) (a t fuel : Nat)
    (hr : Repr st.mem st.head L) (hg : Gaps 0 L) (hms : MinSize L) (ha : 0 < a)
    (hsz : (st.mem a).size = t) (hlim : a + NSIZE + t ≤ ADDR_LIMIT)
    (hap : ∀ y ∈ L, Apart (a, t) y) (hf : L.length < fuel) :
    ∃ st2, Repr st2.mem st2.head (coalesce (a, t) L) ∧
      (∀ z, z ≠ a → (∀ y ∈ L, z ≠ y.1) → st2.mem z = st.mem z) ∧
      st2.totalFree = wadd st.totalFree (t + NSIZE) ∧
      st2.freeBlocks =
        (st.freeBlocks + 1 + (L.length + 1 - (coalesce (a, t) L).length) * (WORD - 1)) % WORD ∧
      st2.totalSize = st.totalSize ∧ st2.sysLog = st.sysLog ∧
      (MinSize (coalesce (a, t) L) → (coalesce (a, t) L).length < fuel →
        freemem fuel (a + NSIZE) st = .ok st2) ∧
      (∀ st3, freemem fuel (a + NSIZE) st = .ok st3 → st3 = st2 ∧ MinSize (coalesce (a, t) L)) := by
  obtain ⟨st2, e1, e2, e3, e4, e5, e6, e7⟩ :=
    freemem_body_spec st L a t fuel hr hg ha hsz hlim hap (by omega)
  have hchk : check_heap fuel st = .ok () :=
    check_heap_loop_complete st.mem L 0 st.head fuel hr hg hms (by omega)
  have hun := freemem_unfold st st2 a fuel hchk e1
  have hg2 := gaps_coalesce (a, t) L 0 hg ha hlim hap
  have hlen := coalesce_length (a, t) L
  refine ⟨st2, e2, e3, e4, e5, e6, e7, ?_, ?_⟩
  · intro hm2 hf2
    have : check_heap fuel st2 = .ok () :=
      check_heap_loop_complete st2.mem _ 0 st2.head fuel e2 hg2 hm2 hf2
    rw [hun, this]; rfl
  · intro st3 h3
    rw [hun] at h3
    cases hc : check_heap fuel st2 with
    | error e => rw [hc] at h3; cases h3
    | ok u =>
      rw [hc] at h3
      have h4 : st2 = st3 := by
        have : (Except.ok st2 : Except Fault State) = Except.ok st3 := h3
        exact Except.ok.inj this
      refine ⟨h4.symm, ?_⟩
      exact (check_heap_loop_sound st2.mem _ 0 st2.head fuel e2
        (fun y hy => (gaps_mem _ _ hg2 y hy).2) (fun h => Nat.pos_of_ne_zero h) hc).2

theorem getmem_zero (fuel : Nat) (sys : Nat → Nat) (st : State) (hchk : check_heap fuel st = .ok ()) :
    getmem fuel sys 0 st = .ok (0, st) := by
  unfold getmem
  rw [hchk, ok_bind, if_pos (le_refl 0)]; rfl

theorem getmem_nonempty (fuel : Nat) (sys : Nat → Nat) (r : Nat) (st : State)
    (hchk : check_heap fuel st = .ok ()) (hr : 0 < r) (hh : st.head ≠ 0) :
    getmem fuel sys r st =
      (getmem_loop st.mem (align r) fuel 0 st.head >>= fun q =>
        if q.1 then splitNode q.2 (align r) st
        else
          (setNext (newNode sys (if align r > MEM_CHUNK then align r else MEM_CHUNK) st).2 q.2
            (newNode sys (if align r > MEM_CHUNK then align r else MEM_CHUNK) st).1 >>= fun s =>
            check_heap fuel s >>= fun _ => splitNode q.2 (align r) s)) := by
  unfold getmem
  rw [hchk, ok_bind, if_neg (by omega)]
  simp only [if_pos hh, if_neg hh]

theorem getmem_empty (fuel : Nat) (sys : Nat → Nat) (r : Nat) (st : State)
    (hchk : check_heap fuel st = .ok ()) (hr : 0 < r) (hh : st.head = 0) :
    getmem fuel sys r st =
      if (newNode sys (if align r > MEM_CHUNK then align r else MEM_CHUNK) st).1 = 0 then
        .ok (0, { (newNode sys (if align r > MEM_CHUNK then align r else MEM_CHUNK) st).2 with
          head := (newNode sys (if align r > MEM_CHUNK then align r else MEM_CHUNK) st).1 })
      else
        (getmem_loop (newNode sys (if align r > MEM_CHUNK then align r else MEM_CHUNK) st).2.mem
            (align r) fuel 0
            (newNode sys (if align r > MEM_CHUNK then align r else MEM_CHUNK) st).1 >>= fun q =>
          if q.1 then splitNode q.2 (align r)
            { (newNode sys (if align r > MEM_CHUNK then align r else MEM_CHUNK) st).2 with
              head := (newNode sys (if align r > MEM_CHUNK then align r else MEM_CHUNK) st).1 }
          else
            (setNext (newNode sys (if align r > MEM_CHUNK then align r else MEM_CHUNK)
                { (newNode sys (if align r > MEM_CHUNK then align r else MEM_CHUNK) st).2 with
                  head := (newNode sys (if align r > MEM_CHUNK then align r else MEM_CHUNK) st).1 }).2
              q.2
              (newNode sys (if align r > MEM_CHUNK then align r else MEM_CHUNK)
                { (newNode sys (if align r > MEM_CHUNK then align r else MEM_CHUNK) st).2 with
                  head := (newNode sys (if align r > MEM_CHUNK then align r else MEM_CHUNK) st).1 }).1
              >>= fun s => check_heap fuel s >>= fun _ => splitNode q.2 (align r) s)) := by
  unfold getmem
  rw [hchk, ok_bind, if_neg (by omega)]
  simp only [hh, ne_eq, not_true_eq_false, if_false]
  rfl

/-- The node selected by first fit, with the nodes in front of it and behind
it. -/
theorem first_fit_split (s : Nat) :
    ∀ (L : List (Nat × Nat)), (∃ y ∈ L, s ≤ y.2) →
      ∃ L1 x L2, L = L1 ++ x :: L2 ∧ (∀ y ∈ L1, y.2 < s) ∧ s ≤ x.2 ∧
        carve s L = L1 ++ (if x.2 > s + SPLIT_CONSTANT then (x.1 + NSIZE + s, x.2 - NSIZE - s) :: L2
          else L2) ∧
        granted s L = some (x.1, if x.2 > s + SPLIT_CONSTANT then s else x.2) := by
  intro L
  induction L with
  | nil => rintro ⟨y, hy, _⟩; cases hy
  | cons b rest ih =>
    intro hex
    by_cases hb : s ≤ b.2
    · refine ⟨[], b, rest, rfl, by simp, hb, ?_, ?_⟩
      · simp only [carve, if_pos hb, List.nil_append]
      · simp only [granted, if_pos hb]
    · have hex2 : ∃ y ∈ rest, s ≤ y.2 := by
        obtain ⟨y, hy, hys⟩ := hex
        rcases List.mem_cons.1 hy with rfl | hy
        · exact absurd hys hb
        · exact ⟨y, hy, hys⟩
      obtain ⟨L1, x, L2, e1, e2, e3, e4, e5⟩ := ih hex2
      refine ⟨b :: L1, x, L2, by rw [e1]; rfl, ?_, e3, ?_, ?_⟩
      · intro y hy
        rcases List.mem_cons.1 hy with rfl | hy
        · omega
        · exact e2 y hy
      · simp only [carve, if_neg hb, e4, List.cons_append]
      · simp only [granted, if_neg hb, e5]

/-- The scan and split of `getmem` when some free node is large enough. -/
theorem getmem_select (st : State) (L : List (Nat × Nat)) (s fuel : Nat)
    (X : Bool × Nat → Except Fault (Nat × State))
    (hr : Repr st.mem st.head L) (hg : Gaps 0 L) (hex : ∃ y ∈ L, s ≤ y.2) (hf : L.length ≤ fuel) :
    ∃ st2 g, granted s L = some g ∧
      (getmem_loop st.mem s fuel 0 st.head >>= fun q =>
        if q.1 then splitNode q.2 s st else X q) = .ok (g.1 + NSIZE, st2) ∧
      Repr st2.mem st2.head (carve s L) ∧ (st2.mem g.1).size = g.2 ∧
      (∀ z, (∀ y ∈ L, z < y.1 ∨ y.1 + NSIZE + y.2 ≤ z) → (st2.mem z).size = (st.mem z).size) ∧
      st2.totalFree = wsub st.totalFree (g.2 + NSIZE) ∧
      st2.freeBlocks = (if (carve s L).length = L.length then st.freeBlocks
        else wsub st.freeBlocks 1) ∧
      st2.totalSize = st.totalSize ∧ st2.sysLog = st.sysLog := by
  obtain ⟨L1, x, L2, e1, e2, e3, e4, e5⟩ := first_fit_split s L hex
  subst e1
  have hloop := getmem_loop_found st.mem s x L2 L1 0 st.head fuel hr e2 e3
    (by simp at hf; omega)
  rw [hloop, ok_bind]
  simp only [if_true]
  have hxL : x ∈ L1 ++ x :: L2 := by simp
  have hx := gaps_mem _ _ hg x hxL
  by_cases hS : x.2 > s + SPLIT_CONSTANT
  · obtain ⟨st2, a1, a2, a3, a4, a5, a6, a7, a8⟩ := splitNode_split st L1 L2 x.1 x.2 s hr hg hS
    rw [if_pos hS] at e4 e5
    refine ⟨st2, _, e5, a1, by rw [e4]; exact a2, a3, ?_, a5, ?_, a7, a8⟩
    · intro z hz
      have := hz x hxL
      apply a4 z <;> simp only [NSIZE, SPLIT_CONSTANT] at * <;> omega
    · rw [a6, e4, if_pos (by simp)]
  · obtain ⟨st2, a1, a2, a3, a4, a5, a6, a7⟩ := splitNode_whole st L1 L2 x.1 x.2 s hr hg e3 hS
    rw [if_neg hS] at e4 e5
    refine ⟨st2, _, e5, a1, by rw [e4]; exact a2, ?_, fun z _ => a3 z, a4, ?_, a6, a7⟩
    · show (st2.mem x.1).size = x.2
      rw [a3]
      exact (repr_readLink st L1 _ hr hg).2.2.1
    · rw [a5, e4, if_neg (by simp)]

/-- A call of `getmem` that is served by an existing free node. -/
theorem getmem_fit (st : State) (L : List (Nat × Nat)) (r fuel : Nat) (sys : Nat → Nat)
    (hr : Repr st.mem st.head L) (hg : Gaps 0 L) (hms : MinSize L) (hr0 : 0 < r)
    (hex : ∃ y ∈ L, align r ≤ y.2) (hf : L.length < fuel) :
    ∃ st2 g, granted (align r) L = some g ∧
      getmem fuel sys r st = .ok (g.1 + NSIZE, st2) ∧
      Repr st2.mem st2.head (carve (align r) L) ∧ (st2.mem g.1).size = g.2 ∧
      (∀ z, (∀ y ∈ L, z < y.1 ∨ y.1 + NSIZE + y.2 ≤ z) → (st2.mem z).size = (st.mem z).size) ∧
      st2.totalFree = wsub st.totalFree (g.2 + NSIZE) ∧
      st2.freeBlocks = (if (carve (align r) L).length = L.length then st.freeBlocks
        else wsub st.freeBlocks 1) ∧
      st2.totalSize = st.totalSize ∧ st2.sysLog = st.sysLog := by
  have hchk : check_heap fuel st = .ok () :=
    check_heap_loop_complete st.mem L 0 st.head fuel hr hg hms hf
  have hh : st.head ≠ 0 := by
    cases L with
    | nil => obtain ⟨y, hy, _⟩ := hex; cases hy
    | cons b rest => rw [hr.1]; exact hr.2.1
  rw [getmem_nonempty fuel sys r st hchk hr0 hh]
  exact getmem_select st L (align r) fuel _ hr hg hex (by omega)

theorem gaps_carve (s : Nat) :
    ∀ (L : List (Nat × Nat)) (lo : Nat), Gaps lo L → Gaps lo (carve s L) := by
  intro L
  induction L with
  | nil => intro lo _; trivial
  | cons b rest ih =>
    intro lo hg
    simp only [carve]
    split
    · split
      · refine ⟨by show lo < b.1 + NSIZE + s; have := hg.1; omega, ?_, ?_⟩
        · show b.1 + NSIZE + s + NSIZE + (b.2 - NSIZE - s) ≤ ADDR_LIMIT
          have := hg.2.1
          simp only [NSIZE, SPLIT_CONSTANT] at *; omega
        · show Gaps (b.1 + NSIZE + s + NSIZE + (b.2 - NSIZE - s)) rest
          have e : b.1 + NSIZE + s + NSIZE + (b.2 - NSIZE - s) = b.1 + NSIZE + b.2 := by
            simp only [NSIZE, SPLIT_CONSTANT] at *; omega
          rw [e]; exact hg.2.2
      · exact gaps_mono _ _ _ (by have := hg.1; omega) hg.2.2
    · exact ⟨hg.1, hg.2.1, ih _ hg.2.2⟩

theorem minSize_carve (s : Nat) :
    ∀ (L : List (Nat × Nat)), MinSize L → MinSize (carve s L) := by
  intro L
  induction L with
  | nil => intro h; exact h
  | cons b rest ih =>
    intro hm
    have hrest : MinSize rest := fun y hy => hm y (List.mem_cons_of_mem _ hy)
    simp only [carve]
    split
    · split
      · intro y hy
        rcases List.mem_cons.1 hy with rfl | hy
        · show 16 ≤ b.2 - NSIZE - s
          simp only [NSIZE, SPLIT_CONSTANT] at *; omega
        · exact hrest y hy
      · exact hrest
    · intro y hy
      rcases List.mem_cons.1 hy with rfl | hy
      · exact hm _ (List.mem_cons_self _ _)
      · exact ih hrest y hy

theorem spanSum_carve (s : Nat) :
    ∀ (L : List (Nat × Nat)) (g : Nat × Nat), granted s L = some g →
      spanSum L = spanSum (carve s L) + (g.2 + NSIZE) := by
  intro L
  induction L with
  | nil => intro g h; cases h
  | cons b rest ih =>
    intro g hgr
    simp only [granted] at hgr
    simp only [carve]
    split at hgr
    · next hb =>
      rw [if_pos hb]
      have hg2 := Option.some.inj hgr
      subst hg2
      split
      · simp only [spanSum, NSIZE, SPLIT_CONSTANT] at *; omega
      · simp only [spanSum]; omega
    · next hb =>
      rw [if_neg hb]
      simp only [spanSum, ih g hgr]; omega

/-- The granted block lies inside the node it was carved from. -/
theorem granted_mem (s : Nat) :
    ∀ (L : List (Nat × Nat)) (g : Nat × Nat), granted s L = some g →
      ∃ y ∈ L, g.1 = y.1 ∧ g.2 ≤ y.2 ∧ s ≤ g.2 ∧ g.2 ≤ s + SPLIT_CONSTANT := by
  intro L
  induction L with
  | nil => intro g h; cases h
  | cons b rest ih =>
    intro g hgr
    simp only [granted] at hgr
    split at hgr
    · next hb =>
      have hg2 := Option.some.inj hgr
      subst hg2
      refine ⟨b, List.mem_cons_self _ _, rfl, ?_, ?_, ?_⟩
      · dsimp only; split <;> omega
      · dsimp only; split <;> omega
      · dsimp only; split <;> omega
    · obtain ⟨y, hy, h⟩ := ih g hgr
      exact ⟨y, List.mem_cons_of_mem _ hy, h⟩

/-- Every node of the carved list lies inside a node of the old list. -/
theorem carve_mem (s : Nat) :
    ∀ (L : List (Nat × Nat)), ∀ z ∈ carve s L,
      ∃ y ∈ L, y.1 ≤ z.1 ∧ z.1 + NSIZE + z.2 = y.1 + NSIZE + y.2 := by
  intro L
  induction L with
  | nil => intro z hz; cases hz
  | cons b rest ih =>
    intro z hz
    simp only [carve] at hz
    split at hz
    · split at hz
      · rcases List.mem_cons.1 hz with rfl | hz
        · refine ⟨b, List.mem_cons_self _ _, ?_, ?_⟩
          · show b.1 ≤ b.1 + NSIZE + s; omega
          · show b.1 + NSIZE + s + NSIZE + (b.2 - NSIZE - s) = _
            simp only [NSIZE, SPLIT_CONSTANT] at *; omega
        · exact ⟨z, List.mem_cons_of_mem _ hz, le_refl _, rfl⟩
      · exact ⟨z, List.mem_cons_of_mem _ hz, le_refl _, rfl⟩
    · rcases List.mem_cons.1 hz with rfl | hz
      · exact ⟨z, List.mem_cons_self _ _, le_refl _, rfl⟩
      · obtain ⟨y, hy, h⟩ := ih z hz
        exact ⟨y, List.mem_cons_of_mem _ hy, h⟩

/-- The granted block overlaps no node of the carved list. -/
theorem granted_apart (s : Nat) :
    ∀ (L : List (Nat × Nat)) (lo : Nat) (g : Nat × Nat), Gaps lo L → granted s L = some g →
      ∀ z ∈ carve s L, Apart g z := by
  intro L
  induction L with
  | nil => intro lo g _ h; cases h
  | cons b rest ih =>
    intro lo g hg hgr z hz
    simp only [granted] at hgr
    simp only [carve] at hz
    split at hgr
    · next hb =>
      rw [if_pos hb] at hz
      have hg2 := Option.some.inj hgr
      subst hg2
      split at hz
      · next hS =>
        rw [if_pos hS]
        rcases List.mem_cons.1 hz with rfl | hz
        · left; show b.1 + NSIZE + s ≤ b.1 + NSIZE + s; exact le_refl _
        · left
          have := (gaps_mem _ _ hg.2.2 z hz).1
          show b.1 + NSIZE + s ≤ z.1
          simp only [NSIZE, SPLIT_CONSTANT] at *; omega
      · next hS =>
        rw [if_neg hS]
        left
        have := (gaps_mem _ _ hg.2.2 z hz).1
        show b.1 + NSIZE + b.2 ≤ z.1
        omega
    · next hb =>
      rw [if_neg hb] at hz
      obtain ⟨y, hy, hy1, hy2, _⟩ := granted_mem s rest g hgr
      have hyb := (gaps_mem _ _ hg.2.2 y hy).1
      rcases List.mem_cons.1 hz with rfl | hz
      · right; rw [hy1]; omega
      · exact ih _ g hg.2.2 hgr z hz

theorem newNode_fail (sys : Nat → Nat) (s : Nat) (st : State) (h : sys ((s + NSIZE) % WORD) = 0) :
    newNode sys s st = (0, { st with sysLog := ((s + NSIZE) % WORD, 0) :: st.sysLog }) := by
  unfold newNode
  simp only [h, ne_eq, not_true_eq_false, if_false]

theorem newNode_ok (sys : Nat → Nat) (s : Nat) (st : State) (h : sys ((s + NSIZE) % WORD) ≠ 0) :
    newNode sys s st = (sys ((s + NSIZE) % WORD),
      { head := st.head
        totalSize := (st.totalSize + (s + NSIZE) % WORD) % WORD
        totalFree := (st.totalFree + (s + NSIZE) % WORD) % WORD
        freeBlocks := (st.freeBlocks + 1) % WORD
        mem := fun x => if x = sys ((s + NSIZE) % WORD) then ⟨0, s⟩ else st.mem x
        sysLog := ((s + NSIZE) % WORD, sys ((s + NSIZE) % WORD)) :: st.sysLog }) := by
  unfold newNode
  simp only [ne_eq, h, not_false_eq_true, if_true]

theorem lastAddr_ne_zero (L : List (Nat × Nat)) (hL : L ≠ []) (hg : Gaps 0 L) : lastAddr 0 L ≠ 0 := by
  rcases lastAddr_cases L 0 with ⟨h1, _⟩ | ⟨y, hy, h2⟩
  · exact absurd h1 hL
  · rw [h2]; have := (gaps_mem _ _ hg y hy).1; omega

theorem lastAddr_mem (L : List (Nat × Nat)) (hL : L ≠ []) : ∃ y ∈ L, lastAddr 0 L = y.1 := by
  rcases lastAddr_cases L 0 with ⟨h1, _⟩ | h
  · exact absurd h1 hL
  · exact h

/-- When the pool is not empty, no node is large enough and `malloc` fails,
`getmem` dereferences `NULL` in `splitNode`. -/
theorem getmem_grow_fail (st : State) (L : List (Nat × Nat)) (r fuel : Nat) (sys : Nat → Nat)
    (hr : Repr st.mem st.head L) (hg : Gaps 0 L) (hms : MinSize L) (hr0 : 0 < r) (hL : L ≠ [])
    (hno : ∀ y ∈ L, y.2 < align r) (hf : L.length < fuel)
    (hsys : sys (((if align r > MEM_CHUNK then align r else MEM_CHUNK) + NSIZE) % WORD) = 0) :
    getmem fuel sys r st = .error .nullDeref := by
  have hchk : check_heap fuel st = .ok () :=
    check_heap_loop_complete st.mem L 0 st.head fuel hr hg hms hf
  have hh : st.head ≠ 0 := by
    cases L with
    | nil => exact absurd rfl hL
    | cons b rest => rw [hr.1]; exact hr.2.1
  have hp := lastAddr_ne_zero L hL hg
  have hlast : Repr st.mem (readLink st (lastAddr 0 L)) [] := by
    have := repr_readLink st L [] (by simpa using hr) (by simpa using hg)
    exact this
  have hnext : (st.mem (lastAddr 0 L)).next = 0 := by
    unfold readLink at hlast
    rw [if_pos hp] at hlast
    exact hlast
  rw [getmem_nonempty fuel sys r st hchk hr0 hh,
    getmem_loop_none st.mem (align r) L 0 st.head fuel hr hno hf, ok_bind]
  simp only [Bool.false_eq_true, if_false]
  rw [newNode_fail sys _ st hsys]
  simp only [setNext, if_neg hp, ok_bind]
  have hnode : st.mem (lastAddr 0 L) = ⟨0, (st.mem (lastAddr 0 L)).size⟩ := by
    cases hm : st.mem (lastAddr 0 L) with
    | mk n sz =>
      rw [hm] at hnext
      simp only at hnext
      rw [hnext]
  have hsame : updNext st.mem (lastAddr 0 L) 0 = st.mem := by
    funext x
    unfold updNext
    split
    · next h => rw [h]; exact hnode.symm
    · rfl
  have hchk2 : check_heap fuel ⟨st.head, st.totalSize, st.totalFree, st.freeBlocks,
      updNext st.mem (lastAddr 0 L) 0,
      (((if align r > MEM_CHUNK then align r else MEM_CHUNK) + NSIZE) % WORD, 0) ::
        st.sysLog⟩ = .ok () := by
    unfold check_heap
    dsimp only
    rw [hsame]
    exact hchk
  rw [hchk2, ok_bind]
  unfold splitNode
  have hrl : readLink ⟨st.head, st.totalSize, st.totalFree, st.freeBlocks,
      updNext st.mem (lastAddr 0 L) 0,
      (((if align r > MEM_CHUNK then align r else MEM_CHUNK) + NSIZE) % WORD, 0) ::
        st.sysLog⟩ (lastAddr 0 L) = 0 := by
    unfold readLink
    rw [if_pos hp]
    dsimp only
    rw [updNext_same]
  simp only [hrl, getSize, if_true, error_bind]

theorem check_heap_empty (st : State) (fuel : Nat) (hh : st.head = 0) (hf : 0 < fuel) :
    check_heap fuel st = .ok () := by
  cases fuel with
  | zero => omega
  | succ f => simp [check_heap, check_heap_loop, hh]

/-- With an empty pool and a failing `malloc`, `getmem` returns `NULL` and
only the record of calls to `malloc` changes. -/
theorem getmem_empty_fail (st : State) (r fuel : Nat) (sys : Nat → Nat) (hh : st.head = 0)
    (hr0 : 0 < r) (hf : 0 < fuel)
    (hsys : sys (((if align r > MEM_CHUNK then align r else MEM_CHUNK) + NSIZE) % WORD) = 0) :
    getmem fuel sys r st = .ok (0, { st with
      sysLog := (((if align r > MEM_CHUNK then align r else MEM_CHUNK) + NSIZE) % WORD, 0) ::
        st.sysLog }) := by
  rw [getmem_empty fuel sys r st (check_heap_empty st fuel hh hf) hr0 hh, newNode_fail sys _ st hsys]
  simp only [if_true, hh]

/-- With an empty pool and a successful `malloc`, the new chunk is the whole
free list and the request is carved out of it. -/
theorem getmem_empty_ok (st : State) (r fuel c n : Nat) (sys : Nat → Nat) (hh : st.head = 0)
    (hr0 : 0 < r) (hf : 0 < fuel)
    (hn : n = if align r > MEM_CHUNK then align r else MEM_CHUNK)
    (hc : sys ((n + NSIZE) % WORD) = c) (hc0 : c ≠ 0) (hlim : c + NSIZE + n ≤ ADDR_LIMIT) :
    ∃ st2 g, granted (align r) [(c, n)] = some g ∧
      getmem fuel sys r st = .ok (g.1 + NSIZE, st2) ∧
      Repr st2.mem st2.head (carve (align r) [(c, n)]) ∧ (st2.mem g.1).size = g.2 ∧
      (∀ z, (z < c ∨ c + NSIZE + n ≤ z) → (st2.mem z).size = (st.mem z).size) ∧
      st2.totalFree = wsub ((st.totalFree + (n + NSIZE)) % WORD) (g.2 + NSIZE) ∧
      st2.freeBlocks = (if (carve (align r) [(c, n)]).length = 1 then (st.freeBlocks + 1) % WORD
        else wsub ((st.freeBlocks + 1) % WORD) 1) ∧
      st2.totalSize = (st.totalSize + (n + NSIZE)) % WORD ∧
      st2.sysLog = (n + NSIZE, c) :: st.sysLog := by
  have hW := WORD_eq
  have hm : (n + NSIZE) % WORD = n + NSIZE := by
    rw [ADDR_LIMIT_eq] at hlim
    exact Nat.mod_eq_of_lt (by simp only [NSIZE] at *; omega)
  have hc2 : sys ((n + NSIZE) % WORD) ≠ 0 := by rw [hc]; exact hc0
  rw [getmem_empty fuel sys r st (check_heap_empty st fuel hh (by omega)) hr0 hh, ← hn,
    newNode_ok sys n st hc2]
  have hc3 : sys (n + NSIZE) = c := by rw [← hm]; exact hc
  simp only [hm]
  simp only [hc3, if_neg hc0]
  have hfit : ∃ y ∈ [(c, n)], align r ≤ y.2 := by
    refine ⟨(c, n), by simp, ?_⟩
    show align r ≤ n
    rw [hn]; split <;> simp only [MEM_CHUNK] at * <;> omega
  obtain ⟨st2, g, a1, a2, a3, a4, a5, a6, a7, a8, a9⟩ :=
    getmem_select ⟨c, (st.totalSize + (n + NSIZE)) % WORD, (st.totalFree + (n + NSIZE)) % WORD,
      (st.freeBlocks + 1) % WORD, fun x => if x = c then ⟨0, n⟩ else st.mem x,
      (n + NSIZE, c) :: st.sysLog⟩ [(c, n)] (align r) fuel
      (fun q => (setNext (newNode sys n ⟨c, (st.totalSize + (n + NSIZE)) % WORD,
          (st.totalFree + (n + NSIZE)) % WORD,
          (st.freeBlocks + 1) % WORD, fun x => if x = c then ⟨0, n⟩ else st.mem x,
          (n + NSIZE, c) :: st.sysLog⟩).2 q.2
        (newNode sys n ⟨c, (st.totalSize + (n + NSIZE)) % WORD,
          (st.totalFree + (n + NSIZE)) % WORD,
          (st.freeBlocks + 1) % WORD, fun x => if x = c then ⟨0, n⟩ else st.mem x,
          (n + NSIZE, c) :: st.sysLog⟩).1
        >>= fun s => check_heap fuel s >>= fun _ => splitNode q.2 (align r) s))
      ⟨rfl, hc0, by simp, by simp [Repr]⟩ ⟨Nat.pos_of_ne_zero hc0, hlim, trivial⟩ hfit
      (by simp; omega)
  refine ⟨st2, g, a1, a2, a3, a4, ?_, a6, a7, a8, a9⟩
  intro z hz
  rw [a5 z (by intro y hy; simp at hy; subst hy; exact hz)]
  have : z ≠ c := by rcases hz with h | h <;> simp only [NSIZE] at * <;> omega
  simp [this]

theorem getmem_grow_eq (st : State) (L : List (Nat × Nat)) (r fuel c n : Nat) (sys : Nat → Nat)
    (hr : Repr st.mem st.head L) (hg : Gaps 0 L) (hms : MinSize L) (hr0 : 0 < r) (hL : L ≠ [])
    (hno : ∀ y ∈ L, y.2 < align r) (hf : L.length < fuel)
    (hn : n = if align r > MEM_CHUNK then align r else MEM_CHUNK)
    (hc : sys ((n + NSIZE) % WORD) = c) (hc0 : c ≠ 0) (hlim : c + NSIZE + n ≤ ADDR_LIMIT) :
    getmem fuel sys r st =
      (check_heap fuel ⟨st.head, (st.totalSize + (n + NSIZE)) % WORD,
          (st.totalFree + (n + NSIZE)) % WORD, (st.freeBlocks + 1) % WORD,
          updNext (fun x => if x = c then ⟨0, n⟩ else st.mem x) (lastAddr 0 L) c,
          (n + NSIZE, c) :: st.sysLog⟩ >>= fun _ =>
        splitNode (lastAddr 0 L) (align r) ⟨st.head, (st.totalSize + (n + NSIZE)) % WORD,
          (st.totalFree + (n + NSIZE)) % WORD, (st.freeBlocks + 1) % WORD,
          updNext (fun x => if x = c then ⟨0, n⟩ else st.mem x) (lastAddr 0 L) c,
          (n + NSIZE, c) :: st.sysLog⟩) := by
  have hW := WORD_eq
  have hm : (n + NSIZE) % WORD = n + NSIZE := by
    rw [ADDR_LIMIT_eq] at hlim
    exact Nat.mod_eq_of_lt (by simp only [NSIZE] at *; omega)
  have hc2 : sys ((n + NSIZE) % WORD) ≠ 0 := by rw [hc]; exact hc0
  have hc3 : sys (n + NSIZE) = c := by rw [← hm]; exact hc
  have hchk : check_heap fuel st = .ok () :=
    check_heap_loop_complete st.mem L 0 st.head fuel hr hg hms hf
  have hh : st.head ≠ 0 := by
    cases L with
    | nil => exact absurd rfl hL
    | cons b rest => rw [hr.1]; exact hr.2.1
  have hp := lastAddr_ne_zero L hL hg
  rw [getmem_nonempty fuel sys r st hchk hr0 hh,
    getmem_loop_none st.mem (align r) L 0 st.head fuel hr hno hf, ok_bind]
  simp only [Bool.false_eq_true, if_false]
  rw [← hn, newNode_ok sys n st hc2]
  simp only [hm]
  simp only [hc3, setNext, if_neg hp, ok_bind]

/-- A call of `getmem` that grows a non-empty pool: the new chunk is linked
behind the last node, `check_heap` accepts the list only if the chunk lies
above that node, and the request is then carved out of the extended list. -/
theorem getmem_grow (st : State) (L : List (Nat × Nat)) (r fuel c n : Nat) (sys : Nat → Nat)
    (hr : Repr st.mem st.head L) (hg : Gaps 0 L) (hms : MinSize L) (hr0 : 0 < r) (hL : L ≠ [])
    (hno : ∀ y ∈ L, y.2 < align r) (hf : L.length < fuel)
    (hn : n = if align r > MEM_CHUNK then align r else MEM_CHUNK)
    (hc : sys ((n + NSIZE) % WORD) = c) (hc0 : c ≠ 0) (hlim : c + NSIZE + n ≤ ADDR_LIMIT)
    (hfresh : ∀ y ∈ L, y.1 ≠ c) :
    (∀ p st3, getmem fuel sys r st = .ok (p, st3) →
      Gaps 0 (L ++ [(c, n)]) ∧ L.length + 1 < fuel) ∧
    (Gaps 0 (L ++ [(c, n)]) → L.length + 1 < fuel →
      ∃ st3 g, granted (align r) (L ++ [(c, n)]) = some g ∧
      getmem fuel sys r st = .ok (g.1 + NSIZE, st3) ∧
      Repr st3.mem st3.head (carve (align r) (L ++ [(c, n)])) ∧ (st3.mem g.1).size = g.2 ∧
      (∀ z, (∀ y ∈ L ++ [(c, n)], z < y.1 ∨ y.1 + NSIZE + y.2 ≤ z) →
        (st3.mem z).size = (st.mem z).size) ∧
      st3.totalFree = wsub ((st.totalFree + (n + NSIZE)) % WORD) (g.2 + NSIZE) ∧
      st3.freeBlocks = (if (carve (align r) (L ++ [(c, n)])).length = (L ++ [(c, n)]).length
        then (st.freeBlocks + 1) % WORD else wsub ((st.freeBlocks + 1) % WORD) 1) ∧
      st3.totalSize = (st.totalSize + (n + NSIZE)) % WORD ∧
      st3.sysLog = (n + NSIZE, c) :: st.sysLog) := by
  have heq := getmem_grow_eq st L r fuel c n sys hr hg hms hr0 hL hno (by omega) hn hc hc0 hlim
  have hp := lastAddr_ne_zero L hL hg
  obtain ⟨yl, hyl, hpl⟩ := lastAddr_mem L hL
  have hpc : lastAddr 0 L ≠ c := by rw [hpl]; exact hfresh yl hyl
  have hn16 : 16 ≤ n := by rw [hn]; split <;> simp only [MEM_CHUNK] at * <;> omega
  have hsn : align r ≤ n := by rw [hn]; split <;> simp only [MEM_CHUNK] at * <;> omega
  have hrepr1 : Repr (fun x => if x = c then ⟨0, n⟩ else st.mem x) st.head L := by
    apply repr_congr st.mem _ L _ _ hr
    intro y hy
    simp [hfresh y hy]
  have hrepr2 : Repr (updNext (fun x => if x = c then ⟨0, n⟩ else st.mem x) (lastAddr 0 L) c)
      st.head (L ++ [(c, n)]) := by
    have hw : writeLink ⟨st.head, (st.totalSize + (n + NSIZE)) % WORD,
        (st.totalFree + (n + NSIZE)) % WORD, (st.freeBlocks + 1) % WORD,
        (fun x => if x = c then ⟨0, n⟩ else st.mem x), (n + NSIZE, c) :: st.sysLog⟩
        (lastAddr 0 L) c = ⟨st.head, (st.totalSize + (n + NSIZE)) % WORD,
        (st.totalFree + (n + NSIZE)) % WORD, (st.freeBlocks + 1) % WORD,
        updNext (fun x => if x = c then ⟨0, n⟩ else st.mem x) (lastAddr 0 L) c,
        (n + NSIZE, c) :: st.sysLog⟩ := by
      unfold writeLink; rw [if_pos hp]
    have := repr_writeLink ⟨st.head, (st.totalSize + (n + NSIZE)) % WORD,
        (st.totalFree + (n + NSIZE)) % WORD, (st.freeBlocks + 1) % WORD,
        (fun x => if x = c then ⟨0, n⟩ else st.mem x), (n + NSIZE, c) :: st.sysLog⟩
        L [] [(c, n)] c (updNext (fun x => if x = c then ⟨0, n⟩ else st.mem x) (lastAddr 0 L) c)
        (by simpa using hrepr1) hg (by intro y _; rw [hw]) ?_
    · rw [hw] at this; exact this
    · refine ⟨rfl, hc0, ?_, ?_⟩
      · rw [updNext_size]; simp
      · show Repr _ (updNext _ (lastAddr 0 L) c c).next []
        rw [updNext_ne _ _ _ _ (Ne.symm hpc)]
        simp [Repr]
  have hb : ∀ y ∈ L ++ [(c, n)], y.1 + NSIZE + y.2 ≤ ADDR_LIMIT := by
    intro y hy
    rcases List.mem_append.1 hy with h | h
    · exact (gaps_mem _ _ hg y h).2
    · simp at h; subst h; exact hlim
  have hms2 : MinSize (L ++ [(c, n)]) := by
    intro y hy
    rcases List.mem_append.1 hy with h | h
    · exact hms y h
    · simp at h; subst h; exact hn16
  constructor
  · intro p st3 hok
    rw [heq] at hok
    cases hchk : check_heap fuel ⟨st.head, (st.totalSize + (n + NSIZE)) % WORD,
          (st.totalFree + (n + NSIZE)) % WORD, (st.freeBlocks + 1) % WORD,
          updNext (fun x => if x = c then ⟨0, n⟩ else st.mem x) (lastAddr 0 L) c,
          (n + NSIZE, c) :: st.sysLog⟩ with
    | error e => rw [hchk] at hok; cases hok
    | ok u =>
      refine ⟨(check_heap_loop_sound _ _ 0 _ fuel hrepr2 hb
        (fun h => Nat.pos_of_ne_zero h) hchk).1, ?_⟩
      have := check_heap_loop_fuel _ _ _ fuel hrepr2 hchk
      simpa using this
  · intro hg2 hf2
    have hchk : check_heap fuel ⟨st.head, (st.totalSize + (n + NSIZE)) % WORD,
          (st.totalFree + (n + NSIZE)) % WORD, (st.freeBlocks + 1) % WORD,
          updNext (fun x => if x = c then ⟨0, n⟩ else st.mem x) (lastAddr 0 L) c,
          (n + NSIZE, c) :: st.sysLog⟩ = .ok () :=
      check_heap_loop_complete _ _ 0 _ fuel hrepr2 hg2 hms2 (by simp; omega)
    rw [heq, hchk, ok_bind]
    have hfit : ∃ y ∈ L ++ [(c, n)], align r ≤ y.2 := ⟨(c, n), by simp, hsn⟩
    obtain ⟨st3, g, a1, a2, a3, a4, a5, a6, a7, a8, a9⟩ :=
      getmem_select ⟨st.head, (st.totalSize + (n + NSIZE)) % WORD,
          (st.totalFree + (n + NSIZE)) % WORD, (st.freeBlocks + 1) % WORD,
          updNext (fun x => if x = c then ⟨0, n⟩ else st.mem x) (lastAddr 0 L) c,
          (n + NSIZE, c) :: st.sysLog⟩ (L ++ [(c, n)]) (align r) fuel
        (fun _ => .error .outOfFuel) hrepr2 hg2 hfit (by simp; omega)
    have hloop := getmem_loop_found
      (updNext (fun x => if x = c then ⟨0, n⟩ else st.mem x) (lastAddr 0 L) c) (align r) (c, n) []
      L 0 st.head fuel hrepr2 hno hsn (by omega)
    rw [hloop, ok_bind] at a2
    simp only [if_true] at a2
    refine ⟨st3, g, a1, a2, a3, a4, ?_, a6, a7, a8, a9⟩
    intro z hz
    rw [a5 z hz, updNext_size]
    have : z ≠ c := by
      have := hz (c, n) (by simp)
      simp only [NSIZE] at this
      omega
    simp [this]

/-- The chunks of a record of fresh answers are pairwise disjoint and lie
below `ADDR_LIMIT`, so their sizes add up to at most `ADDR_LIMIT`. -/
theorem chunkSum_finset :
    ∀ (log : List (Nat × Nat)), LogOK log →
      ∃ U : Finset Nat, (∀ x, x ∈ U ↔ Covered log x) ∧ U.card = chunkSum log := by
  intro log
  induction log with
  | nil =>
    intro _
    refine ⟨∅, ?_, rfl⟩
    intro x
    simp [Covered]
  | cons e rest ih =>
    intro h
    obtain ⟨U, hU, hcard⟩ := ih h.2
    by_cases he : e.2 = 0
    · refine ⟨U, ?_, ?_⟩
      · intro x
        rw [hU x]
        constructor
        · rintro ⟨e2, h1, h2⟩
          exact ⟨e2, List.mem_cons_of_mem _ h1, h2⟩
        · rintro ⟨e2, h1, h2⟩
          rcases List.mem_cons.1 h1 with rfl | h1
          · exact absurd he h2.1
          · exact ⟨e2, h1, h2⟩
      · simp only [chunkSum, if_pos he, Nat.zero_add, hcard]
    · have hok : ChunkFit rest e.1 e.2 := by
        rcases h.1 with h1 | h1
        · exact absurd h1 he
        · exact h1
      have hdisj : Disjoint (Finset.Ico e.2 (e.2 + e.1)) U := by
        rw [Finset.disjoint_left]
        intro x hx hxU
        obtain ⟨e2, h1, h2, h3, h4⟩ := (hU x).1 hxU
        rw [Finset.mem_Ico] at hx
        rcases hok.2.2 e2 h1 h2 with h5 | h5 <;> omega
      refine ⟨Finset.Ico e.2 (e.2 + e.1) ∪ U, ?_, ?_⟩
      · intro x
        rw [Finset.mem_union, Finset.mem_Ico, hU x]
        constructor
        · rintro (hx | ⟨e2, h1, h2⟩)
          · exact ⟨e, List.mem_cons_self _ _, he, hx.1, hx.2⟩
          · exact ⟨e2, List.mem_cons_of_mem _ h1, h2⟩
        · rintro ⟨e2, h1, h2⟩
          rcases List.mem_cons.1 h1 with rfl | h1
          · exact Or.inl ⟨h2.2.1, h2.2.2⟩
          · exact Or.inr ⟨e2, h1, h2⟩
      · rw [Finset.card_union_of_disjoint hdisj, Nat.card_Ico, hcard]
        simp only [chunkSum, if_neg he]
        omega

theorem covered_lt : ∀ (log : List (Nat × Nat)), LogOK log → ∀ x, Covered log x → x < ADDR_LIMIT := by
  intro log
  induction log with
  | nil => intro _ x hx; obtain ⟨e, he, _⟩ := hx; cases he
  | cons e rest ih =>
    intro h x hx
    obtain ⟨e2, h1, h2, h3, h4⟩ := hx
    rcases List.mem_cons.1 h1 with rfl | h1
    · rcases h.1 with h5 | h5
      · exact absurd h5 h2
      · have := h5.2.1; omega
    · exact ih h.2 x ⟨e2, h1, h2, h3, h4⟩

theorem chunkSum_le (log : List (Nat × Nat)) (h : LogOK log) : chunkSum log ≤ ADDR_LIMIT := by
  obtain ⟨U, hU, hcard⟩ := chunkSum_finset log h
  have hsub : U ⊆ Finset.range ADDR_LIMIT := by
    intro x hx
    rw [Finset.mem_range]
    exact covered_lt log h x ((hU x).1 hx)
  have := Finset.card_le_card hsub
  rw [Finset.card_range, hcard] at this
  exact this

theorem spanSum_ge : ∀ (L : List (Nat × Nat)), MinSize L → 32 * L.length ≤ spanSum L := by
  intro L
  induction L with
  | nil => intro _; simp [spanSum]
  | cons b rest ih =>
    intro hm
    have := hm b (List.mem_cons_self _ _)
    have := ih (fun y hy => hm y (List.mem_cons_of_mem _ hy))
    simp only [spanSum, List.length_cons, NSIZE]
    omega

theorem pushMerge_closed (P : Nat × Nat → Prop)
    (hP : ∀ x y, P x → P y → x.1 + NSIZE + x.2 = y.1 → P (x.1, x.2 + NSIZE + y.2))
    (x : Nat × Nat) (post : List (Nat × Nat)) (hx : P x) (hpost : ∀ y ∈ post, P y) :
    ∀ z ∈ pushMerge x post, P z := by
  cases post with
  | nil => intro z hz; simp [pushMerge] at hz; subst hz; exact hx
  | cons d r =>
    by_cases h : x.1 + NSIZE + x.2 = d.1
    · rw [pushMerge_touch _ _ _ h]
      intro z hz
      rcases List.mem_cons.1 hz with rfl | hz
      · exact hP x d hx (hpost d (List.mem_cons_self _ _)) h
      · exact hpost z (List.mem_cons_of_mem _ hz)
    · rw [pushMerge_apart _ _ _ h]
      intro z hz
      rcases List.mem_cons.1 hz with rfl | hz
      · exact hx
      · exact hpost z hz

/-- A property of blocks that is kept when two touching blocks are merged
holds for every node of the list after a release. -/
theorem coalesce_closed (P : Nat × Nat → Prop)
    (hP : ∀ x y, P x → P y → x.1 + NSIZE + x.2 = y.1 → P (x.1, x.2 + NSIZE + y.2))
    (x : Nat × Nat) (hx : P x) :
    ∀ (L : List (Nat × Nat)), (∀ y ∈ L, P y) → ∀ z ∈ coalesce x L, P z := by
  intro L
  induction L with
  | nil => intro _ z hz; simp [coalesce] at hz; subst hz; exact hx
  | cons b rest ih =>
    intro hL
    have hb := hL b (List.mem_cons_self _ _)
    have hrest : ∀ y ∈ rest, P y := fun y hy => hL y (List.mem_cons_of_mem _ hy)
    rw [coalesce_cons]
    split
    · exact pushMerge_closed P hP x _ hx hL
    · split
      · next h => exact pushMerge_closed P hP _ _ (hP b x hb hx h) hrest
      · intro z hz
        rcases List.mem_cons.1 hz with rfl | hz
        · exact hb
        · exact ih hrest z hz

theorem inChunks_merge (log : List (Nat × Nat)) (x y : Nat × Nat) (hx : InChunks log x)
    (hy : InChunks log y) (h : x.1 + NSIZE + x.2 = y.1) :
    InChunks log (x.1, x.2 + NSIZE + y.2) := by
  intro z hz1 hz2
  by_cases hzy : z < y.1
  · exact hx z hz1 (by omega)
  · exact hy z (by omega) (by dsimp only at hz2; omega)

theorem apart_merge (b x y : Nat × Nat) (hx : Apart b x) (hy : Apart b y)
    (h : x.1 + NSIZE + x.2 = y.1) : Apart b (x.1, x.2 + NSIZE + y.2) := by
  unfold Apart at *
  dsimp only
  simp only [NSIZE] at *
  omega

theorem apart_symm (x y : Nat × Nat) (h : Apart x y) : Apart y x := by
  unfold Apart at *; omega

theorem liveSum_cons (st : State) (p : Nat) (live : List Nat) :
    liveSum st (p :: live) = NSIZE + (st.mem (p - NSIZE)).size + liveSum st live := by
  simp [liveSum]

theorem liveSum_erase (st : State) (p : Nat) (live : List Nat) (hp : p ∈ live) :
    liveSum st live = NSIZE + (st.mem (p - NSIZE)).size + liveSum st (live.erase p) := by
  unfold liveSum
  rw [← List.sum_map_erase (fun p => NSIZE + (st.mem (p - NSIZE)).size) hp]

theorem liveSum_congr (st st2 : State) (live : List Nat)
    (h : ∀ p ∈ live, (st2.mem (p - NSIZE)).size = (st.mem (p - NSIZE)).size) :
    liveSum st2 live = liveSum st live := by
  unfold liveSum
  congr 1
  apply List.map_congr_left
  intro p hp
  rw [h p hp]

theorem apart_irrefl (x : Nat × Nat) : ¬ Apart x x := by
  unfold Apart; simp only [NSIZE]; omega

theorem apart_ne (x y : Nat × Nat) (h : Apart x y) : x.1 ≠ y.1 := by
  unfold Apart at h; simp only [NSIZE] at h; omega

theorem blk_fst (st : State) (p : Nat) : (blk st p).1 = p - NSIZE := rfl

theorem blk_snd (st : State) (p : Nat) : (blk st p).2 = (st.mem (p - NSIZE)).size := rfl

theorem blk_congr (st st2 : State) (p : Nat) (h : (st2.mem (p - NSIZE)).size = (st.mem (p - NSIZE)).size) :
    blk st2 p = blk st p := by
  unfold blk; rw [h]

/-- The state after a release keeps the facts of `Abs`. -/
theorem abs_release (st st2 : State) (live : List Nat) (L : List (Nat × Nat)) (p : Nat)
    (hA : Abs st live L) (hp : p ∈ live)
    (hframe : ∀ z, z ≠ p - NSIZE → (∀ y ∈ L, z ≠ y.1) → st2.mem z = st.mem z)
    (htf : st2.totalFree = wadd st.totalFree ((st.mem (p - NSIZE)).size + NSIZE))
    (hfb : st2.freeBlocks = (st.freeBlocks + 1 +
      (L.length + 1 - (coalesce (blk st p) L).length) * (WORD - 1)) % WORD)
    (hts : st2.totalSize = st.totalSize) (hlog : st2.sysLog = st.sysLog)
    (hms : MinSize (coalesce (blk st p) L)) :
    Abs st2 (live.erase p) (coalesce (blk st p) L) := by
  have hW := WORD_eq
  have hLim := ADDR_LIMIT_eq
  have hsym : Symmetric (fun p q => Apart (blk st p) (blk st q)) :=
    fun _ _ h => apart_symm _ _ h
  have hnodup : live.Nodup := hA.liveApart.imp (fun {a b} h hab => by
    subst hab; exact apart_irrefl _ h)
  have hmem : ∀ q, q ∈ live.erase p → q ≠ p ∧ q ∈ live := fun q hq =>
    (hnodup.mem_erase_iff).1 hq
  have hppos := hA.livePos p hp
  have hplim := hA.liveLim p hp
  have hsize : ∀ q ∈ live.erase p, (st2.mem (q - NSIZE)).size = (st.mem (q - NSIZE)).size := by
    intro q hq
    obtain ⟨hne, hql⟩ := hmem q hq
    have h1 : Apart (blk st q) (blk st p) := hA.liveApart.forall hsym hql hp hne
    rw [hframe (q - NSIZE) (apart_ne _ _ h1)
      (fun y hy => apart_ne _ _ (hA.freeApart q hql y hy))]
  have hblk : ∀ q ∈ live.erase p, blk st2 q = blk st q :=
    fun q hq => blk_congr st st2 q (hsize q hq)
  have hpa : 0 < (blk st p).1 := by rw [blk_fst]; simp only [NSIZE] at *; omega
  have hplim2 : (blk st p).1 + NSIZE + (blk st p).2 ≤ ADDR_LIMIT := by
    rw [blk_fst]; simp only [NSIZE] at *; omega
  have hsum := liveSum_erase st p live hp
  have hsum2 := liveSum_congr st st2 (live.erase p) hsize
  have htsb : st.totalSize ≤ ADDR_LIMIT := by rw [hA.tsLog]; exact chunkSum_le _ hA.logOK
  have hlen := coalesce_length (blk st p) L
  have hspan := spanSum_coalesce (blk st p) L
  have hge := spanSum_ge L hA.minSize
  have htsL := hA.ts
  have htfL := hA.tf
  have hfbL := hA.fb
  rw [blk_snd] at hspan
  refine ⟨gaps_coalesce _ L 0 hA.gaps hpa hplim2 (hA.freeApart p hp), hms, ?_, ?_, ?_, ?_, ?_, ?_,
    ?_, ?_, ?_, ?_, ?_⟩
  · exact fun q hq => hA.livePos q (hmem q hq).2
  · intro q hq; rw [hblk q hq]; exact hA.liveLim q (hmem q hq).2
  · have := List.Pairwise.sublist (List.erase_sublist p live) hA.liveApart
    refine this.imp_of_mem ?_
    intro q1 q2 h1 h2 h
    rw [hblk q1 h1, hblk q2 h2]; exact h
  · intro q hq
    rw [hblk q hq]
    obtain ⟨hne, hql⟩ := hmem q hq
    exact coalesce_closed (Apart (blk st q)) (fun x y => apart_merge _ x y) (blk st p)
      (hA.liveApart.forall hsym hql hp hne) L (hA.freeApart q hql)
  · rw [hlog]
    exact coalesce_closed (InChunks st.sysLog) (fun x y => inChunks_merge _ x y) (blk st p)
      (hA.covLive p hp) L hA.covFree
  · intro q hq; rw [hblk q hq, hlog]; exact hA.covLive q (hmem q hq).2
  · rw [hlog]; exact hA.logOK
  · rw [hfb, hfbL]
    rcases Nat.lt_or_ge (coalesce (blk st p) L).length (L.length + 1) with h1 | h1
    · rcases Nat.lt_or_ge (coalesce (blk st p) L).length L.length with h2 | h2
      · have hk : L.length + 1 - (coalesce (blk st p) L).length = 2 := by omega
        rw [hk, hW]; omega
      · have hk : L.length + 1 - (coalesce (blk st p) L).length = 1 := by omega
        rw [hk, hW]; omega
    · have hk : L.length + 1 - (coalesce (blk st p) L).length = 0 := by omega
      rw [hk, hW]; omega
  · rw [htf, wadd_eq _ _ (by simp only [NSIZE] at *; omega), htfL, hspan]
  · rw [hts, htsL, hsum2, hspan, hsum]; omega
  · rw [hts, hlog]; exact hA.tsLog

theorem carve_length (s : Nat) :
    ∀ (L : List (Nat × Nat)) (g : Nat × Nat), granted s L = some g →
      (carve s L).length = L.length ∨ (carve s L).length + 1 = L.length := by
  intro L
  induction L with
  | nil => intro g h; cases h
  | cons b rest ih =>
    intro g hgr
    simp only [granted] at hgr
    simp only [carve]
    split at hgr
    · next hb =>
      rw [if_pos hb]
      split
      · left; rfl
      · right; rfl
    · next hb =>
      rw [if_neg hb]
      rcases ih g hgr with h | h
      · left; simp [h]
      · right; simp only [List.length_cons]; omega

theorem apart_sub (b y z : Nat × Nat) (h : Apart b y) (h1 : y.1 ≤ z.1)
    (h2 : z.1 + NSIZE + z.2 ≤ y.1 + NSIZE + y.2) : Apart b z := by
  unfold Apart at *; omega

theorem inChunks_sub (log : List (Nat × Nat)) (y z : Nat × Nat) (h : InChunks log y)
    (h1 : y.1 ≤ z.1) (h2 : z.1 + NSIZE + z.2 ≤ y.1 + NSIZE + y.2) : InChunks log z := by
  intro x hx1 hx2
  exact h x (by omega) (by omega)

/-- The state after a request was carved out of the free list keeps the facts
of `Abs`. -/
theorem abs_carve (st st2 : State) (live : List Nat) (L : List (Nat × Nat)) (s : Nat)
    (g : Nat × Nat) (hA : Abs st live L) (hgr : granted s L = some g)
    (hsz : (st2.mem g.1).size = g.2)
    (hframe : ∀ z, (∀ y ∈ L, z < y.1 ∨ y.1 + NSIZE + y.2 ≤ z) →
      (st2.mem z).size = (st.mem z).size)
    (htf : st2.totalFree = wsub st.totalFree (g.2 + NSIZE))
    (hfb : st2.freeBlocks = if (carve s L).length = L.length then st.freeBlocks
      else wsub st.freeBlocks 1)
    (hts : st2.totalSize = st.totalSize) (hlog : st2.sysLog = st.sysLog) :
    Abs st2 ((g.1 + NSIZE) :: live) (carve s L) := by
  have hW := WORD_eq
  have hLim := ADDR_LIMIT_eq
  obtain ⟨y, hy, hy1, hy2, _, _⟩ := granted_mem s L g hgr
  have hyg := gaps_mem _ _ hA.gaps y hy
  have hsize : ∀ q ∈ live, (st2.mem (q - NSIZE)).size = (st.mem (q - NSIZE)).size := by
    intro q hq
    apply hframe
    intro z hz
    have := hA.freeApart q hq z hz
    unfold Apart at this
    rw [blk_fst] at this
    simp only [NSIZE] at *
    omega
  have hblk : ∀ q ∈ live, blk st2 q = blk st q := fun q hq => blk_congr st st2 q (hsize q hq)
  have hblkg : blk st2 (g.1 + NSIZE) = g := by
    unfold blk
    rw [Nat.add_sub_cancel, hsz]
  have htsb : st.totalSize ≤ ADDR_LIMIT := by rw [hA.tsLog]; exact chunkSum_le _ hA.logOK
  have hspan := spanSum_carve s L g hgr
  have hlen := carve_length s L g hgr
  have hsum := liveSum_congr st st2 live hsize
  have htsL := hA.ts
  have htfL := hA.tf
  have hfbL := hA.fb
  have hgy : y.1 ≤ g.1 ∧ g.1 + NSIZE + g.2 ≤ y.1 + NSIZE + y.2 := by omega
  refine ⟨gaps_carve s L 0 hA.gaps, minSize_carve s L hA.minSize, ?_, ?_, ?_, ?_, ?_, ?_,
    ?_, ?_, ?_, ?_, ?_⟩
  · intro q hq
    rcases List.mem_cons.1 hq with rfl | hq
    · omega
    · exact hA.livePos q hq
  · intro q hq
    rcases List.mem_cons.1 hq with rfl | hq
    · rw [hblkg]; omega
    · rw [hblk q hq]; exact hA.liveLim q hq
  · rw [List.pairwise_cons]
    constructor
    · intro q hq
      rw [hblkg, hblk q hq]
      exact apart_symm _ _ (apart_sub _ y g (hA.freeApart q hq y hy) hgy.1 hgy.2)
    · refine hA.liveApart.imp_of_mem ?_
      intro q1 q2 h1 h2 h
      rw [hblk q1 h1, hblk q2 h2]; exact h
  · intro q hq z hz
    rcases List.mem_cons.1 hq with rfl | hq
    · rw [hblkg]; exact granted_apart s L 0 g hA.gaps hgr z hz
    · rw [hblk q hq]
      obtain ⟨y2, hy2m, h1, h2⟩ := carve_mem s L z hz
      exact apart_sub _ y2 z (hA.freeApart q hq y2 hy2m) h1 (by omega)
  · intro z hz
    rw [hlog]
    obtain ⟨y2, hy2m, h1, h2⟩ := carve_mem s L z hz
    exact inChunks_sub _ y2 z (hA.covFree y2 hy2m) h1 (by omega)
  · intro q hq
    rw [hlog]
    rcases List.mem_cons.1 hq with rfl | hq
    · rw [hblkg]; exact inChunks_sub _ y g (hA.covFree y hy) hgy.1 hgy.2
    · rw [hblk q hq]; exact hA.covLive q hq
  · rw [hlog]; exact hA.logOK
  · rw [hfb]
    rcases hlen with h | h
    · rw [if_pos h, hfbL, h]
    · rw [if_neg (by omega), hfbL, wsub_eq _ _ (by omega) (by
        have := spanSum_ge L hA.minSize; omega)]
      omega
  · rw [htf, wsub_eq _ _ (by omega) (by omega)]; omega
  · rw [hts, htsL, liveSum_cons, Nat.add_sub_cancel, hsz, hsum]; omega
  · rw [hts, hlog]; exact hA.tsLog

theorem covered_mono (log : List (Nat × Nat)) (e : Nat × Nat) (x : Nat) (h : Covered log x) :
    Covered (e :: log) x := by
  obtain ⟨e2, h1, h2⟩ := h
  exact ⟨e2, List.mem_cons_of_mem _ h1, h2⟩

/-- A block inside old chunks does not overlap a fresh chunk. -/
theorem apart_fresh (log : List (Nat × Nat)) (b : Nat × Nat) (m c : Nat)
    (hb : InChunks log b) (hok : ChunkFit log m c) :
    b.1 + NSIZE + b.2 ≤ c ∨ c + m ≤ b.1 := by
  by_contra hcon
  have h1 : c < b.1 + NSIZE + b.2 := by omega
  have h2 : b.1 < c + m := by omega
  obtain ⟨e, he, he0, he1, he2⟩ := hb (max b.1 c) (le_max_left _ _) (by
    rcases le_total b.1 c with h | h
    · rw [max_eq_right h]; exact h1
    · rw [max_eq_left h]; simp only [NSIZE]; omega)
  have hx1 : c ≤ max b.1 c := le_max_right _ _
  have hx2 : max b.1 c < c + m := by
    rcases le_total b.1 c with h | h
    · rw [max_eq_right h]; have := hok.1; simp only [NSIZE] at this; omega
    · rw [max_eq_left h]; exact h2
  rcases hok.2.2 e he he0 with h | h <;> omega

theorem spanSum_append_single (L : List (Nat × Nat)) (x : Nat × Nat) :
    spanSum (L ++ [x]) = spanSum L + (x.2 + NSIZE) := by
  induction L with
  | nil => simp [spanSum]
  | cons b rest ih =>
    show spanSum (b :: (rest ++ [x])) = _
    simp only [spanSum, ih]; omega

/-- Adding a fresh chunk behind the free list keeps the facts of `Abs`. -/
theorem abs_grow (st : State) (live : List Nat) (L : List (Nat × Nat)) (c n : Nat)
    (hA : Abs st live L) (hok : ChunkFit st.sysLog (n + NSIZE) c) (hc0 : c ≠ 0)
    (hg : Gaps 0 (L ++ [(c, n)])) (hn : 16 ≤ n) :
    Abs ⟨st.head, (st.totalSize + (n + NSIZE)) % WORD, (st.totalFree + (n + NSIZE)) % WORD,
      (st.freeBlocks + 1) % WORD, st.mem, (n + NSIZE, c) :: st.sysLog⟩ live (L ++ [(c, n)]) := by
  have hW := WORD_eq
  have hLim := ADDR_LIMIT_eq
  have hlog2 : LogOK ((n + NSIZE, c) :: st.sysLog) := ⟨Or.inr hok, hA.logOK⟩
  have hsum2 := chunkSum_le _ hlog2
  have hcs : chunkSum ((n + NSIZE, c) :: st.sysLog) = (n + NSIZE) + chunkSum st.sysLog := by
    simp only [chunkSum, if_neg hc0]
  rw [hcs] at hsum2
  have htsL := hA.ts
  have htfL := hA.tf
  have hfbL := hA.fb
  have htsLog := hA.tsLog
  have hge := spanSum_ge L hA.minSize
  have hspan := spanSum_append_single L (c, n)
  refine ⟨hg, ?_, hA.livePos, hA.liveLim, hA.liveApart, ?_, ?_, ?_, hlog2, ?_, ?_, ?_, ?_⟩
  · intro y hy
    rcases List.mem_append.1 hy with h | h
    · exact hA.minSize y h
    · simp at h; subst h; exact hn
  · intro q hq y hy
    rcases List.mem_append.1 hy with h | h
    · exact hA.freeApart q hq y h
    · simp at h; subst h
      have := apart_fresh st.sysLog (blk st q) (n + NSIZE) c (hA.covLive q hq) hok
      unfold Apart
      show (blk st q).1 + NSIZE + (blk st q).2 ≤ c ∨ c + NSIZE + n ≤ (blk st q).1
      omega
  · intro y hy
    rcases List.mem_append.1 hy with h | h
    · intro x hx1 hx2
      exact covered_mono _ _ x (hA.covFree y h x hx1 hx2)
    · simp at h; subst h
      intro x hx1 hx2
      exact ⟨(n + NSIZE, c), List.mem_cons_self _ _, hc0, hx1, by dsimp only at *; omega⟩
  · intro q hq x hx1 hx2
    exact covered_mono _ _ x (hA.covLive q hq x hx1 hx2)
  · show (st.freeBlocks + 1) % WORD = (L ++ [(c, n)]).length
    rw [hfbL, List.length_append, List.length_singleton]
    exact Nat.mod_eq_of_lt (by omega)
  · show (st.totalFree + (n + NSIZE)) % WORD = spanSum (L ++ [(c, n)])
    rw [hspan, htfL]
    exact Nat.mod_eq_of_lt (by omega)
  · show (st.totalSize + (n + NSIZE)) % WORD = spanSum (L ++ [(c, n)]) + liveSum st live
    rw [hspan, Nat.mod_eq_of_lt (by omega), htsL]
    show _ = spanSum L + (n + NSIZE) + liveSum st live
    omega
  · show (st.totalSize + (n + NSIZE)) % WORD = chunkSum ((n + NSIZE, c) :: st.sysLog)
    rw [hcs, Nat.mod_eq_of_lt (by omega)]
    omega

theorem align_lt (r : Nat) (h : r < WORD) : align r < WORD := by
  have hW := WORD_eq
  unfold align
  split
  · simp only [BYTE_ALIGN]; omega
  · split
    · exact Nat.mod_lt _ (by omega)
    · exact h

theorem getmem_ok_check (fuel : Nat) (sys : Nat → Nat) (r : Nat) (st : State) (p : Nat)
    (st2 : State) (h : getmem fuel sys r st = .ok (p, st2)) : check_heap fuel st = .ok () := by
  unfold getmem at h
  cases hc : check_heap fuel st with
  | error e => rw [hc] at h; cases h
  | ok u => rfl

theorem freemem_ok_check (fuel p : Nat) (st st2 : State) (hp : p ≠ 0)
    (h : freemem fuel p st = .ok st2) : check_heap fuel st = .ok () := by
  unfold freemem at h
  rw [if_neg hp] at h
  cases hc : check_heap fuel st with
  | error e => rw [hc] at h; cases h
  | ok u => rfl

/-- A failed call of `malloc` only extends the record of calls. -/
theorem abs_log_fail (st : State) (live : List Nat) (L : List (Nat × Nat)) (m : Nat)
    (hA : Abs st live L) : Abs { st with sysLog := (m, 0) :: st.sysLog } live L := by
  refine ⟨hA.gaps, hA.minSize, hA.livePos, hA.liveLim, hA.liveApart, hA.freeApart, ?_, ?_, ?_,
    hA.fb, hA.tf, hA.ts, ?_⟩
  · intro y hy x hx1 hx2
    exact covered_mono _ _ x (hA.covFree y hy x hx1 hx2)
  · intro q hq x hx1 hx2
    exact covered_mono _ _ x (hA.covLive q hq x hx1 hx2)
  · exact ⟨Or.inl rfl, hA.logOK⟩
  · show st.totalSize = chunkSum ((m, 0) :: st.sysLog)
    simp only [chunkSum, if_true, Nat.zero_add]
    exact hA.tsLog

theorem abs_init : Abs State.init [] [] := by
  refine ⟨trivial, ?_, ?_, ?_, List.Pairwise.nil, ?_, ?_, ?_, trivial, rfl, rfl, rfl, rfl⟩
  all_goals intro y hy; cases hy




theorem inv_release (st st2 : State) (live : List Nat) (L : List (Nat × Nat)) (fuel p : Nat)
    (hr : Repr st.mem st.head L) (hA : Abs st live L) (hp : p ∈ live)
    (hfree : freemem fuel p st = .ok st2) :
    Repr st2.mem st2.head (coalesce (blk st p) L) ∧ Abs st2 (live.erase p) (coalesce (blk st p) L) := by
  have hLim := ADDR_LIMIT_eq
  have hppos := hA.livePos p hp
  have hplim := hA.liveLim p hp
  have hpe : p - NSIZE + NSIZE = p := Nat.sub_add_cancel (by omega)
  have hchk := freemem_ok_check fuel p st st2 (by omega) hfree
  have hfuel := check_heap_loop_fuel st.mem L st.head fuel hr hchk
  rw [blk_snd] at hplim
  obtain ⟨st3, e1, e2, e3, e4, e5, e6, _, e8⟩ :=
    freemem_run st L (p - NSIZE) (st.mem (p - NSIZE)).size fuel hr hA.gaps hA.minSize
      (by simp only [NSIZE] at *; omega) rfl (by simp only [NSIZE] at *; omega)
      (hA.freeApart p hp) hfuel
  rw [hpe] at e8
  obtain ⟨h1, h2⟩ := e8 st2 hfree
  subst h1
  exact ⟨e1, abs_release st st2 live L p hA hp e2 e3 e4 e5 e6 h2⟩

theorem inv_acquire (st st2 : State) (live : List Nat) (L : List (Nat × Nat)) (fuel r p : Nat)
    (sys : Nat → Nat) (hr : Repr st.mem st.head L) (hA : Abs st live L) (hrw : r < WORD)
    (hnw : align r + NSIZE < WORD)
    (hsys : SysOK st.sysLog sys) (hget : getmem fuel sys r st = .ok (p, st2)) :
    ∃ L2, Repr st2.mem st2.head L2 ∧ Abs st2 (if p = 0 then live else p :: live) L2 := by
  have hW := WORD_eq
  have hLim := ADDR_LIMIT_eq
  have hchk := getmem_ok_check fuel sys r st p st2 hget
  have hfuel := check_heap_loop_fuel st.mem L st.head fuel hr hchk
  rcases Nat.eq_zero_or_pos r with h0 | hr0
  · subst h0
    rw [getmem_zero fuel sys st hchk] at hget
    have := Except.ok.inj hget
    have hp : p = 0 := (congrArg Prod.fst this).symm
    have hs : st2 = st := (congrArg Prod.snd this).symm
    subst hp; subst hs
    exact ⟨L, hr, by simpa using hA⟩
  · by_cases hfit : ∃ y ∈ L, align r ≤ y.2
    · obtain ⟨st3, g, a1, a2, a3, a4, a5, a6, a7, a8, a9⟩ :=
        getmem_fit st L r fuel sys hr hA.gaps hA.minSize hr0 hfit hfuel
      rw [a2] at hget
      have := Except.ok.inj hget
      have hp : p = g.1 + NSIZE := (congrArg Prod.fst this).symm
      have hs : st2 = st3 := (congrArg Prod.snd this).symm
      subst hp; subst hs
      rw [if_neg (by simp only [NSIZE]; omega)]
      exact ⟨_, a3, abs_carve st st2 live L (align r) g hA a1 a4 a5 a6 a7 a8 a9⟩
    · have hno : ∀ y ∈ L, y.2 < align r := by
        intro y hy
        by_contra hcon
        exact hfit ⟨y, hy, by omega⟩
      have hal := align_lt r hrw
      generalize hn : (if align r > MEM_CHUNK then align r else MEM_CHUNK) = n at *
      have hnW : n < WORD := by rw [← hn]; split <;> simp only [MEM_CHUNK] at * <;> omega
      have hn16 : 16 ≤ n := by rw [← hn]; split <;> simp only [MEM_CHUNK] at * <;> omega
      rcases Nat.eq_zero_or_pos (sys ((n + NSIZE) % WORD)) with hc | hc
      · cases L with
        | nil =>
          have hh : st.head = 0 := hr
          rw [getmem_empty_fail st r fuel sys hh hr0 (by omega) (by rw [hn]; exact hc)] at hget
          have := Except.ok.inj hget
          have hp : p = 0 := (congrArg Prod.fst this).symm
          have hs : st2 = _ := (congrArg Prod.snd this).symm
          subst hp
          subst hs
          exact ⟨[], hr, by simpa using abs_log_fail st live [] _ hA⟩
        | cons b rest =>
          rw [getmem_grow_fail st (b :: rest) r fuel sys hr hA.gaps hA.minSize hr0 (by simp) hno
            hfuel (by rw [hn]; exact hc)] at hget
          cases hget
      · have hok0 : ChunkOK st.sysLog ((n + NSIZE) % WORD) (sys ((n + NSIZE) % WORD)) := by
          rcases hsys ((n + NSIZE) % WORD) with h | h
          · omega
          · exact h
        have hm : (n + NSIZE) % WORD = n + NSIZE :=
          Nat.mod_eq_of_lt (by rw [← hn]; split <;> simp only [MEM_CHUNK, NSIZE] at * <;> omega)
        have hok : ChunkFit st.sysLog ((n + NSIZE) % WORD) (sys ((n + NSIZE) % WORD)) :=
          ⟨by rw [hm]; simp only [NSIZE]; omega, hok0.1, hok0.2⟩
        generalize hcdef : sys ((n + NSIZE) % WORD) = c at *
        rw [hm] at hok
        have hc0 : c ≠ 0 := by omega
        have hlim : c + NSIZE + n ≤ ADDR_LIMIT := by have := hok.2.1; omega
        cases L with
        | nil =>
          have hh : st.head = 0 := hr
          obtain ⟨st3, g, a1, a2, a3, a4, a5, a6, a7, a8, a9⟩ :=
            getmem_empty_ok st r fuel c n sys hh hr0 (by omega) hn.symm hcdef hc0 hlim
          rw [a2] at hget
          have := Except.ok.inj hget
          have hp : p = g.1 + NSIZE := (congrArg Prod.fst this).symm
          have hs : st2 = st3 := (congrArg Prod.snd this).symm
          subst hp; subst hs
          rw [if_neg (by simp only [NSIZE]; omega)]
          have hv := abs_grow st live [] c n hA hok hc0
            ⟨Nat.pos_of_ne_zero hc0, hlim, trivial⟩ hn16
          refine ⟨_, a3, abs_carve _ st2 live [(c, n)] (align r) g hv a1 a4 ?_ a6 a7 a8 a9⟩
          intro z hz
          apply a5 z
          have := hz (c, n) (by simp)
          exact this
        | cons b rest =>
          have hfresh : ∀ y ∈ b :: rest, y.1 ≠ c := by
            intro y hy
            have := apart_fresh st.sysLog y (n + NSIZE) c (hA.covFree y hy) hok
            simp only [NSIZE] at *
            omega
          obtain ⟨hA1, hB1⟩ := getmem_grow st (b :: rest) r fuel c n sys hr hA.gaps hA.minSize
            hr0 (by simp) hno hfuel hn.symm hcdef hc0 hlim hfresh
          obtain ⟨hg2, hf2⟩ := hA1 p st2 hget
          obtain ⟨st3, g, a1, a2, a3, a4, a5, a6, a7, a8, a9⟩ := hB1 hg2 hf2
          rw [a2] at hget
          have := Except.ok.inj hget
          have hp : p = g.1 + NSIZE := (congrArg Prod.fst this).symm
          have hs : st2 = st3 := (congrArg Prod.snd this).symm
          subst hp; subst hs
          rw [if_neg (by simp only [NSIZE]; omega)]
          have hv := abs_grow st live (b :: rest) c n hA hok hc0 hg2 hn16
          exact ⟨_, a3, abs_carve _ st2 live _ (align r) g hv a1 a4 a5 a6 a7 a8 a9⟩

/-- Every state reached without wrap-around of the chunk size has a
well-formed free list and consistent counters. -/
theorem reach_inv (st : State) (live : List Nat) (h : ReachSafe st live) :
    ∃ L, Repr st.mem st.head L ∧ Abs st live L := by
  induction h with
  | init => exact ⟨[], rfl, abs_init⟩
  | acquire st live fuel sys r p st2 _ hrw hnw hsys hget ih =>
    obtain ⟨L, hr, hA⟩ := ih
    exact inv_acquire st st2 live L fuel r p sys hr hA hrw hnw hsys hget
  | release st live fuel p st2 _ hp hfree ih =>
    obtain ⟨L, hr, hA⟩ := ih
    exact ⟨_, inv_release st st2 live L fuel p hr hA hp hfree⟩
  | releaseNull st live fuel st2 _ hfree ih =>
    rw [freemem_null] at hfree
    have := Except.ok.inj hfree
    subst this
    exact ih

/-- The runs of `ReachSafe` are runs of `Reach`. -/
theorem reachSafe_reach (st : State) (live : List Nat) (h : ReachSafe st live) :
    Reach st live := by
  induction h with
  | init => exact Reach.init
  | acquire st live fuel sys r p st2 _ hrw _ hsys hget ih =>
    exact Reach.acquire st live fuel sys r p st2 ih hrw hsys hget
  | release st live fuel p st2 _ hp hfree ih =>
    exact Reach.release st live fuel p st2 ih hp hfree
  | releaseNull st live fuel st2 _ hfree ih =>
    exact Reach.releaseNull st live fuel st2 ih hfree

theorem sysOK_fail (log : List (Nat × Nat)) : SysOK log sysFail := fun _ => Or.inl rfl

theorem sysOK_at (log : List (Nat × Nat)) (n a : Nat) (h : ChunkOK log n a) :
    SysOK log (sysAt n a) := by
  intro m
  unfold sysAt
  by_cases hm : m = n
  · subst hm
    right
    simpa using h
  · left
    simp [hm]

theorem reach_afterOne : Reach afterOne [4112] :=
  Reach.acquire State.init [] 8 (sysAt 8016 4096) 100 4112 afterOne Reach.init (by decide)
    (sysOK_at [] 8016 4096 ⟨by decide, by intro e he; cases he⟩) rfl

theorem reachSafe_afterOne : ReachSafe afterOne [4112] :=
  ReachSafe.acquire State.init [] 8 (sysAt 8016 4096) 100 4112 afterOne ReachSafe.init
    (by decide) (by decide) (sysOK_at [] 8016 4096 ⟨by decide, by intro e he; cases he⟩) rfl

/-- C1: a chunk that `malloc` hands out below the free list is appended at the
tail of the list, and the `check_heap` call that follows aborts.  After
`getmem(100)` with the first chunk at 20000, a call `getmem(8000)` that is
given the disjoint chunk at 4096 fails the assertion. -/
theorem c1_lower_chunk_aborts :
    ∃ st, getmem 8 (sysAt 8016 20000) 100 State.init = .ok (20016, st) ∧
      Reach st [20016] ∧ SysOK st.sysLog (sysAt 8016 4096) ∧
      getmem 8 (sysAt 8016 4096) 8000 st = .error .assertFailed := by
  refine ⟨stateOf (getmem 8 (sysAt 8016 20000) 100 State.init), rfl, ?_, ?_, rfl⟩
  · exact Reach.acquire State.init [] 8 (sysAt 8016 20000) 100 20016 _ Reach.init (by decide)
      (sysOK_at [] 8016 20000 ⟨by decide, by intro e he; cases he⟩) rfl
  · apply sysOK_at
    refine ⟨by decide, ?_⟩
    intro e he _
    have he2 : e = (8016, 20000) := by
      have : e ∈ [((8016 : Nat), (20000 : Nat))] := he
      simpa using this
    subst he2
    left
    decide

/-- In every state reached without wrap-around of the chunk size,
`totalSize` is `totalFree` plus the sum, over the allocated blocks, of the
header size and the size recorded in the block's header. -/
theorem safe_total_size_balance (st : State) (live : List Nat) (h : ReachSafe st live) :
    st.totalSize = st.totalFree + liveSum st live := by
  obtain ⟨L, _, hA⟩ := reach_inv st live h
  rw [hA.ts, hA.tf]

theorem safe_total_size_balance_witness :
    ReachSafe afterOne [4112] ∧
      afterOne.totalSize = afterOne.totalFree + liveSum afterOne [4112] :=
  ⟨reachSafe_afterOne, safe_total_size_balance afterOne [4112] reachSafe_afterOne⟩

/-- C2: for the request `2^64 - 16` the byte count `size + sizeof(FreeNode)`
of `newNode` wraps around to 0.  With `malloc(0)` answering the non-null
pointer 4096, `getmem` on the empty allocator returns 4112, a block whose
header records size `2^64 - 16`, while `totalSize` and `totalFree` stay 0:
`totalSize` is not `totalFree` plus the allocated bytes. -/
theorem c2_chunk_size_wrap_breaks_balance :
    ∃ st, getmem 8 (sysAt 0 4096) (2 ^ 64 - 16) State.init = .ok (4112, st) ∧
      Reach st [4112] ∧ st.totalSize = 0 ∧ st.totalFree = 0 ∧
      liveSum st [4112] = 2 ^ 64 ∧ st.totalSize ≠ st.totalFree + liveSum st [4112] := by
  refine ⟨stateOf (getmem 8 (sysAt 0 4096) (2 ^ 64 - 16) State.init), ?_, ?_, ?_, ?_, ?_, ?_⟩
  · rfl
  · exact Reach.acquire State.init [] 8 (sysAt 0 4096) (2 ^ 64 - 16) 4112 _ Reach.init
      (by decide) (sysOK_at [] 0 4096 ⟨by decide, by intro e he; cases he⟩) (by rfl)
  · decide
  · decide
  · decide
  · decide

/-- In every state reached without wrap-around of the chunk size there is a
list of nodes that is the free list, satisfies the ordering, gap and
minimum-size conditions, has `freeBlocks` nodes, and whose sizes plus one
header each add up to `totalFree`. -/
theorem safe_counters_match_list (st : State) (live : List Nat) (h : ReachSafe st live) :
    ∃ L, FreeList st L ∧ ValidList L ∧ st.freeBlocks = L.length ∧ st.totalFree = spanSum L := by
  obtain ⟨L, hr, hA⟩ := reach_inv st live h
  exact ⟨L, hr, ⟨hA.gaps, hA.minSize⟩, hA.fb, hA.tf⟩

theorem safe_counters_match_list_witness :
    ReachSafe afterOne [4112] ∧
      ∃ L, FreeList afterOne L ∧ ValidList L ∧ afterOne.freeBlocks = L.length ∧
        afterOne.totalFree = spanSum L :=
  ⟨reachSafe_afterOne, safe_counters_match_list afterOne [4112] reachSafe_afterOne⟩

/-- C3: after `getmem(2^64 - 16)` on the empty allocator, with `malloc(0)`
answering the non-null pointer 65536, the free list is the one node
`(65536, 2^64 - 16)` and `freeBlocks` is 1, but `totalFree` is 0 and not the
`2^64` bytes of that node; the node is also the block that was returned. -/
theorem c3_chunk_size_wrap_breaks_total_free :
    ∃ st, getmem 8 (sysAt 0 65536) (2 ^ 64 - 16) State.init = .ok (65552, st) ∧
      Reach st [65552] ∧ FreeList st [(65536, 2 ^ 64 - 16)] ∧ st.freeBlocks = 1 ∧
      st.totalFree = 0 ∧ st.totalFree ≠ spanSum [(65536, 2 ^ 64 - 16)] ∧
      blk st 65552 = (65536, 2 ^ 64 - 16) := by
  refine ⟨stateOf (getmem 8 (sysAt 0 65536) (2 ^ 64 - 16) State.init), ?_, ?_, ?_, ?_, ?_, ?_, ?_⟩
  · rfl
  · exact Reach.acquire State.init [] 8 (sysAt 0 65536) (2 ^ 64 - 16) 65552 _ Reach.init
      (by decide) (sysOK_at [] 0 65536 ⟨by decide, by intro e he; cases he⟩) (by rfl)
  · decide
  · decide
  · decide
  · decide
  · decide

theorem repr_head_eq (m m2 : Nat → FreeNode) (L : List (Nat × Nat)) (h h2 : Nat)
    (hr : Repr m h L) (hr2 : Repr m2 h2 L) : h = h2 := by
  cases L with
  | nil => exact hr.trans hr2.symm
  | cons x rest => exact hr.1.trans hr2.1.symm

theorem first_fit_at (s : Nat) (x : Nat × Nat) (L2 : List (Nat × Nat)) (hx : s ≤ x.2) :
    ∀ (L1 : List (Nat × Nat)), (∀ y ∈ L1, y.2 < s) →
      carve s (L1 ++ x :: L2) =
        L1 ++ (if x.2 > s + SPLIT_CONSTANT then (x.1 + NSIZE + s, x.2 - NSIZE - s) :: L2 else L2) ∧
      granted s (L1 ++ x :: L2) = some (x.1, if x.2 > s + SPLIT_CONSTANT then s else x.2) := by
  intro L1
  induction L1 with
  | nil =>
    intro _
    simp only [List.nil_append, carve, granted, if_pos hx]
    exact ⟨trivial, trivial⟩
  | cons y rest ih =>
    intro h
    have hy : ¬ s ≤ y.2 := by have := h y (by simp); omega
    obtain ⟨i1, i2⟩ := ih (fun z hz => h z (by simp [hz]))
    simp only [List.cons_append, carve, granted, if_neg hy]
    exact ⟨congrArg (List.cons y) i1, i2⟩

theorem coalesce_insert (x : Nat × Nat) (L1 L2 : List (Nat × Nat))
    (h1 : ∀ y ∈ L1, y.1 + NSIZE + y.2 < x.1) (h2 : ∀ y ∈ L2, x.1 + NSIZE + x.2 < y.1) :
    coalesce x (L1 ++ L2) = L1 ++ x :: L2 := by
  rw [coalesce_skip x L2 L1 (fun y hy => by have := h1 y hy; constructor <;> omega)]
  cases L2 with
  | nil => rfl
  | cons d rest =>
    have hd := h2 d (by simp)
    rw [coalesce_cons, if_pos (by omega), pushMerge_apart x d rest (by omega)]

theorem coalesce_after (a s1 s2 : Nat) (L1 L2 : List (Nat × Nat))
    (h1 : ∀ y ∈ L1, y.1 + NSIZE + y.2 < a)
    (h2 : ∀ y ∈ L2, a + NSIZE + s1 + NSIZE + s2 < y.1) :
    coalesce (a + NSIZE + s1, s2) (L1 ++ (a, s1) :: L2) = L1 ++ (a, s1 + s2 + NSIZE) :: L2 := by
  rw [coalesce_skip _ _ L1 (fun y hy => by have := h1 y hy; dsimp only; constructor <;> omega)]
  rw [coalesce_cons, if_neg (by dsimp only; omega), if_pos (by dsimp only)]
  have hs : s1 + NSIZE + s2 = s1 + s2 + NSIZE := by omega
  dsimp only
  rw [hs]
  cases L2 with
  | nil => rfl
  | cons d rest =>
    have hd := h2 d (by simp)
    rw [pushMerge_apart _ d rest (by dsimp only; omega)]

theorem coalesce_before (a s1 s2 : Nat) (L1 L2 : List (Nat × Nat))
    (h1 : ∀ y ∈ L1, y.1 + NSIZE + y.2 < a) :
    coalesce (a, s1) (L1 ++ (a + NSIZE + s1, s2) :: L2) = L1 ++ (a, s1 + s2 + NSIZE) :: L2 := by
  rw [coalesce_skip _ _ L1 (fun y hy => by have := h1 y hy; dsimp only; constructor <;> omega)]
  rw [coalesce_cons, if_pos (by dsimp only [NSIZE]; omega), pushMerge_touch _ _ _ (by dsimp only)]
  have hs : s1 + NSIZE + s2 = s1 + s2 + NSIZE := by omega
  dsimp only
  rw [hs]

/-- Release of block `(a, t)` into a valid free list `L1 ++ L2` whose nodes
lie strictly apart from it, followed by release of block `(b, u)` which
merges with it into `(c, v)`. -/
theorem release_pair (st : State) (L1 L2 : List (Nat × Nat)) (a t b u c v fuel : Nat)
    (hr : Repr st.mem st.head (L1 ++ L2)) (hg : Gaps 0 (L1 ++ L2)) (hms : MinSize (L1 ++ L2))
    (ha : 0 < a) (hb : 0 < b) (hab : a ≠ b)
    (hta : (st.mem a).size = t) (hub : (st.mem b).size = u) (ht : 16 ≤ t) (hv : 16 ≤ v)
    (hlima : a + NSIZE + t ≤ ADDR_LIMIT) (hlimb : b + NSIZE + u ≤ ADDR_LIMIT)
    (hlo : ∀ y ∈ L1, y.1 + NSIZE + y.2 < a ∧ y.1 + NSIZE + y.2 < b)
    (hhi : ∀ y ∈ L2, a + NSIZE + t < y.1 ∧ b + NSIZE + u < y.1)
    (hapart : Apart (b, u) (a, t))
    (hco : coalesce (b, u) (L1 ++ (a, t) :: L2) = L1 ++ (c, v) :: L2)
    (hfb : st.freeBlocks + 1 < WORD) (hf : (L1 ++ L2).length + 1 < fuel) :
    ∃ st1 st2, freemem fuel (a + NSIZE) st = .ok st1 ∧ freemem fuel (b + NSIZE) st1 = .ok st2 ∧
      Repr st2.mem st2.head (L1 ++ (c, v) :: L2) ∧ st2.freeBlocks = st.freeBlocks + 1 := by
  have hW := WORD_eq
  have hins : coalesce (a, t) (L1 ++ L2) = L1 ++ (a, t) :: L2 :=
    coalesce_insert (a, t) L1 L2 (fun y hy => (hlo y hy).1) (fun y hy => (hhi y hy).1)
  have hapA : ∀ y ∈ L1 ++ L2, Apart (a, t) y := by
    intro y hy
    rcases List.mem_append.mp hy with h | h
    · right; have := (hlo y h).1; dsimp only; omega
    · left; have := (hhi y h).1; dsimp only; omega
  obtain ⟨st1, b1, b2, _, b4, _, _, b7, _⟩ :=
    freemem_run st (L1 ++ L2) a t fuel hr hg hms ha hta hlima hapA (by omega)
  have hg1 := gaps_coalesce (a, t) (L1 ++ L2) 0 hg ha hlima hapA
  have hm1 := minSize_coalesce (a, t) ht (L1 ++ L2) hms
  rw [hins] at b1 b4 b7 hg1 hm1
  have hlen1 : (L1 ++ (a, t) :: L2).length = (L1 ++ L2).length + 1 := by
    simp only [List.length_append, List.length_cons]; omega
  have hfree1 := b7 hm1 (by omega)
  have hub1 : (st1.mem b).size = u := by
    rw [b2 b (Ne.symm hab) ?_]
    · exact hub
    · intro y hy
      rcases List.mem_append.mp hy with h | h
      · have := (hlo y h).2; omega
      · have := (hhi y h).2; omega
  have hapB : ∀ y ∈ L1 ++ (a, t) :: L2, Apart (b, u) y := by
    intro y hy
    rcases List.mem_append.mp hy with h | h
    · right; have := (hlo y h).2; dsimp only; omega
    · rcases List.mem_cons.mp h with h | h
      · rw [h]; exact hapart
      · left; have := (hhi y h).2; dsimp only; omega
  obtain ⟨st2, c1, _, _, c4, _, _, c7, _⟩ :=
    freemem_run st1 (L1 ++ (a, t) :: L2) b u fuel b1 hg1 hm1 hb hub1 hlimb hapB (by omega)
  rw [hco] at c1 c4 c7
  have hm2 : MinSize (L1 ++ (c, v) :: L2) := by
    intro y hy
    rcases List.mem_append.mp hy with h | h
    · exact hms y (List.mem_append.mpr (Or.inl h))
    · rcases List.mem_cons.mp h with h | h
      · rw [h]; exact hv
      · exact hms y (List.mem_append.mpr (Or.inr h))
  have hlen2 : (L1 ++ (c, v) :: L2).length = (L1 ++ L2).length + 1 := by
    simp only [List.length_append, List.length_cons]; omega
  refine ⟨st1, st2, hfree1, c7 hm2 (by omega), c1, ?_⟩
  rw [c4, b4, hlen1, hlen2]
  have hk1 : (L1 ++ L2).length + 1 - ((L1 ++ L2).length + 1) = 0 := by omega
  have hk2 : (L1 ++ L2).length + 1 + 1 - ((L1 ++ L2).length + 1) = 1 := by omega
  rw [hk1, hk2, Nat.zero_mul, Nat.add_zero, Nat.one_mul, Nat.mod_eq_of_lt hfb]
  have : st.freeBlocks + 1 + 1 + (WORD - 1) = st.freeBlocks + 1 + WORD := by omega
  rw [this, Nat.add_mod_right]
  exact Nat.mod_eq_of_lt hfb

/-- Two allocated blocks of recorded size at least 16, the second starting
where the first ends, and neither touching a free node, are released in
either order.  Both orders end
with the former free list plus exactly one node, at the address of the first
block, of size both sizes plus one header, and with `freeBlocks` one higher
than before the two releases. -/
theorem adjacent_blocks_merge (st : State) (L1 L2 : List (Nat × Nat)) (a s1 s2 fuel : Nat)
    (hr : FreeList st (L1 ++ L2)) (hv : ValidList (L1 ++ L2)) (ha : 0 < a)
    (hs1 : (st.mem a).size = s1) (hs2 : (st.mem (a + NSIZE + s1)).size = s2)
    (h1 : 16 ≤ s1) (h2 : 16 ≤ s2) (hlim : a + NSIZE + s1 + NSIZE + s2 ≤ ADDR_LIMIT)
    (hlo : ∀ y ∈ L1, y.1 + NSIZE + y.2 < a)
    (hhi : ∀ y ∈ L2, a + NSIZE + s1 + NSIZE + s2 < y.1)
    (hfb : st.freeBlocks + 1 < WORD) (hf : (L1 ++ L2).length + 1 < fuel) :
    (∃ st1 st2, freemem fuel (a + NSIZE) st = .ok st1 ∧
      freemem fuel (a + NSIZE + s1 + NSIZE) st1 = .ok st2 ∧
      FreeList st2 (L1 ++ (a, s1 + s2 + NSIZE) :: L2) ∧ st2.freeBlocks = st.freeBlocks + 1) ∧
    (∃ st1 st2, freemem fuel (a + NSIZE + s1 + NSIZE) st = .ok st1 ∧
      freemem fuel (a + NSIZE) st1 = .ok st2 ∧
      FreeList st2 (L1 ++ (a, s1 + s2 + NSIZE) :: L2) ∧ st2.freeBlocks = st.freeBlocks + 1) := by
  constructor
  · exact release_pair st L1 L2 a s1 (a + NSIZE + s1) s2 a (s1 + s2 + NSIZE) fuel hr hv.1 hv.2
      ha (by omega) (by simp only [NSIZE]; omega) hs1 hs2 h1 (by omega) (by omega) (by omega)
      (fun y hy => by have := hlo y hy; constructor <;> omega)
      (fun y hy => by have := hhi y hy; constructor <;> omega)
      (Or.inr (by dsimp only; omega)) (coalesce_after a s1 s2 L1 L2 hlo hhi) hfb hf
  · exact release_pair st L1 L2 (a + NSIZE + s1) s2 a s1 a (s1 + s2 + NSIZE) fuel hr hv.1 hv.2
      (by omega) ha (by simp only [NSIZE]; omega) hs2 hs1 h2 (by omega) (by omega) (by omega)
      (fun y hy => by have := hlo y hy; constructor <;> omega)
      (fun y hy => by have := hhi y hy; constructor <;> omega)
      (Or.inl (by dsimp only; omega)) (coalesce_before a s1 s2 L1 L2 hlo) hfb hf

/-- The three calls `getmem(100)` that lead to `afterThree` return the
pointers 4112, 4240 and 4368. -/
theorem afterThree_run :
    ∃ st1 st2, getmem 8 (sysAt 8016 4096) 100 State.init = .ok (4112, st1) ∧
      getmem 8 sysFail 100 st1 = .ok (4240, st2) ∧
      getmem 8 sysFail 100 st2 = .ok (4368, afterThree) :=
  ⟨_, _, rfl, rfl, rfl⟩

theorem adjacent_blocks_merge_witness :
    (∃ st1 st2, freemem 8 4112 afterThree = .ok st1 ∧ freemem 8 4240 st1 = .ok st2 ∧
      FreeList st2 [(4096, 240), (4480, 7616)] ∧ st2.freeBlocks = afterThree.freeBlocks + 1) ∧
    (∃ st1 st2, freemem 8 4240 afterThree = .ok st1 ∧ freemem 8 4112 st1 = .ok st2 ∧
      FreeList st2 [(4096, 240), (4480, 7616)] ∧ st2.freeBlocks = afterThree.freeBlocks + 1) :=
  adjacent_blocks_merge afterThree [] [(4480, 7616)] 4096 112 112 8 (by decide) (by decide)
    (by decide) (by decide) (by decide) (by decide) (by decide) (by decide)
    (by intro y hy; cases hy) (by decide) (by decide) (by decide)

/-- C6: when the free list is not empty, no node is large enough and `malloc`
fails, `getmem` does not return `NULL`: `splitNode` reads `current->size`
through the `NULL` pointer it was given.  Here `getmem(7000)` leaves one free
node of size 976, and the following `getmem(8000)` meets a failing `malloc`. -/
theorem c6_malloc_failure_null_deref :
    ∃ st, getmem 8 (sysAt 8016 4096) 7000 State.init = .ok (4112, st) ∧
      Reach st [4112] ∧ FreeList st [(11120, 976)] ∧ SysOK st.sysLog sysFail ∧
      getmem 8 sysFail 8000 st = .error .nullDeref := by
  refine ⟨stateOf (getmem 8 (sysAt 8016 4096) 7000 State.init), rfl, ?_, by decide,
    sysOK_fail _, rfl⟩
  exact Reach.acquire State.init [] 8 (sysAt 8016 4096) 7000 4112 _ Reach.init (by decide)
    (sysOK_at [] 8016 4096 ⟨by decide, by intro e he; cases he⟩) rfl

/-- C7: on the empty allocator, with `malloc` handing out a chunk at 4096,
`getmem(2^64 - 1)` returns the non-null pointer 4112, to a block whose header
records size 0. -/
theorem c7_minus_one_not_null :
    ∃ st, getmem 8 (sysAt 8016 4096) (2 ^ 64 - 1) State.init = .ok (4112, st) ∧
      (st.mem 4096).size = 0 ∧ FreeList st [(4112, 7984)] := by
  refine ⟨stateOf (getmem 8 (sysAt 8016 4096) (2 ^ 64 - 1) State.init), ?_, ?_, ?_⟩
  · rfl
  · decide
  · decide

/-- C8: on a state whose free list is valid, `getmem(0)` returns `NULL` and
leaves the state as it was, the record of calls to `malloc` included,
whatever `malloc` would have answered. -/
theorem c8_acquire_zero (st : State) (L : List (Nat × Nat)) (fuel : Nat) (sys : Nat → Nat)
    (hr : FreeList st L) (hv : ValidList L) (hf : L.length < fuel) :
    getmem fuel sys 0 st = .ok (0, st) :=
  getmem_zero fuel sys st (check_heap_loop_complete st.mem L 0 st.head fuel hr hv.1 hv.2 hf)

theorem c8_acquire_zero_witness : getmem 8 (sysAt 8016 20000) 0 afterOne = .ok (0, afterOne) :=
  c8_acquire_zero afterOne [(4224, 7872)] 8 (sysAt 8016 20000) (by decide) (by decide)
    (by decide)

/-- The function `align` on the sizes that can be rounded up inside a machine
word: the result is the least multiple of 16 that is at least `r` and at
least 16. -/
theorem align_spec (r : Nat) (h1 : 1 ≤ r) (h2 : r ≤ WORD - 16) :
    r ≤ align r ∧ 16 ≤ align r ∧ align r % 16 = 0 ∧
      (∀ k, r ≤ k → 16 ≤ k → k % 16 = 0 → align r ≤ k) ∧ align (align r) = align r := by
  have hW := WORD_eq
  have key : align r = if r < 16 then 16 else if r % 16 ≠ 0 then r + (16 - r % 16) else r := by
    unfold align
    simp only [BYTE_ALIGN]
    split
    · rfl
    · split
      · exact Nat.mod_eq_of_lt (by omega)
      · rfl
  have hidem : ∀ x, 16 ≤ x → x % 16 = 0 → align x = x := by
    intro x hx hm
    unfold align
    simp only [BYTE_ALIGN]
    rw [if_neg (by omega), if_neg (by omega)]
  have hfacts : r ≤ align r ∧ 16 ≤ align r ∧ align r % 16 = 0 ∧
      (∀ k, r ≤ k → 16 ≤ k → k % 16 = 0 → align r ≤ k) := by
    rw [key]
    split
    · exact ⟨by omega, by omega, by omega, fun k _ hk _ => hk⟩
    · split
      · exact ⟨by omega, by omega, by omega, fun k _ _ _ => by omega⟩
      · exact ⟨by omega, by omega, by omega, fun k hk _ _ => hk⟩
  exact ⟨hfacts.1, hfacts.2.1, hfacts.2.2.1, hfacts.2.2.2, hidem _ hfacts.2.1 hfacts.2.2.1⟩

/-- C9: `align` wraps around for the 15 largest machine words.  For the
request `2^64 - 1` it returns 0, which is neither at least the request nor at
least 16. -/
theorem c9_align_wraps :
    1 ≤ 2 ^ 64 - 1 ∧ 2 ^ 64 - 1 < WORD ∧ align (2 ^ 64 - 1) = 0 ∧
      ¬ (2 ^ 64 - 1 ≤ align (2 ^ 64 - 1)) ∧ ¬ (16 ≤ align (2 ^ 64 - 1)) := by
  decide

/-- The block of recorded size 0 that `getmem(2^64 - 1)` hands out cannot be
released once the node behind it is gone: `getmem(7984)` takes that node
whole, and `freemem` of the first pointer then fails the assertion
`size >= 16` of `check_heap`. -/
theorem zero_size_block_aborts :
    ∃ st1 st2, getmem 8 (sysAt 8016 4096) (2 ^ 64 - 1) State.init = .ok (4112, st1) ∧
      getmem 8 sysFail 7984 st1 = .ok (4128, st2) ∧
      freemem 8 4112 st2 = .error .assertFailed := by
  refine ⟨stateOf (getmem 8 (sysAt 8016 4096) (2 ^ 64 - 1) State.init),
    stateOf (getmem 8 sysFail 7984
      (stateOf (getmem 8 (sysAt 8016 4096) (2 ^ 64 - 1) State.init))), ?_, ?_, ?_⟩
  · rfl
  · rfl
  · rfl

theorem align_mod (r : Nat) : align r % 16 = 0 := by
  have hW := WORD_eq
  unfold align
  simp only [BYTE_ALIGN]
  split
  · rfl
  · split
    · rw [hW]; omega
    · omega

/-- Release of a block of recorded size at least 16 that touches no free
node.  The free list gains
exactly the node `(a, t)` of the block, between the nodes below and the nodes
above it; `freeBlocks` goes up by one, `totalFree` by `t + 16`, and
`totalSize` stays. -/
theorem isolated_release (st : State) (L1 L2 : List (Nat × Nat)) (a t fuel : Nat)
    (hr : FreeList st (L1 ++ L2)) (hv : ValidList (L1 ++ L2)) (ha : 0 < a)
    (hsz : (st.mem a).size = t) (ht : 16 ≤ t) (hlim : a + NSIZE + t ≤ ADDR_LIMIT)
    (hlo : ∀ y ∈ L1, y.1 + NSIZE + y.2 < a) (hhi : ∀ y ∈ L2, a + NSIZE + t < y.1)
    (htf : st.totalFree + (t + NSIZE) < WORD) (hfb : st.freeBlocks + 1 < WORD)
    (hf : (L1 ++ L2).length + 1 < fuel) :
    ∃ st2, freemem fuel (a + NSIZE) st = .ok st2 ∧ FreeList st2 (L1 ++ (a, t) :: L2) ∧
      st2.freeBlocks = st.freeBlocks + 1 ∧ st2.totalFree = st.totalFree + (t + NSIZE) ∧
      st2.totalSize = st.totalSize := by
  have hins : coalesce (a, t) (L1 ++ L2) = L1 ++ (a, t) :: L2 :=
    coalesce_insert (a, t) L1 L2 hlo hhi
  have hap : ∀ y ∈ L1 ++ L2, Apart (a, t) y := by
    intro y hy
    rcases List.mem_append.mp hy with h | h
    · right; have := hlo y h; dsimp only; omega
    · left; have := hhi y h; dsimp only; omega
  obtain ⟨st2, b1, _, b3, b4, b5, _, b7, _⟩ :=
    freemem_run st (L1 ++ L2) a t fuel hr hv.1 hv.2 ha hsz hlim hap (by omega)
  have hm := minSize_coalesce (a, t) ht (L1 ++ L2) hv.2
  rw [hins] at b1 b4 b7 hm
  have hlen : (L1 ++ (a, t) :: L2).length = (L1 ++ L2).length + 1 := by
    simp only [List.length_append, List.length_cons]; omega
  refine ⟨st2, b7 hm (by omega), b1, ?_, ?_, b5⟩
  · rw [b4, hlen]
    have hk : (L1 ++ L2).length + 1 - ((L1 ++ L2).length + 1) = 0 := by omega
    rw [hk, Nat.zero_mul, Nat.add_zero]
    exact Nat.mod_eq_of_lt hfb
  · rw [b3]
    exact wadd_eq _ _ htf

theorem isolated_release_witness :
    ∃ st2, freemem 8 4112 afterTwo = .ok st2 ∧ FreeList st2 [(4096, 16), (8144, 3952)] ∧
      st2.freeBlocks = afterTwo.freeBlocks + 1 ∧
      st2.totalFree = afterTwo.totalFree + (16 + NSIZE) ∧
      st2.totalSize = afterTwo.totalSize :=
  isolated_release afterTwo [] [(8144, 3952)] 4096 16 8 (by decide) (by decide)
    (by decide) (by decide) (by decide) (by decide) (by intro y hy; cases hy) (by decide)
    (by decide) (by decide) (by decide)

/-- C15: `freemem(NULL)` returns at once and leaves the whole state, heap and
counters, as it was; no condition on the state is needed. -/
theorem c15_release_null (fuel : Nat) (st : State) : freemem fuel 0 st = .ok st :=
  freemem_null fuel st

/-- C18: release of a block of size at least 16 that overlaps no free node
returns, and the free list it leaves, `coalesce (a, t) L`, is again strictly
ordered with gaps between all nodes and all sizes at least 16. -/
theorem c18_release_keeps_valid (st : State) (L : List (Nat × Nat)) (a t fuel : Nat)
    (hr : FreeList st L) (hv : ValidList L) (ha : 0 < a) (hsz : (st.mem a).size = t)
    (ht : 16 ≤ t) (hlim : a + NSIZE + t ≤ ADDR_LIMIT) (hap : ∀ y ∈ L, Apart (a, t) y)
    (hf : L.length + 1 < fuel) :
    ∃ st2, freemem fuel (a + NSIZE) st = .ok st2 ∧ FreeList st2 (coalesce (a, t) L) ∧
      ValidList (coalesce (a, t) L) := by
  obtain ⟨st2, b1, _, _, _, _, _, b7, _⟩ :=
    freemem_run st L a t fuel hr hv.1 hv.2 ha hsz hlim hap (by omega)
  have hm := minSize_coalesce (a, t) ht L hv.2
  have hg := gaps_coalesce (a, t) L 0 hv.1 ha hlim hap
  have hl := (coalesce_length (a, t) L).1
  exact ⟨st2, b7 hm (by omega), b1, hg, hm⟩

theorem c18_release_keeps_valid_witness :
    ∃ st2, freemem 8 4240 afterHole = .ok st2 ∧ FreeList st2 [(4096, 8000)] ∧
      ValidList [(4096, 8000)] :=
  c18_release_keeps_valid afterHole [(4096, 112), (4352, 7744)] 4224 112 8 (by decide)
    (by decide) (by decide) (by decide) (by decide) (by decide) (by decide) (by decide)

/-- C20: a request served from an existing node of a valid free list whose
sizes are multiples of 16 leaves a valid free list whose sizes are multiples
of 16; the only node that was not in the list before, the remainder of a
split, has size at least 32. -/
theorem c20_acquire_keeps_valid (st : State) (L : List (Nat × Nat)) (r fuel : Nat)
    (sys : Nat → Nat) (hr : FreeList st L) (hv : ValidList L) (h16 : ∀ y ∈ L, y.2 % 16 = 0)
    (hr0 : 1 ≤ r) (hex : ∃ y ∈ L, align r ≤ y.2) (hf : L.length < fuel) :
    ∃ p st2, getmem fuel sys r st = .ok (p, st2) ∧ FreeList st2 (carve (align r) L) ∧
      ValidList (carve (align r) L) ∧ (∀ z ∈ carve (align r) L, z.2 % 16 = 0) ∧
      (∀ z ∈ carve (align r) L, z ∉ L → 32 ≤ z.2) := by
  obtain ⟨st2, g, _, a2, a3, _, _, _, _, _, _⟩ :=
    getmem_fit st L r fuel sys hr hv.1 hv.2 hr0 hex hf
  obtain ⟨M1, x, M2, e1, _, e3, e4, _⟩ := first_fit_split (align r) L hex
  have hx16 : x.2 % 16 = 0 := h16 x (by rw [e1]; simp)
  have hal := align_mod r
  have hnew : ∀ z ∈ carve (align r) L, z ∈ L ∨
      (x.2 > align r + SPLIT_CONSTANT ∧ z = (x.1 + NSIZE + align r, x.2 - NSIZE - align r)) := by
    intro z hz
    rw [e4] at hz
    rcases List.mem_append.mp hz with h | h
    · left; rw [e1]; exact List.mem_append.mpr (Or.inl h)
    · by_cases hs : x.2 > align r + SPLIT_CONSTANT
      · rw [if_pos hs] at h
        rcases List.mem_cons.mp h with h | h
        · right; exact ⟨hs, h⟩
        · left; rw [e1]; exact List.mem_append.mpr (Or.inr (List.mem_cons_of_mem _ h))
      · rw [if_neg hs] at h
        left; rw [e1]; exact List.mem_append.mpr (Or.inr (List.mem_cons_of_mem _ h))
  refine ⟨g.1 + NSIZE, st2, a2, a3, ⟨gaps_carve _ L 0 hv.1, minSize_carve _ L hv.2⟩, ?_, ?_⟩
  · intro z hz
    rcases hnew z hz with h | ⟨hs, h⟩
    · exact h16 z h
    · rw [h]
      simp only [NSIZE, SPLIT_CONSTANT] at *
      omega
  · intro z hz hnot
    rcases hnew z hz with h | ⟨hs, h⟩
    · exact absurd h hnot
    · rw [h]
      simp only [NSIZE, SPLIT_CONSTANT] at *
      omega

theorem c20_acquire_keeps_valid_witness :
    ∃ p st2, getmem 8 sysFail 100 afterGap = .ok (p, st2) ∧
      FreeList st2 (carve (align 100) [(4096, 16), (8144, 3952)]) ∧
      ValidList (carve (align 100) [(4096, 16), (8144, 3952)]) ∧
      (∀ z ∈ carve (align 100) [(4096, 16), (8144, 3952)], z.2 % 16 = 0) ∧
      (∀ z ∈ carve (align 100) [(4096, 16), (8144, 3952)],
        z ∉ [(4096, 16), (8144, 3952)] → 32 ≤ z.2) :=
  c20_acquire_keeps_valid afterGap [(4096, 16), (8144, 3952)] 100 8 sysFail (by decide)
    (by decide) (by decide) (by decide) ⟨(8144, 3952), by simp, by decide⟩ (by decide)

theorem minSize_cons (x : Nat × Nat) (rest : List (Nat × Nat)) :
    MinSize (x :: rest) ↔ 16 ≤ x.2 ∧ MinSize rest := by
  unfold MinSize
  simp

theorem check_heap_loop_decides (m : Nat → FreeNode) :
    ∀ (L : List (Nat × Nat)) (h fuel : Nat), Repr m h L →
      (∀ x ∈ L, x.1 + NSIZE + x.2 < WORD) → L.length < fuel →
      ((MinSize L ∧ L.Chain' Before) → check_heap_loop m fuel h = .ok ()) ∧
      (¬ (MinSize L ∧ L.Chain' Before) → check_heap_loop m fuel h = .error .assertFailed) := by
  intro L
  induction L with
  | nil =>
    intro h fuel hr _ hf
    cases fuel with
    | zero => simp at hf
    | succ f =>
      have h0 : h = 0 := hr
      subst h0
      constructor
      · intro _; simp [check_heap_loop]
      · intro hn; exact absurd ⟨fun x hx => (by cases hx), List.chain'_nil⟩ hn
  | cons x rest ih =>
    intro h fuel hr hsp hf
    obtain ⟨r1, r2, r3, r4⟩ := hr
    cases fuel with
    | zero => simp at hf
    | succ f =>
      have hx := hsp x (by simp)
      have ihr := ih (m x.1).next f r4 (fun y hy => hsp y (by simp [hy])) (by simpa using hf)
      subst r1
      have hunf : check_heap_loop m (f + 1) x.1 =
          if ¬ (16 ≤ x.2) then .error .assertFailed
          else if (m x.1).next ≠ 0 ∧ ¬ (x.1 + NSIZE + x.2 < (m x.1).next) then
            .error .assertFailed
          else check_heap_loop m f (m x.1).next := by
        simp only [check_heap_loop, if_neg r2, r3, Nat.mod_eq_of_lt hx]
      rw [hunf]
      by_cases h16 : 16 ≤ x.2
      · rw [if_neg (not_not.mpr h16)]
        cases rest with
        | nil =>
          have hn : (m x.1).next = 0 := r4
          rw [if_neg (by rw [hn]; simp)]
          have hall : MinSize [x] ∧ [x].Chain' Before :=
            ⟨(minSize_cons x []).mpr ⟨h16, fun y hy => by cases hy⟩, List.chain'_singleton x⟩
          constructor
          · intro _; exact ihr.1 ⟨fun y hy => (by cases hy), List.chain'_nil⟩
          · intro hno; exact absurd hall hno
        | cons y r =>
          have hn : (m x.1).next = y.1 := r4.1
          have hy0 : y.1 ≠ 0 := r4.2.1
          by_cases hb : x.1 + NSIZE + x.2 < y.1
          · rw [if_neg (by rw [hn]; intro hc; exact hc.2 hb)]
            constructor
            · intro hall
              exact ihr.1 ⟨((minSize_cons x _).mp hall.1).2, (List.chain'_cons.mp hall.2).2⟩
            · intro hno
              apply ihr.2
              intro hrest
              exact hno ⟨(minSize_cons x _).mpr ⟨h16, hrest.1⟩, List.chain'_cons.mpr ⟨hb, hrest.2⟩⟩
          · rw [if_pos ⟨by rw [hn]; exact hy0, by rw [hn]; exact hb⟩]
            constructor
            · intro hall
              exact absurd (List.chain'_cons.mp hall.2).1 hb
            · intro _; rfl
      · rw [if_pos h16]
        constructor
        · intro hall
          exact absurd ((minSize_cons x _).mp hall.1).1 h16
        · intro _; rfl

theorem before_pairwise : ∀ (L : List (Nat × Nat)), L.Chain' Before →
    L.Pairwise (fun x y => x.1 < y.1 ∧ Before x y) := by
  intro L
  induction L with
  | nil => intro _; exact List.Pairwise.nil
  | cons x rest ih =>
    intro hc
    have hrest : rest.Chain' Before := by
      cases rest with
      | nil => exact List.chain'_nil
      | cons y r => exact (List.chain'_cons.mp hc).2
    have ihr := ih hrest
    refine List.Pairwise.cons ?_ ihr
    intro z hz
    cases rest with
    | nil => cases hz
    | cons y r =>
      have hxy : Before x y := (List.chain'_cons.mp hc).1
      unfold Before at hxy
      rcases List.mem_cons.mp hz with h | h
      · rw [h]; unfold Before; omega
      · have := (List.pairwise_cons.mp ihr).1 z h
        unfold Before at this ⊢
        omega

/-- C17, as the code has it: on a free list whose nodes lie inside the
address space,
`check_heap` stops, either normally or in a failed assertion; it returns
normally exactly when every node has size at least 16 and every node ends
strictly below its successor; and when it returns normally every node lies
strictly below every later node of the list, so that any two nodes are
disjoint and do not touch. -/
theorem c17_check_heap_decides (st : State) (L : List (Nat × Nat)) (fuel : Nat)
    (hr : FreeList st L) (hsp : ∀ x ∈ L, x.1 + NSIZE + x.2 < WORD) (hf : L.length < fuel) :
    (check_heap fuel st = .ok () ∨ check_heap fuel st = .error .assertFailed) ∧
    (check_heap fuel st = .ok () ↔ MinSize L ∧ L.Chain' Before) ∧
    (check_heap fuel st = .ok () → L.Pairwise (fun x y => x.1 < y.1 ∧ Before x y)) := by
  obtain ⟨d1, d2⟩ := check_heap_loop_decides st.mem L st.head fuel hr hsp hf
  have hiff : check_heap fuel st = .ok () ↔ MinSize L ∧ L.Chain' Before := by
    constructor
    · intro hok
      by_contra hno
      have := d2 hno
      unfold check_heap at hok
      rw [hok] at this
      cases this
    · exact d1
  refine ⟨?_, hiff, fun hok => before_pairwise L (hiff.mp hok).2⟩
  by_cases hall : MinSize L ∧ L.Chain' Before
  · exact Or.inl (d1 hall)
  · exact Or.inr (d2 hall)

theorem c17_check_heap_decides_witness :
    (check_heap 8 afterGap = .ok () ∨ check_heap 8 afterGap = .error .assertFailed) ∧
    (check_heap 8 afterGap = .ok () ↔
      MinSize [(4096, 16), (8144, 3952)] ∧ [(4096, 16), (8144, 3952)].Chain' Before) ∧
    (check_heap 8 afterGap = .ok () →
      [(4096, 16), (8144, 3952)].Pairwise (fun x y => x.1 < y.1 ∧ Before x y)) :=
  c17_check_heap_decides afterGap [(4096, 16), (8144, 3952)] 8 (by decide) (by decide)
    (by decide)

theorem gaps_pairwise : ∀ (L : List (Nat × Nat)) (lo : Nat), Gaps lo L → L.Pairwise Apart := by
  intro L
  induction L with
  | nil => intro _ _; exact List.Pairwise.nil
  | cons x rest ih =>
    intro lo hg
    refine List.Pairwise.cons ?_ (ih _ hg.2.2)
    intro z hz
    have := (gaps_mem rest _ hg.2.2 z hz).1
    left
    omega

theorem reach_spanState : Reach spanState [] := by
  have h1 : Reach (stateOf (getmem 8 (sysAt 8016 4096) 8000 State.init)) [4112] :=
    Reach.acquire State.init [] 8 (sysAt 8016 4096) 8000 4112 _ Reach.init (by decide)
      (sysOK_at [] 8016 4096 ⟨by decide, by intro e he; cases he⟩) rfl
  have hsys : SysOK (stateOf (getmem 8 (sysAt 8016 4096) 8000 State.init)).sysLog
      (sysAt 8016 12112) := by
    apply sysOK_at
    refine ⟨by decide, ?_⟩
    intro e he _
    have he2 : e = (8016, 4096) := by
      have : e ∈ [((8016 : Nat), (4096 : Nat))] := he
      simpa using this
    subst he2
    right
    decide
  have h2 : Reach (stateOf (getmem 8 (sysAt 8016 12112) 8000
      (stateOf (getmem 8 (sysAt 8016 4096) 8000 State.init)))) [12128, 4112] :=
    Reach.acquire _ [4112] 8 (sysAt 8016 12112) 8000 12128 _ h1 (by decide) hsys rfl
  have h3 : Reach (releasedState (freemem 8 4112 (stateOf (getmem 8 (sysAt 8016 12112) 8000
      (stateOf (getmem 8 (sysAt 8016 4096) 8000 State.init)))))) [12128] :=
    Reach.release _ [12128, 4112] 8 4112 _ h2 (by decide) rfl
  exact Reach.release _ [12128] 8 12128 _ h3 (by decide) rfl

/-- C19, as the code has it: in every state reached by calls in which the
chunk size `size + sizeof(FreeNode)` does not wrap around, the allocated
blocks and the free nodes are pairwise disjoint, and every byte of each of
them lies in a chunk obtained from `malloc`. -/
theorem c19_blocks_disjoint_and_covered (st : State) (live : List Nat)
    (h : ReachSafe st live) :
    ∃ L, FreeList st L ∧ L.Pairwise Apart ∧
      live.Pairwise (fun p q => Apart (blk st p) (blk st q)) ∧
      (∀ p ∈ live, ∀ y ∈ L, Apart (blk st p) y) ∧
      (∀ y ∈ L, InChunks st.sysLog y) ∧ (∀ p ∈ live, InChunks st.sysLog (blk st p)) := by
  obtain ⟨L, hr, hA⟩ := reach_inv st live h
  exact ⟨L, hr, gaps_pairwise L 0 hA.gaps, hA.liveApart, hA.freeApart, hA.covFree, hA.covLive⟩

theorem c19_blocks_disjoint_and_covered_witness :
    ReachSafe afterOne [4112] ∧
      ∃ L, FreeList afterOne L ∧ L.Pairwise Apart ∧
        [4112].Pairwise (fun p q => Apart (blk afterOne p) (blk afterOne q)) ∧
        (∀ p ∈ [4112], ∀ y ∈ L, Apart (blk afterOne p) y) ∧
        (∀ y ∈ L, InChunks afterOne.sysLog y) ∧
        (∀ p ∈ [4112], InChunks afterOne.sysLog (blk afterOne p)) :=
  ⟨reachSafe_afterOne, c19_blocks_disjoint_and_covered afterOne [4112] reachSafe_afterOne⟩

/-- C19, as stated, fails: when `malloc` hands out two chunks that touch,
`[4096, 12112)` and `[12112, 20128)`, the blocks in them merge on release
into one free node `[4096, 20128)`, which lies in no single chunk. -/
theorem c19_node_spans_two_chunks :
    Reach spanState [] ∧ FreeList spanState [(4096, 16016)] ∧
      spanState.sysLog = [(8016, 12112), (8016, 4096)] ∧
      ¬ ∃ e ∈ spanState.sysLog, e.2 ≤ 4096 ∧ 4096 + NSIZE + 16016 ≤ e.2 + e.1 :=
  ⟨reach_spanState, by decide, by decide, by decide⟩

/-- C12: `getmem(2^64 - 1)` on the state `afterOne`, whose free list is the
single node `(4224, 7872)`, returns the pointer 4240 to a block whose header
records size 0, less than the request; the pointer is the address of the
header of the free node that remains. -/
theorem c12_block_smaller_than_request :
    ∃ st, getmem 8 sysFail (2 ^ 64 - 1) afterOne = .ok (4240, st) ∧
      (blk st 4240).2 = 0 ∧ ¬ (2 ^ 64 - 1 ≤ (blk st 4240).2) ∧
      ¬ (2 ^ 64 - 1 ≤ align (2 ^ 64 - 1)) ∧ FreeList st [(4240, 7856)] := by
  refine ⟨stateOf (getmem 8 sysFail (2 ^ 64 - 1) afterOne), ?_, ?_, ?_, ?_, ?_⟩
  · rfl
  · decide
  · decide
  · decide
  · decide

/-- C13: a chunk that `malloc` hands out below the free list is not granted.
After `getmem(100)` with the first chunk at 20000, the free list is the node
`(20128, 7872)`; `getmem(9000)` finds no node of size `align 9000 = 9008`,
`malloc(9024)` succeeds with the disjoint chunk at 4096, and the call stops in
the failed assertion of `check_heap`. -/
theorem c13_growth_below_list_aborts :
    ∃ st, getmem 8 (sysAt 8016 20000) 100 State.init = .ok (20016, st) ∧
      Reach st [20016] ∧ FreeList st [(20128, 7872)] ∧ 7872 < align 9000 ∧
      SysOK st.sysLog (sysAt 9024 4096) ∧ sysAt 9024 4096 (align 9000 + NSIZE) = 4096 ∧
      getmem 8 (sysAt 9024 4096) 9000 st = .error .assertFailed := by
  refine ⟨stateOf (getmem 8 (sysAt 8016 20000) 100 State.init), rfl, ?_, by decide, by decide,
    ?_, by decide, rfl⟩
  · exact Reach.acquire State.init [] 8 (sysAt 8016 20000) 100 20016 _ Reach.init (by decide)
      (sysOK_at [] 8016 20000 ⟨by decide, by intro e he; cases he⟩) rfl
  · apply sysOK_at
    refine ⟨by decide, ?_⟩
    intro e he _
    have he2 : e = (8016, 20000) := by
      have : e ∈ [((8016 : Nat), (20000 : Nat))] := he
      simpa using this
    subst he2
    left
    decide

/-- C16: with the chunk at the multiple of 16 `65536`, `getmem(2^64 - 1)` on
the empty allocator leaves an allocated block whose header records size 0,
which is not a positive multiple of 16. -/
theorem c16_allocated_block_of_size_zero :
    ∃ st, getmem 8 (sysAt 8016 65536) (2 ^ 64 - 1) State.init = .ok (65552, st) ∧
      Reach st [65552] ∧ 65536 % 16 = 0 ∧ (blk st 65552).2 = 0 := by
  refine ⟨stateOf (getmem 8 (sysAt 8016 65536) (2 ^ 64 - 1) State.init), ?_, ?_, ?_, ?_⟩
  · rfl
  · exact Reach.acquire State.init [] 8 (sysAt 8016 65536) (2 ^ 64 - 1) 65552 _ Reach.init
      (by decide) (sysOK_at [] 8016 65536 ⟨by decide, by intro e he; cases he⟩)
      (by rfl)
  · decide
  · decide

theorem apart_frame (st : State) (q : Nat) (y : Nat × Nat) (h : Apart (blk st q) y) :
    q - NSIZE < y.1 ∨ y.1 + NSIZE + y.2 ≤ q - NSIZE := by
  unfold Apart at h
  rw [blk_fst] at h
  simp only [NSIZE] at *
  omega

/-- The ways in which a call of `getmem` whose chunk size does not wrap
around returns on a state of `ReachSafe`: with
`NULL` and the free list untouched, or with a block `g` carved out of the
list `M`, which is the old list or the old list with a new chunk at its
tail.  The sizes recorded for the blocks that are allocated stay as they
are. -/
theorem acquire_step (st st2 : State) (live : List Nat) (L : List (Nat × Nat)) (fuel r p : Nat)
    (sys : Nat → Nat) (hr : Repr st.mem st.head L) (hA : Abs st live L) (hrw : r < WORD)
    (hnw : align r + NSIZE < WORD)
    (hsys : SysOK st.sysLog sys) (hget : getmem fuel sys r st = .ok (p, st2)) :
    (∀ q ∈ live, (st2.mem (q - NSIZE)).size = (st.mem (q - NSIZE)).size) ∧
    ((p = 0 ∧ Repr st2.mem st2.head L ∧
        (st2.sysLog = st.sysLog ∨ ∃ m, st2.sysLog = (m, 0) :: st.sysLog)) ∨
      (∃ M g, (M = L ∧ st2.sysLog = st.sysLog ∨
          ∃ c n, M = L ++ [(c, n)] ∧ n = (if align r > MEM_CHUNK then align r else MEM_CHUNK) ∧
            c ≠ 0 ∧ (∀ y ∈ L, y.2 < align r) ∧ st2.sysLog = (n + NSIZE, c) :: st.sysLog) ∧
        granted (align r) M = some g ∧ p = g.1 + NSIZE ∧ 0 < r ∧
        Repr st2.mem st2.head (carve (align r) M) ∧ (st2.mem g.1).size = g.2)) := by
  have hW := WORD_eq
  have hLim := ADDR_LIMIT_eq
  have hchk := getmem_ok_check fuel sys r st p st2 hget
  have hfuel := check_heap_loop_fuel st.mem L st.head fuel hr hchk
  rcases Nat.eq_zero_or_pos r with h0 | hr0
  · subst h0
    rw [getmem_zero fuel sys st hchk] at hget
    have := Except.ok.inj hget
    have hp : p = 0 := (congrArg Prod.fst this).symm
    have hs : st2 = st := (congrArg Prod.snd this).symm
    subst hp; subst hs
    exact ⟨fun q _ => rfl, Or.inl ⟨rfl, hr, Or.inl rfl⟩⟩
  · by_cases hfit : ∃ y ∈ L, align r ≤ y.2
    · obtain ⟨st3, g, a1, a2, a3, a4, a5, _, _, _, a9⟩ :=
        getmem_fit st L r fuel sys hr hA.gaps hA.minSize hr0 hfit hfuel
      rw [a2] at hget
      have := Except.ok.inj hget
      have hp : p = g.1 + NSIZE := (congrArg Prod.fst this).symm
      have hs : st2 = st3 := (congrArg Prod.snd this).symm
      subst hp; subst hs
      refine ⟨?_, Or.inr ⟨L, g, Or.inl ⟨rfl, a9⟩, a1, rfl, hr0, a3, a4⟩⟩
      intro q hq
      exact a5 _ (fun y hy => apart_frame st q y (hA.freeApart q hq y hy))
    · have hno : ∀ y ∈ L, y.2 < align r := by
        intro y hy
        by_contra hcon
        exact hfit ⟨y, hy, by omega⟩
      have hal := align_lt r hrw
      generalize hn : (if align r > MEM_CHUNK then align r else MEM_CHUNK) = n at *
      have hnW : n < WORD := by rw [← hn]; split <;> simp only [MEM_CHUNK] at * <;> omega
      have hn16 : 16 ≤ n := by rw [← hn]; split <;> simp only [MEM_CHUNK] at * <;> omega
      rcases Nat.eq_zero_or_pos (sys ((n + NSIZE) % WORD)) with hc | hc
      · cases L with
        | nil =>
          have hh : st.head = 0 := hr
          rw [getmem_empty_fail st r fuel sys hh hr0 (by omega) (by rw [hn]; exact hc)] at hget
          have := Except.ok.inj hget
          have hp : p = 0 := (congrArg Prod.fst this).symm
          have hs : st2 = _ := (congrArg Prod.snd this).symm
          subst hp
          subst hs
          exact ⟨fun q _ => rfl, Or.inl ⟨rfl, hr, Or.inr ⟨_, rfl⟩⟩⟩
        | cons b rest =>
          rw [getmem_grow_fail st (b :: rest) r fuel sys hr hA.gaps hA.minSize hr0 (by simp) hno
            hfuel (by rw [hn]; exact hc)] at hget
          cases hget
      · have hok0 : ChunkOK st.sysLog ((n + NSIZE) % WORD) (sys ((n + NSIZE) % WORD)) := by
          rcases hsys ((n + NSIZE) % WORD) with h | h
          · omega
          · exact h
        have hm : (n + NSIZE) % WORD = n + NSIZE :=
          Nat.mod_eq_of_lt (by rw [← hn]; split <;> simp only [MEM_CHUNK, NSIZE] at * <;> omega)
        have hok : ChunkFit st.sysLog ((n + NSIZE) % WORD) (sys ((n + NSIZE) % WORD)) :=
          ⟨by rw [hm]; simp only [NSIZE]; omega, hok0.1, hok0.2⟩
        generalize hcdef : sys ((n + NSIZE) % WORD) = c at *
        rw [hm] at hok
        have hc0 : c ≠ 0 := by omega
        have hlim : c + NSIZE + n ≤ ADDR_LIMIT := by have := hok.2.1; omega
        have hcfr : ∀ q ∈ live, q - NSIZE < c ∨ c + NSIZE + n ≤ q - NSIZE := by
          intro q hq
          have := apart_fresh st.sysLog (blk st q) (n + NSIZE) c (hA.covLive q hq) hok
          rw [blk_fst] at this
          simp only [NSIZE] at *
          omega
        cases L with
        | nil =>
          have hh : st.head = 0 := hr
          obtain ⟨st3, g, a1, a2, a3, a4, a5, _, _, _, a9⟩ :=
            getmem_empty_ok st r fuel c n sys hh hr0 (by omega) hn.symm hcdef hc0 hlim
          rw [a2] at hget
          have := Except.ok.inj hget
          have hp : p = g.1 + NSIZE := (congrArg Prod.fst this).symm
          have hs : st2 = st3 := (congrArg Prod.snd this).symm
          subst hp; subst hs
          refine ⟨fun q hq => a5 _ (hcfr q hq),
            Or.inr ⟨[] ++ [(c, n)], g, Or.inr ⟨c, n, rfl, rfl, hc0, hno, a9⟩, a1, rfl, hr0, a3, a4⟩⟩
        | cons b rest =>
          have hfresh : ∀ y ∈ b :: rest, y.1 ≠ c := by
            intro y hy
            have := apart_fresh st.sysLog y (n + NSIZE) c (hA.covFree y hy) hok
            simp only [NSIZE] at *
            omega
          obtain ⟨hA1, hB1⟩ := getmem_grow st (b :: rest) r fuel c n sys hr hA.gaps hA.minSize
            hr0 (by simp) hno hfuel hn.symm hcdef hc0 hlim hfresh
          obtain ⟨hg2, hf2⟩ := hA1 p st2 hget
          obtain ⟨st3, g, a1, a2, a3, a4, a5, _, _, _, a9⟩ := hB1 hg2 hf2
          rw [a2] at hget
          have := Except.ok.inj hget
          have hp : p = g.1 + NSIZE := (congrArg Prod.fst this).symm
          have hs : st2 = st3 := (congrArg Prod.snd this).symm
          subst hp; subst hs
          refine ⟨?_, Or.inr ⟨(b :: rest) ++ [(c, n)], g, Or.inr ⟨c, n, rfl, rfl, hc0, hno, a9⟩,
            a1, rfl, hr0, a3, a4⟩⟩
          intro q hq
          apply a5
          intro y hy
          rcases List.mem_append.mp hy with h | h
          · exact apart_frame st q y (hA.freeApart q hq y h)
          · have hy2 : y = (c, n) := by simpa using h
            rw [hy2]
            exact hcfr q hq

theorem aligned_granted (s : Nat) (hs : s % 16 = 0) :
    ∀ (L : List (Nat × Nat)) (g : Nat × Nat), granted s L = some g →
      (∀ y ∈ L, AlignedBlk y) → AlignedBlk g := by
  intro L
  induction L with
  | nil => intro g h _; simp [granted] at h
  | cons y rest ih =>
    intro g h hall
    have hy := hall y (by simp)
    unfold granted at h
    by_cases hfit : s ≤ y.2
    · rw [if_pos hfit] at h
      have hg := (Option.some.inj h).symm
      subst hg
      refine ⟨hy.1, ?_⟩
      dsimp only
      split
      · exact hs
      · exact hy.2
    · rw [if_neg hfit] at h
      exact ih g h (fun z hz => hall z (by simp [hz]))

theorem aligned_carve (s : Nat) (hs : s % 16 = 0) :
    ∀ (L : List (Nat × Nat)), (∀ y ∈ L, AlignedBlk y) → ∀ z ∈ carve s L, AlignedBlk z := by
  intro L
  induction L with
  | nil => intro _ z hz; simp [carve] at hz
  | cons y rest ih =>
    intro hall z hz
    have hy := hall y (by simp)
    have hrest : ∀ w ∈ rest, AlignedBlk w := fun w hw => hall w (by simp [hw])
    unfold carve at hz
    by_cases hfit : s ≤ y.2
    · rw [if_pos hfit] at hz
      by_cases hsp : y.2 > s + SPLIT_CONSTANT
      · rw [if_pos hsp] at hz
        rcases List.mem_cons.mp hz with h | h
        · rw [h]
          unfold AlignedBlk at hy ⊢
          simp only [NSIZE, SPLIT_CONSTANT] at *
          constructor <;> omega
        · exact hrest z h
      · rw [if_neg hsp] at hz
        exact hrest z hz
    · rw [if_neg hfit] at hz
      rcases List.mem_cons.mp hz with h | h
      · rw [h]; exact hy
      · exact ih hrest z h

theorem aligned_merge (x y : Nat × Nat) (hx : AlignedBlk x) (hy : AlignedBlk y)
    (_ : x.1 + NSIZE + x.2 = y.1) : AlignedBlk (x.1, x.2 + NSIZE + y.2) := by
  unfold AlignedBlk at *
  simp only [NSIZE] at *
  constructor <;> omega

/-- A call of `freemem` on an allocated pointer leaves the headers of the
other allocated blocks as they are. -/
theorem release_step (st st2 : State) (live : List Nat) (L : List (Nat × Nat)) (fuel p : Nat)
    (hr : Repr st.mem st.head L) (hA : Abs st live L) (hp : p ∈ live)
    (hfree : freemem fuel p st = .ok st2) :
    ∀ q ∈ live.erase p, q ∈ live ∧ (st2.mem (q - NSIZE)).size = (st.mem (q - NSIZE)).size := by
  have hLim := ADDR_LIMIT_eq
  have hppos := hA.livePos p hp
  have hplim := hA.liveLim p hp
  have hpe : p - NSIZE + NSIZE = p := Nat.sub_add_cancel (by omega)
  have hchk := freemem_ok_check fuel p st st2 (by omega) hfree
  have hfuel := check_heap_loop_fuel st.mem L st.head fuel hr hchk
  rw [blk_snd] at hplim
  obtain ⟨st3, _, e2, _, _, _, _, _, e8⟩ :=
    freemem_run st L (p - NSIZE) (st.mem (p - NSIZE)).size fuel hr hA.gaps hA.minSize
      (by simp only [NSIZE] at *; omega) rfl (by simp only [NSIZE] at *; omega)
      (hA.freeApart p hp) hfuel
  rw [hpe] at e8
  obtain ⟨h1, _⟩ := e8 st2 hfree
  subst h1
  have hsym : Symmetric (fun p q => Apart (blk st p) (blk st q)) :=
    fun _ _ h => apart_symm _ _ h
  have hnodup : live.Nodup := hA.liveApart.imp (fun {a b} h hab => by
    subst hab; exact apart_irrefl _ h)
  intro q hq
  obtain ⟨hne, hql⟩ := (hnodup.mem_erase_iff).1 hq
  have h1 : Apart (blk st q) (blk st p) := hA.liveApart.forall hsym hql hp hne
  refine ⟨hql, ?_⟩
  rw [e2 (q - NSIZE) (apart_ne _ _ h1) (fun y hy => apart_ne _ _ (hA.freeApart q hql y hy))]

/-- When every chunk handed out by `malloc` starts at a multiple of 16, the
addresses and sizes of all free nodes and of all allocated blocks of a
state of `ReachSafe` are multiples of 16. -/
theorem reach_aligned (st : State) (live : List Nat) (h : ReachSafe st live) :
    (∀ e ∈ st.sysLog, e.2 % 16 = 0) →
    ∃ L, Repr st.mem st.head L ∧ Abs st live L ∧ (∀ y ∈ L, AlignedBlk y) ∧
      (∀ q ∈ live, AlignedBlk (blk st q)) := by
  induction h with
  | init =>
    intro _
    exact ⟨[], rfl, abs_init, fun y hy => (by cases hy), fun q hq => (by cases hq)⟩
  | acquire st live fuel sys r p st2 _ hrw hnw hsys hget ih =>
    intro hlog
    have hmono : ∀ L0, Repr st.mem st.head L0 → Abs st live L0 →
        ∀ e ∈ st.sysLog, e ∈ st2.sysLog := by
      intro L0 hr0 hA0 e he
      obtain ⟨_, hcase⟩ := acquire_step st st2 live L0 fuel r p sys hr0 hA0 hrw hnw hsys hget
      rcases hcase with ⟨_, _, h | ⟨m, h⟩⟩ | ⟨M, g, h | ⟨c, n, _, _, _, _, h⟩, _⟩
      · rw [h]; exact he
      · rw [h]; exact List.mem_cons_of_mem _ he
      · rw [h.2]; exact he
      · rw [h]; exact List.mem_cons_of_mem _ he
    obtain ⟨L0, hr0, hA0⟩ := reach_inv st live (by assumption)
    obtain ⟨L, hr, hA, hLal, hlal⟩ := ih (fun e he => hlog e (hmono L0 hr0 hA0 e he))
    obtain ⟨hfr, hcase⟩ := acquire_step st st2 live L fuel r p sys hr hA hrw hnw hsys hget
    obtain ⟨L2, hr2, hA2⟩ := inv_acquire st st2 live L fuel r p sys hr hA hrw hnw hsys hget
    have hold : ∀ q ∈ live, AlignedBlk (blk st2 q) := by
      intro q hq
      rw [blk_congr st st2 q (hfr q hq)]
      exact hlal q hq
    rcases hcase with ⟨hp0, hr3, _⟩ | ⟨M, g, hM, hgr, hp, _, hr3, hsz⟩
    · have hL2 : L = L2 := repr_unique st2.mem L L2 st2.head hr3 hr2
      subst hL2
      refine ⟨L, hr2, hA2, hLal, ?_⟩
      rw [if_pos hp0]
      exact hold
    · have hL2 : carve (align r) M = L2 := repr_unique st2.mem _ L2 st2.head hr3 hr2
      subst hL2
      have hMal : ∀ y ∈ M, AlignedBlk y := by
        rcases hM with ⟨h, _⟩ | ⟨c, n, h, hn, _, _, hlg⟩
        · rw [h]; exact hLal
        · rw [h]
          intro y hy
          rcases List.mem_append.mp hy with h1 | h1
          · exact hLal y h1
          · have hy2 : y = (c, n) := by simpa using h1
            rw [hy2]
            have hc16 : c % 16 = 0 := hlog (n + NSIZE, c) (by rw [hlg]; simp)
            refine ⟨hc16, ?_⟩
            have ha := align_mod r
            rw [hn]
            dsimp only
            split
            · exact ha
            · simp [MEM_CHUNK]
      have hgal := aligned_granted (align r) (align_mod r) M g hgr hMal
      have hp0 : p ≠ 0 := by rw [hp]; simp only [NSIZE]; omega
      rw [if_neg hp0] at hA2 ⊢
      refine ⟨_, hr2, hA2, aligned_carve (align r) (align_mod r) M hMal, ?_⟩
      intro q hq
      rcases List.mem_cons.mp hq with h | h
      · have hb : blk st2 q = g := by
          rw [h, hp]
          unfold blk
          rw [Nat.add_sub_cancel, hsz]
        rw [hb]
        exact hgal
      · exact hold q h
  | release st live fuel p st2 _ hp hfree ih =>
    intro hlog
    obtain ⟨L0, hr0, hA0⟩ := reach_inv st live (by assumption)
    have hlogeq : st2.sysLog = st.sysLog := by
      have hLim := ADDR_LIMIT_eq
      have hppos := hA0.livePos p hp
      have hplim := hA0.liveLim p hp
      have hpe : p - NSIZE + NSIZE = p := Nat.sub_add_cancel (by omega)
      have hchk := freemem_ok_check fuel p st st2 (by omega) hfree
      have hfuel := check_heap_loop_fuel st.mem L0 st.head fuel hr0 hchk
      rw [blk_snd] at hplim
      obtain ⟨st3, _, _, _, _, _, e6, _, e8⟩ :=
        freemem_run st L0 (p - NSIZE) (st.mem (p - NSIZE)).size fuel hr0 hA0.gaps hA0.minSize
          (by simp only [NSIZE] at *; omega) rfl (by simp only [NSIZE] at *; omega)
          (hA0.freeApart p hp) hfuel
      rw [hpe] at e8
      obtain ⟨h1, _⟩ := e8 st2 hfree
      subst h1
      exact e6
    obtain ⟨L, hr, hA, hLal, hlal⟩ := ih (fun e he => hlog e (by rw [hlogeq]; exact he))
    obtain ⟨hr2, hA2⟩ := inv_release st st2 live L fuel p hr hA hp hfree
    have hst := release_step st st2 live L fuel p hr hA hp hfree
    refine ⟨_, hr2, hA2, ?_, ?_⟩
    · exact coalesce_closed AlignedBlk aligned_merge (blk st p) (hlal p hp) L hLal
    · intro q hq
      obtain ⟨hql, hsz⟩ := hst q hq
      rw [blk_congr st st2 q hsz]
      exact hlal q hql
  | releaseNull st live fuel st2 _ hfree ih =>
    intro hlog
    rw [freemem_null] at hfree
    have := Except.ok.inj hfree
    subst this
    exact ih hlog

/-- Summary of `reach_aligned`: with chunks at multiples of 16, every free
node of a state of `ReachSafe` has an address and a size that are multiples of 16,
the size being at least 16, and every allocated pointer and the size recorded
for its block are multiples of 16. -/
theorem reach_aligned_summary (st : State) (live : List Nat) (h : ReachSafe st live)
    (hlog : ∀ e ∈ st.sysLog, e.2 % 16 = 0) :
    ∃ L, FreeList st L ∧ (∀ y ∈ L, y.1 % 16 = 0 ∧ y.2 % 16 = 0 ∧ 16 ≤ y.2) ∧
      (∀ p ∈ live, p % 16 = 0 ∧ (blk st p).2 % 16 = 0) := by
  obtain ⟨L, hr, hA, hLal, hlal⟩ := reach_aligned st live h hlog
  refine ⟨L, hr, fun y hy => ⟨(hLal y hy).1, (hLal y hy).2, hA.minSize y hy⟩, ?_⟩
  intro p hp
  have h1 := (hlal p hp).1
  have h2 := hA.livePos p hp
  rw [blk_fst] at h1
  refine ⟨?_, (hlal p hp).2⟩
  simp only [NSIZE] at *
  omega

/-- The size recorded for a block that `getmem` returns on a state of
`ReachSafe`, the chunk size not wrapping around, is at least `align r` and exceeds it by at most `SPLIT_CONSTANT`; for
requests up to `2^64 - 16` it is at least the request. -/
theorem acquire_block_size (st st2 : State) (live : List Nat) (fuel r p : Nat)
    (sys : Nat → Nat) (h : ReachSafe st live) (hrw : r < WORD)
    (hnw : align r + NSIZE < WORD) (hsys : SysOK st.sysLog sys)
    (hget : getmem fuel sys r st = .ok (p, st2)) (hp : p ≠ 0) :
    align r ≤ (blk st2 p).2 ∧ (blk st2 p).2 ≤ align r + SPLIT_CONSTANT ∧
      (r ≤ WORD - 16 → r ≤ (blk st2 p).2) := by
  obtain ⟨L, hr, hA⟩ := reach_inv st live h
  obtain ⟨_, hcase⟩ := acquire_step st st2 live L fuel r p sys hr hA hrw hnw hsys hget
  rcases hcase with ⟨hp0, _⟩ | ⟨M, g, _, hgr, hpg, hr0, _, hsz⟩
  · exact absurd hp0 hp
  · obtain ⟨y, _, _, _, g3, g4⟩ := granted_mem (align r) M g hgr
    have hb : (blk st2 p).2 = g.2 := by
      rw [hpg]
      unfold blk
      rw [Nat.add_sub_cancel, hsz]
    rw [hb]
    refine ⟨g3, g4, fun h16 => ?_⟩
    have := (align_spec r hr0 h16).1
    omega

/-- On a state of `ReachSafe` whose free list has no node of size `align r`,
a call of `getmem` whose chunk size does not wrap around and that returns a
block has obtained exactly one chunk, of
`max (align r) MEM_CHUNK + NSIZE` bytes, and has raised `totalSize` by that
amount; when `align r > MEM_CHUNK` the block is the whole chunk and the free
list is as before. -/
theorem acquire_growth (st st2 : State) (live : List Nat) (L : List (Nat × Nat))
    (fuel r p : Nat) (sys : Nat → Nat) (h : ReachSafe st live) (hL : FreeList st L)
    (hrw : r < WORD) (hnw : align r + NSIZE < WORD) (hsys : SysOK st.sysLog sys)
    (hno : ∀ y ∈ L, y.2 < align r)
    (hget : getmem fuel sys r st = .ok (p, st2)) (hp : p ≠ 0) :
    ∃ c, c ≠ 0 ∧
      st2.sysLog = ((if align r > MEM_CHUNK then align r else MEM_CHUNK) + NSIZE, c) :: st.sysLog ∧
      st2.totalSize = st.totalSize + ((if align r > MEM_CHUNK then align r else MEM_CHUNK) + NSIZE) ∧
      (align r > MEM_CHUNK → p = c + NSIZE ∧ (blk st2 p).2 = align r ∧ FreeList st2 L) := by
  obtain ⟨L0, hr, hA⟩ := reach_inv st live h
  have hLL : L0 = L := repr_unique st.mem L0 L st.head hr hL
  subst hLL
  obtain ⟨_, hcase⟩ := acquire_step st st2 live L0 fuel r p sys hr hA hrw hnw hsys hget
  obtain ⟨L2, _, hA2⟩ := inv_acquire st st2 live L0 fuel r p sys hr hA hrw hnw hsys hget
  rcases hcase with ⟨hp0, _⟩ | ⟨M, g, hM, hgr, hpg, _, hr3, hsz⟩
  · exact absurd hp0 hp
  · rcases hM with ⟨hM, _⟩ | ⟨c, n, hM, hn, hc0, _, hlog⟩
    · exfalso
      rw [hM] at hgr
      obtain ⟨y, hy, _, g2, g3, _⟩ := granted_mem (align r) L0 g hgr
      have := hno y hy
      omega
    · have hcs : ∀ m, chunkSum ((m, c) :: st.sysLog) = m + chunkSum st.sysLog := by
        intro m
        show (if (m, c).2 = 0 then 0 else (m, c).1) + chunkSum st.sysLog = _
        rw [if_neg hc0]
      subst hn
      refine ⟨c, hc0, hlog, ?_, ?_⟩
      · rw [hA2.tsLog, hA.tsLog, hlog, hcs]
        omega
      · intro hbig
        have hn2 : (if align r > MEM_CHUNK then align r else MEM_CHUNK) = align r := if_pos hbig
        rw [hn2] at hM
        obtain ⟨c1, c2⟩ := first_fit_at (align r) (c, align r) [] (Nat.le_refl _) L0 hno
        rw [hM] at hgr hr3
        rw [c2] at hgr
        rw [c1] at hr3
        have hnot : ¬ align r > align r + SPLIT_CONSTANT := by omega
        dsimp only at hgr hr3
        rw [if_neg hnot] at hgr hr3
        rw [List.append_nil] at hr3
        have hg : g = (c, align r) := (Option.some.inj hgr).symm
        subst hg
        refine ⟨hpg, ?_, hr3⟩
        rw [hpg]
        unfold blk
        dsimp only
        rw [Nat.add_sub_cancel, hsz]

theorem freeByte_nil (x : Nat) : ¬ FreeByte [] x := by
  rintro ⟨y, hy, _⟩
  cases hy

theorem freeByte_cons (y : Nat × Nat) (rest : List (Nat × Nat)) (x : Nat) :
    FreeByte (y :: rest) x ↔ (y.1 ≤ x ∧ x < y.1 + NSIZE + y.2) ∨ FreeByte rest x := by
  unfold FreeByte
  constructor
  · rintro ⟨z, hz, h⟩
    rcases List.mem_cons.mp hz with h1 | h1
    · left; rw [← h1]; exact h
    · right; exact ⟨z, h1, h⟩
  · rintro (h | ⟨z, hz, h⟩)
    · exact ⟨y, List.mem_cons_self _ _, h⟩
    · exact ⟨z, List.mem_cons_of_mem _ hz, h⟩

theorem freeByte_pushMerge (a : Nat × Nat) (post : List (Nat × Nat)) (x : Nat) :
    FreeByte (pushMerge a post) x ↔ (a.1 ≤ x ∧ x < a.1 + NSIZE + a.2) ∨ FreeByte post x := by
  cases post with
  | nil =>
    show FreeByte [a] x ↔ _
    rw [freeByte_cons]
  | cons y rest =>
    by_cases ht : a.1 + NSIZE + a.2 = y.1
    · rw [pushMerge_touch a y rest ht, freeByte_cons, freeByte_cons]
      dsimp only
      constructor
      · rintro (h | h)
        · by_cases hx : x < y.1
          · left; omega
          · right; left; omega
        · right; right; exact h
      · rintro (h | h | h)
        · left; omega
        · left; omega
        · right; exact h
    · rw [pushMerge_apart a y rest ht, freeByte_cons]

theorem freeByte_coalesce (a : Nat × Nat) (x : Nat) :
    ∀ (L : List (Nat × Nat)),
      FreeByte (coalesce a L) x ↔ (a.1 ≤ x ∧ x < a.1 + NSIZE + a.2) ∨ FreeByte L x := by
  intro L
  induction L with
  | nil =>
    show FreeByte [a] x ↔ _
    rw [freeByte_cons]
  | cons y rest ih =>
    rw [coalesce_cons]
    by_cases h1 : a.1 < y.1
    · rw [if_pos h1, freeByte_pushMerge]
    · rw [if_neg h1]
      by_cases h2 : y.1 + NSIZE + y.2 = a.1
      · rw [if_pos h2, freeByte_pushMerge, freeByte_cons]
        dsimp only
        constructor
        · rintro (h | h)
          · by_cases hx : x < a.1
            · right; left; omega
            · left; omega
          · right; right; exact h
        · rintro (h | h | h)
          · left; omega
          · left; omega
          · right; exact h
      · rw [if_neg h2, freeByte_cons, ih, freeByte_cons]
        constructor
        · rintro (h | h | h)
          · right; left; exact h
          · left; exact h
          · right; right; exact h
        · rintro (h | h | h)
          · right; left; exact h
          · left; exact h
          · right; right; exact h

theorem freeByte_above : ∀ (L : List (Nat × Nat)) (lo x : Nat), Gaps lo L → FreeByte L x →
    lo < x := by
  intro L lo x hg ⟨y, hy, h⟩
  have := (gaps_mem L lo hg y hy).1
  omega

/-- Two address-ordered lists of nodes that do not touch and cover the same
bytes are the same list. -/
theorem gaps_canonical : ∀ (L L2 : List (Nat × Nat)) (lo lo2 : Nat), Gaps lo L → Gaps lo2 L2 →
    (∀ x, FreeByte L x ↔ FreeByte L2 x) → L = L2 := by
  intro L
  induction L with
  | nil =>
    intro L2 lo lo2 _ _ h
    cases L2 with
    | nil => rfl
    | cons y r =>
      exfalso
      have : FreeByte (y :: r) y.1 :=
        (freeByte_cons y r y.1).mpr (Or.inl ⟨Nat.le_refl _, by simp only [NSIZE]; omega⟩)
      exact freeByte_nil _ ((h y.1).mpr this)
  | cons y r ih =>
    intro L2 lo lo2 hg hg2 h
    cases L2 with
    | nil =>
      exfalso
      have : FreeByte (y :: r) y.1 :=
        (freeByte_cons y r y.1).mpr (Or.inl ⟨Nat.le_refl _, by simp only [NSIZE]; omega⟩)
      exact freeByte_nil _ ((h y.1).mp this)
    | cons z r2 =>
      have hy0 : FreeByte (y :: r) y.1 :=
        (freeByte_cons y r y.1).mpr (Or.inl ⟨Nat.le_refl _, by simp only [NSIZE]; omega⟩)
      have hz0 : FreeByte (z :: r2) z.1 :=
        (freeByte_cons z r2 z.1).mpr (Or.inl ⟨Nat.le_refl _, by simp only [NSIZE]; omega⟩)
      have hlow : ∀ x, FreeByte (y :: r) x → y.1 ≤ x := by
        intro x hx
        rcases (freeByte_cons y r x).mp hx with h1 | h1
        · exact h1.1
        · have := freeByte_above r _ x hg.2.2 h1
          omega
      have hlow2 : ∀ x, FreeByte (z :: r2) x → z.1 ≤ x := by
        intro x hx
        rcases (freeByte_cons z r2 x).mp hx with h1 | h1
        · exact h1.1
        · have := freeByte_above r2 _ x hg2.2.2 h1
          omega
      have h1 : y.1 = z.1 := by
        have a1 := hlow z.1 ((h z.1).mpr hz0)
        have a2 := hlow2 y.1 ((h y.1).mp hy0)
        omega
      have hend : ¬ FreeByte (y :: r) (y.1 + NSIZE + y.2) := by
        intro hx
        rcases (freeByte_cons y r _).mp hx with h1 | h1
        · omega
        · have := freeByte_above r _ _ hg.2.2 h1
          omega
      have hend2 : ¬ FreeByte (z :: r2) (z.1 + NSIZE + z.2) := by
        intro hx
        rcases (freeByte_cons z r2 _).mp hx with h1 | h1
        · omega
        · have := freeByte_above r2 _ _ hg2.2.2 h1
          omega
      have h2 : y.2 = z.2 := by
        rcases Nat.lt_trichotomy y.2 z.2 with hlt | heq | hgt
        · exfalso
          apply hend
          apply (h _).mpr
          exact (freeByte_cons z r2 _).mpr (Or.inl ⟨by omega, by omega⟩)
        · exact heq
        · exfalso
          apply hend2
          apply (h _).mp
          exact (freeByte_cons y r _).mpr (Or.inl ⟨by omega, by omega⟩)
      have hyz : y = z := Prod.ext h1 h2
      subst hyz
      have hrest : ∀ x, FreeByte r x ↔ FreeByte r2 x := by
        intro x
        constructor
        · intro hx
          have hab := freeByte_above r _ x hg.2.2 hx
          rcases (freeByte_cons y r2 x).mp ((h x).mp ((freeByte_cons y r x).mpr (Or.inr hx)))
            with h3 | h3
          · omega
          · exact h3
        · intro hx
          have hab := freeByte_above r2 _ x hg2.2.2 hx
          rcases (freeByte_cons y r x).mp ((h x).mpr ((freeByte_cons y r2 x).mpr (Or.inr hx)))
            with h3 | h3
          · omega
          · exact h3
      rw [ih r2 _ _ hg.2.2 hg2.2.2 hrest]

/-- Releasing two blocks into a valid free list gives the same list in either
order. -/
theorem coalesce_comm (a b : Nat × Nat) (L : List (Nat × Nat)) (hg : Gaps 0 L)
    (ha : 0 < a.1) (hb : 0 < b.1) (hla : a.1 + NSIZE + a.2 ≤ ADDR_LIMIT)
    (hlb : b.1 + NSIZE + b.2 ≤ ADDR_LIMIT) (hab : Apart a b)
    (haL : ∀ y ∈ L, Apart a y) (hbL : ∀ y ∈ L, Apart b y) :
    coalesce b (coalesce a L) = coalesce a (coalesce b L) := by
  have g1 := gaps_coalesce a L 0 hg ha hla haL
  have g2 := gaps_coalesce b L 0 hg hb hlb hbL
  have hb1 : ∀ z ∈ coalesce a L, Apart b z :=
    coalesce_closed (Apart b) (fun x y => apart_merge b x y) a (apart_symm _ _ hab) L hbL
  have ha2 : ∀ z ∈ coalesce b L, Apart a z :=
    coalesce_closed (Apart a) (fun x y => apart_merge a x y) b hab L haL
  have g3 := gaps_coalesce b (coalesce a L) 0 g1 hb hlb hb1
  have g4 := gaps_coalesce a (coalesce b L) 0 g2 ha hla ha2
  apply gaps_canonical _ _ 0 0 g3 g4
  intro x
  rw [freeByte_coalesce, freeByte_coalesce, freeByte_coalesce, freeByte_coalesce]
  constructor
  · rintro (h | h | h)
    · right; left; exact h
    · left; exact h
    · right; right; exact h
  · rintro (h | h | h)
    · right; left; exact h
    · left; exact h
    · right; right; exact h

theorem freeBlocks_twice (fb k1 k2 : Nat) :
    ((fb + 1 + k1 * (WORD - 1)) % WORD + 1 + k2 * (WORD - 1)) % WORD =
      (fb + 2 + (k1 + k2) * (WORD - 1)) % WORD := by
  rw [Nat.add_assoc ((fb + 1 + k1 * (WORD - 1)) % WORD), Nat.mod_add_mod]
  have h : fb + 1 + k1 * (WORD - 1) + (1 + k2 * (WORD - 1)) =
      fb + 2 + (k1 + k2) * (WORD - 1) := by ring
  rw [h]

/-- Release of block `(a, ta)` and then of block `(b, tb)`, two blocks of a
valid state: both calls return, and the free list and the counters are
given by the two blocks and the state before. -/
theorem release_two (st : State) (L : List (Nat × Nat)) (a ta b tb fuel : Nat)
    (hr : Repr st.mem st.head L) (hg : Gaps 0 L) (hms : MinSize L) (ha : 0 < a) (hb : 0 < b)
    (hta : (st.mem a).size = ta) (htb : (st.mem b).size = tb) (h16a : 16 ≤ ta)
    (h16b : 16 ≤ tb) (hla : a + NSIZE + ta ≤ ADDR_LIMIT) (hlb : b + NSIZE + tb ≤ ADDR_LIMIT)
    (hab : Apart (a, ta) (b, tb)) (haL : ∀ y ∈ L, Apart (a, ta) y)
    (hbL : ∀ y ∈ L, Apart (b, tb) y) (hf : L.length + 2 < fuel) :
    ∃ s1 s2, freemem fuel (a + NSIZE) st = .ok s1 ∧ freemem fuel (b + NSIZE) s1 = .ok s2 ∧
      Repr s2.mem s2.head (coalesce (b, tb) (coalesce (a, ta) L)) ∧
      s2.totalFree = (st.totalFree + (ta + NSIZE) + (tb + NSIZE)) % WORD ∧
      s2.freeBlocks = (st.freeBlocks + 2 +
        (L.length + 2 - (coalesce (b, tb) (coalesce (a, ta) L)).length) * (WORD - 1)) % WORD ∧
      s2.totalSize = st.totalSize ∧ s2.sysLog = st.sysLog := by
  have hW := WORD_eq
  obtain ⟨s1, b1, b2, b3, b4, b5, b6, b7, _⟩ :=
    freemem_run st L a ta fuel hr hg hms ha hta hla haL (by omega)
  have hg1 := gaps_coalesce (a, ta) L 0 hg ha hla haL
  have hm1 := minSize_coalesce (a, ta) h16a L hms
  have hl1 := coalesce_length (a, ta) L
  have hfree1 := b7 hm1 (by omega)
  have htb1 : (s1.mem b).size = tb := by
    rw [b2 b (Ne.symm (apart_ne _ _ hab)) (fun y hy => apart_ne _ _ (hbL y hy))]
    exact htb
  have hb1 : ∀ z ∈ coalesce (a, ta) L, Apart (b, tb) z :=
    coalesce_closed (Apart (b, tb)) (fun x y => apart_merge (b, tb) x y) (a, ta)
      (apart_symm _ _ hab) L hbL
  obtain ⟨s2, c1, _, c3, c4, c5, c6, c7, _⟩ :=
    freemem_run s1 (coalesce (a, ta) L) b tb fuel b1 hg1 hm1 hb htb1 hlb hb1 (by omega)
  have hm2 := minSize_coalesce (b, tb) h16b _ hm1
  have hl2 := coalesce_length (b, tb) (coalesce (a, ta) L)
  refine ⟨s1, s2, hfree1, c7 hm2 (by omega), c1, ?_, ?_, c5.trans b5, c6.trans b6⟩
  · rw [c3, b3]
    unfold wadd
    rw [Nat.mod_add_mod]
  · have hk : L.length + 1 - (coalesce (a, ta) L).length +
        ((coalesce (a, ta) L).length + 1 - (coalesce (b, tb) (coalesce (a, ta) L)).length) =
        L.length + 2 - (coalesce (b, tb) (coalesce (a, ta) L)).length := by omega
    rw [c4, b4, freeBlocks_twice, hk]

/-- Two allocated blocks of recorded size at least 16 are released in either
order.  All four calls return, and both orders end with the same free list, head,
`totalSize`, `totalFree` and `freeBlocks`.  That free list is address ordered
with no two nodes touching, and its bytes are the bytes of the two blocks and
of the free list before. -/
theorem release_order_independent (st : State) (L : List (Nat × Nat))
    (a ta b tb fuel : Nat) (hr : FreeList st L) (hv : ValidList L) (ha : 0 < a) (hb : 0 < b)
    (hta : (st.mem a).size = ta) (htb : (st.mem b).size = tb) (h16a : 16 ≤ ta)
    (h16b : 16 ≤ tb) (hla : a + NSIZE + ta ≤ ADDR_LIMIT) (hlb : b + NSIZE + tb ≤ ADDR_LIMIT)
    (hab : Apart (a, ta) (b, tb)) (haL : ∀ y ∈ L, Apart (a, ta) y)
    (hbL : ∀ y ∈ L, Apart (b, tb) y) (hf : L.length + 2 < fuel) :
    ∃ s1 s2 t1 t2, freemem fuel (a + NSIZE) st = .ok s1 ∧
      freemem fuel (b + NSIZE) s1 = .ok s2 ∧ freemem fuel (b + NSIZE) st = .ok t1 ∧
      freemem fuel (a + NSIZE) t1 = .ok t2 ∧
      FreeList s2 (coalesce (b, tb) (coalesce (a, ta) L)) ∧
      FreeList t2 (coalesce (b, tb) (coalesce (a, ta) L)) ∧
      ValidList (coalesce (b, tb) (coalesce (a, ta) L)) ∧
      s2.head = t2.head ∧ s2.totalSize = t2.totalSize ∧ s2.totalFree = t2.totalFree ∧
      s2.freeBlocks = t2.freeBlocks ∧
      (∀ x, FreeByte (coalesce (b, tb) (coalesce (a, ta) L)) x ↔
        (b ≤ x ∧ x < b + NSIZE + tb) ∨ (a ≤ x ∧ x < a + NSIZE + ta) ∨ FreeByte L x) := by
  obtain ⟨s1, s2, e1, e2, e3, e4, e5, e6, _⟩ :=
    release_two st L a ta b tb fuel hr hv.1 hv.2 ha hb hta htb h16a h16b hla hlb hab haL hbL hf
  obtain ⟨t1, t2, f1, f2, f3, f4, f5, f6, _⟩ :=
    release_two st L b tb a ta fuel hr hv.1 hv.2 hb ha htb hta h16b h16a hlb hla
      (apart_symm _ _ hab) hbL haL hf
  have hcomm := coalesce_comm (a, ta) (b, tb) L hv.1 ha hb hla hlb hab haL hbL
  rw [← hcomm] at f3 f5
  have hb1 : ∀ z ∈ coalesce (a, ta) L, Apart (b, tb) z :=
    coalesce_closed (Apart (b, tb)) (fun x y => apart_merge (b, tb) x y) (a, ta)
      (apart_symm _ _ hab) L hbL
  have hvF : ValidList (coalesce (b, tb) (coalesce (a, ta) L)) :=
    ⟨gaps_coalesce (b, tb) _ 0 (gaps_coalesce (a, ta) L 0 hv.1 ha hla haL) hb hlb hb1,
      minSize_coalesce (b, tb) h16b _ (minSize_coalesce (a, ta) h16a L hv.2)⟩
  refine ⟨s1, s2, t1, t2, e1, e2, f1, f2, e3, f3, hvF, repr_head_eq _ _ _ _ _ e3 f3,
    e6.trans f6.symm, ?_, e5.trans f5.symm, ?_⟩
  · rw [e4, f4]
    have : st.totalFree + (ta + NSIZE) + (tb + NSIZE) =
        st.totalFree + (tb + NSIZE) + (ta + NSIZE) := by omega
    rw [this]
  · intro x
    rw [freeByte_coalesce, freeByte_coalesce]

theorem release_order_independent_witness :
    ∃ s1 s2 t1 t2, freemem 8 4112 afterThree = .ok s1 ∧ freemem 8 4368 s1 = .ok s2 ∧
      freemem 8 4368 afterThree = .ok t1 ∧ freemem 8 4112 t1 = .ok t2 ∧
      FreeList s2 [(4096, 112), (4352, 7744)] ∧ FreeList t2 [(4096, 112), (4352, 7744)] ∧
      ValidList [(4096, 112), (4352, 7744)] ∧ s2.head = t2.head ∧
      s2.totalSize = t2.totalSize ∧ s2.totalFree = t2.totalFree ∧
      s2.freeBlocks = t2.freeBlocks := by
  obtain ⟨s1, s2, t1, t2, h1, h2, h3, h4, h5, h6, h7, h8, h9, h10, h11, _⟩ :=
    release_order_independent afterThree [(4480, 7616)] 4096 112 4352 112 8 (by decide)
      (by decide) (by decide) (by decide) (by decide) (by decide) (by decide) (by decide)
      (by decide) (by decide) (by decide) (by decide) (by decide) (by decide)
  exact ⟨s1, s2, t1, t2, h1, h2, h3, h4, h5, h6, h7, h8, h9, h10, h11⟩

/-- The hypothesis `16 ≤ ta` of the order independence is needed: with the
block of recorded size 0 that `getmem(2^64 - 1)` hands out, followed by a
block from `getmem(100)`, releasing the second and then the first returns,
while releasing the first one first fails the assertion `size >= 16` of
`check_heap`. -/
theorem zero_size_release_order :
    ∃ st1 st2, getmem 8 (sysAt 8016 4096) (2 ^ 64 - 1) State.init = .ok (4112, st1) ∧
      getmem 8 sysFail 100 st1 = .ok (4128, st2) ∧
      freemem 8 4112 st2 = .error .assertFailed ∧
      ∃ s1 s2, freemem 8 4128 st2 = .ok s1 ∧ freemem 8 4112 s1 = .ok s2 ∧
        FreeList s2 [(4096, 8000)] := by
  refine ⟨stateOf (getmem 8 (sysAt 8016 4096) (2 ^ 64 - 1) State.init),
    stateOf (getmem 8 sysFail 100
      (stateOf (getmem 8 (sysAt 8016 4096) (2 ^ 64 - 1) State.init))), ?_, ?_, ?_,
    releasedState (freemem 8 4128 (stateOf (getmem 8 sysFail 100
      (stateOf (getmem 8 (sysAt 8016 4096) (2 ^ 64 - 1) State.init))))),
    releasedState (freemem 8 4112 (releasedState (freemem 8 4128 (stateOf (getmem 8 sysFail 100
      (stateOf (getmem 8 (sysAt 8016 4096) (2 ^ 64 - 1) State.init))))))), ?_, ?_, ?_⟩
  · rfl
  · rfl
  · rfl
  · rfl
  · rfl
  · decide

theorem reach_overlapState : Reach overlapState [4112, 100144] := by
  have h1 : Reach (stateOf (getmem 8 (sysAt 8016 100000) 100 State.init)) [100016] :=
    Reach.acquire State.init [] 8 (sysAt 8016 100000) 100 100016 _ Reach.init (by decide)
      (sysOK_at [] 8016 100000 ⟨by decide, by intro e he; cases he⟩) rfl
  have h2 : Reach (stateOf (getmem 8 sysFail 7872
      (stateOf (getmem 8 (sysAt 8016 100000) 100 State.init)))) [100144, 100016] :=
    Reach.acquire _ [100016] 8 sysFail 7872 100144 _ h1 (by decide) (sysOK_fail _) rfl
  have hsys : SysOK (stateOf (getmem 8 sysFail 7872
      (stateOf (getmem 8 (sysAt 8016 100000) 100 State.init)))).sysLog (sysAt 0 4096) := by
    apply sysOK_at
    refine ⟨by decide, ?_⟩
    intro e he _
    have he2 : e = (8016, 100000) := by
      have : e ∈ [((8016 : Nat), (100000 : Nat))] := he
      simpa using this
    subst he2
    left
    decide
  have h3 : Reach (stateOf (getmem 8 (sysAt 0 4096) (2 ^ 64 - 16)
      (stateOf (getmem 8 sysFail 7872
        (stateOf (getmem 8 (sysAt 8016 100000) 100 State.init))))))
      [4112, 100144, 100016] :=
    Reach.acquire _ [100144, 100016] 8 (sysAt 0 4096) (2 ^ 64 - 16) 4112 _ h2 (by decide) hsys
      (by rfl)
  exact Reach.release _ [4112, 100144, 100016] 8 100016 _ h3 (by decide) rfl

/-- C17, as stated, fails: the reachable state `overlapState` has the free
list `[(4096, 2^64 - 16), (100000, 112)]`, whose first node does not end below
the second and overlaps it, and `check_heap` returns normally on it, because
the sum `4096 + 16 + (2^64 - 16)` of its assertion wraps around to 4096. -/
theorem c17_check_heap_accepts_overlap :
    Reach overlapState [4112, 100144] ∧
      FreeList overlapState [(4096, 2 ^ 64 - 16), (100000, 112)] ∧
      check_heap 8 overlapState = .ok () ∧
      ¬ Before (4096, 2 ^ 64 - 16) (100000, 112) ∧
      ¬ Apart (4096, 2 ^ 64 - 16) (100000, 112) :=
  ⟨reach_overlapState, by decide, by rfl, by decide, by decide⟩

theorem reach_zero_pair (c : Nat) (hlim : c + 8016 ≤ ADDR_LIMIT) (r2 p1 p2 : Nat)
    (st1 st2 : State) (hr2 : r2 < WORD)
    (h1 : getmem 8 (sysAt 8016 c) (2 ^ 64 - 1) State.init = .ok (p1, st1))
    (h2 : getmem 8 sysFail r2 st1 = .ok (p2, st2)) (hp1 : p1 ≠ 0) (hp2 : p2 ≠ 0) :
    Reach st2 [p2, p1] := by
  have a1 := Reach.acquire State.init [] 8 (sysAt 8016 c) (2 ^ 64 - 1) p1 st1 Reach.init
    (by decide) (sysOK_at [] 8016 c ⟨hlim, by intro e he; cases he⟩) h1
  rw [if_neg hp1] at a1
  have a2 := Reach.acquire st1 [p1] 8 sysFail r2 p2 st2 a1 hr2 (sysOK_fail _) h2
  rw [if_neg hp2] at a2
  exact a2

/-- C5: after `getmem(2^64 - 1)` and `getmem(7984)` on the empty allocator the
free list is empty and the two allocated blocks `(4096, 0)` and `(4112, 7984)`
are adjacent.  Releasing the first block first stops in the failed assertion
`size >= 16` of `check_heap`; only the other order gives the one node
`(4096, 8000)`. -/
theorem c5_zero_size_neighbour_aborts :
    ∃ st, Reach st [4128, 4112] ∧ FreeList st [] ∧ blk st 4112 = (4096, 0) ∧
      blk st 4128 = (4112, 7984) ∧
      (blk st 4112).1 + NSIZE + (blk st 4112).2 = (blk st 4128).1 ∧
      freemem 8 4112 st = .error .assertFailed ∧
      ∃ s1 s2, freemem 8 4128 st = .ok s1 ∧ freemem 8 4112 s1 = .ok s2 ∧
        FreeList s2 [(4096, 8000)] := by
  refine ⟨stateOf (getmem 8 sysFail 7984
      (stateOf (getmem 8 (sysAt 8016 4096) (2 ^ 64 - 1) State.init))), ?_, ?_, ?_, ?_, ?_, ?_,
    releasedState (freemem 8 4128 (stateOf (getmem 8 sysFail 7984
      (stateOf (getmem 8 (sysAt 8016 4096) (2 ^ 64 - 1) State.init))))),
    releasedState (freemem 8 4112 (releasedState (freemem 8 4128 (stateOf (getmem 8 sysFail 7984
      (stateOf (getmem 8 (sysAt 8016 4096) (2 ^ 64 - 1) State.init))))))), ?_, ?_, ?_⟩
  · exact reach_zero_pair 4096 (by decide) 7984 4112 4128 _ _ (by decide) (by rfl)
      (by rfl) (by decide) (by decide)
  · decide
  · decide
  · decide
  · decide
  · rfl
  · rfl
  · rfl
  · decide

/-- C14: after `getmem(2^64 - 1)` and `getmem(7984)` on the empty allocator,
the chunk being at 65536, the free list is empty, so the allocated block
`(65536, 0)` touches no free node; its release stops in the failed assertion
`size >= 16` of `check_heap` and adds no node. -/
theorem c14_zero_size_release_aborts :
    ∃ st, Reach st [65568, 65552] ∧ FreeList st [] ∧ blk st 65552 = (65536, 0) ∧
      freemem 8 65552 st = .error .assertFailed := by
  refine ⟨stateOf (getmem 8 sysFail 7984
      (stateOf (getmem 8 (sysAt 8016 65536) (2 ^ 64 - 1) State.init))), ?_, ?_, ?_, ?_⟩
  · exact reach_zero_pair 65536 (by decide) 7984 65552 65568 _ _ (by decide)
      (by rfl) (by rfl) (by decide) (by decide)
  · decide
  · decide
  · rfl

/-- C21: after `getmem(2^64 - 1)` and `getmem(100)` on the empty allocator the
allocated blocks are `(4096, 0)` and `(4112, 112)` and the free list is
`[(4240, 7856)]`.  Releasing the first block and then the second stops in the
failed assertion `size >= 16` of `check_heap`; releasing the second and then
the first returns, with the free list `[(4096, 8000)]`. -/
theorem c21_release_order_matters :
    ∃ st, Reach st [4128, 4112] ∧ FreeList st [(4240, 7856)] ∧ blk st 4112 = (4096, 0) ∧
      blk st 4128 = (4112, 112) ∧ freemem 8 4112 st = .error .assertFailed ∧
      ∃ s1 s2, freemem 8 4128 st = .ok s1 ∧ freemem 8 4112 s1 = .ok s2 ∧
        FreeList s2 [(4096, 8000)] := by
  refine ⟨stateOf (getmem 8 sysFail 100
      (stateOf (getmem 8 (sysAt 8016 4096) (2 ^ 64 - 1) State.init))), ?_, ?_, ?_, ?_, ?_,
    releasedState (freemem 8 4128 (stateOf (getmem 8 sysFail 100
      (stateOf (getmem 8 (sysAt 8016 4096) (2 ^ 64 - 1) State.init))))),
    releasedState (freemem 8 4112 (releasedState (freemem 8 4128 (stateOf (getmem 8 sysFail 100
      (stateOf (getmem 8 (sysAt 8016 4096) (2 ^ 64 - 1) State.init))))))), ?_, ?_, ?_⟩
  · exact reach_zero_pair 4096 (by decide) 100 4112 4128 _ _ (by decide) (by rfl)
      (by rfl) (by decide) (by decide)
  · decide
  · decide
  · decide
  · rfl
  · rfl
  · rfl
  · decide

end MemAlloc
